import Mathlib

/-!
# powercap tree: discovery, teardown and traversal

A shallow embedding of `src/powercap-tree.c` (with `inc/powercap-tree.h`).

Conventions of the embedding:

* a C pointer is a natural number, `NULL` is `0`; the allocator hands out fresh
  non-zero addresses and never reuses one, so the two logs `allocated` and
  `freed` of `Sys` record exactly which blocks were obtained and released;
* the contents of an array block are kept next to the pointer that owns it
  (`children_ptr` / `children`), the path buffer `*zones` is the list `zones`
  of `zones_len` entries;
* `uint32_t` counters wrap modulo `2 ^ 32` where the C code increments them;
* the two functions of `powercap-sysfs.h` used by the tree and the behaviour of
  the allocator are parameters (`Env`); a zone path handed to the oracle is a list
  of fewer than `2 ^ 32` indices, as its `depth` argument is a `uint32_t`;
* loops that C does not bound (`while (!exists) ++`) and the recursion of
  `powercap_tree_node_init` take a fuel argument; `none` means the fuel ran out;
* `Sys.probes` and the `Visit` trace are ghost logs: they record the calls made
  to the existence oracle and to the walk callback and influence nothing.
-/

namespace Powercap

/-- A C pointer: an address, `0` for `NULL`. -/
abbrev Ptr := Nat

/-- The null pointer. -/
def NULL : Ptr := 0

/-- Number of values of a `uint32_t`. -/
def U32 : Nat := 4294967296

/-- The errno value stored when the control type does not exist. -/
def ENODEV : Int := 19

/-- The errno value stored by a failing allocation. -/
def ENOMEM : Int := 12

/-- Initial number of entries of the path buffer (`#define` at line 18). -/
def POWERCAP_TREE_MAX_DEPTH_START : Nat := 64

/-- The part of the process state the tree code shares with its environment:
the allocator logs, the running number of allocation requests, `errno`, and the
log of paths handed to `powercap_sysfs_zone_exists`. -/
structure Sys where
  allocated : List Ptr
  freed : List Ptr
  ncalls : Nat
  errno : Int
  probes : List (List Nat)

/-- A zone path as the C interface can name it: an array of indices together
with a `uint32_t` depth, here the list of the first `depth` entries. -/
abbrev Path := { p : List Nat // p.length < U32 }

/-- The collaborators of the tree code.  Both existence functions return `0`
when the object exists and a non-zero code otherwise.  The function `alloc_fails`
tells whether the allocation request with a given running number fails. -/
structure Env where
  powercap_sysfs_control_type_exists : String → Int
  zone_exists : String → Path → Int
  alloc_fails : Nat → Bool

/-- The call `powercap_sysfs_zone_exists(control_type, zones, depth)`, given the
first `depth` entries of `zones`.  A list of `2 ^ 32` entries or more is no path
of the interface and is reported missing; the tree code never asks about one. -/
def Env.powercap_sysfs_zone_exists (env : Env) (name : String) (p : List Nat) : Int :=
  if h : p.length < U32 then env.zone_exists name ⟨p, h⟩ else -1

/-- One request to `malloc`, `calloc` or `strdup`. -/
def alloc (env : Env) (w : Sys) : Ptr × Sys :=
  if env.alloc_fails w.ncalls then
    (NULL, { w with ncalls := w.ncalls + 1, errno := ENOMEM })
  else
    (w.allocated.length + 1,
      { w with ncalls := w.ncalls + 1, allocated := w.allocated ++ [w.allocated.length + 1] })

/-- The C `free`: releasing `NULL` does nothing. -/
def free (p : Ptr) (w : Sys) : Sys :=
  if p = NULL then w else { w with freed := w.freed ++ [p] }

/-- The C `realloc` to a larger size: on failure the old block stays, on
success the old block is released and a new one returned. -/
def realloc (env : Env) (p : Ptr) (w : Sys) : Ptr × Sys :=
  let r := alloc env w
  if r.1 = NULL then (NULL, r.2) else (r.1, free p r.2)

/-- The `struct powercap_tree_node`: the `children` pointer with the contents of
the array it points to, `n_children`, and the context slot `ctx_node`. -/
inductive powercap_tree_node where
  | mk (children_ptr : Ptr) (children : List powercap_tree_node) (n_children : Nat)
      (ctx_node : Ptr) : powercap_tree_node

namespace powercap_tree_node

/-- The `children` pointer of a node. -/
def children_ptr : powercap_tree_node → Ptr
  | mk p _ _ _ => p

/-- The array the `children` pointer of a node points to. -/
def children : powercap_tree_node → List powercap_tree_node
  | mk _ cs _ _ => cs

/-- The `n_children` field of a node. -/
def n_children : powercap_tree_node → Nat
  | mk _ _ n _ => n

/-- The `ctx_node` field of a node. -/
def ctx_node : powercap_tree_node → Ptr
  | mk _ _ _ c => c

end powercap_tree_node

/-- An array entry as `calloc` delivers it: all fields zero. -/
def zero_node : powercap_tree_node := powercap_tree_node.mk NULL [] 0 NULL

/-- The `struct powercap_tree_root`, with the address of the block holding it
and the address of the copy of the name. -/
structure powercap_tree_root where
  addr : Ptr
  children_ptr : Ptr
  children : List powercap_tree_node
  n_children : Nat
  name_ptr : Ptr
  name : String
  depth_max : Nat

mutual
/-- The function `powercap_tree_node_destroy` (lines 43-49). -/
def powercap_tree_node_destroy : powercap_tree_node → Sys → Sys
  | powercap_tree_node.mk p cs n _, w => free p (destroy_children cs 0 n w)
/-- The loop `for (i = 0; i < n_children; i++) destroy(&children[i])`, run on the
entries from index `i` on. -/
def destroy_children : List powercap_tree_node → Nat → Nat → Sys → Sys
  | [], _, _, w => w
  | c :: cs, i, n, w =>
    if i < n then destroy_children cs (i + 1) n (powercap_tree_node_destroy c w) else w
end

/-- The function `powercap_tree_root_destroy` (lines 158-167). -/
def powercap_tree_root_destroy (ptr : powercap_tree_root) (w : Sys) : Int × Sys :=
  (0, free ptr.addr (free ptr.name_ptr (free ptr.children_ptr
    (destroy_children ptr.children 0 ptr.n_children w))))

/-- The variables `powercap_tree_node_init` reaches through its pointer
arguments: `ptr->depth_max`, `*zones` (address and contents), `*zones_len`, and
the shared process state. -/
structure BuildSt where
  depth_max : Nat
  zones_ptr : Ptr
  zones : List Nat
  zones_len : Nat
  sys : Sys

/-- The loop `while (!powercap_sysfs_zone_exists(name, *zones, depth + 1))
(*zones)[depth]++;` of lines 70-72. -/
def probe_zones (env : Env) (name : String) (depth : Nat) :
    Nat → List Nat → List (List Nat) → Option (List Nat × List (List Nat))
  | 0, _, _ => none
  | fuel + 1, zones, log =>
    if env.powercap_sysfs_zone_exists name (zones.take ((depth + 1) % U32)) = 0 then
      probe_zones env name depth fuel
        (zones.set depth ((zones.getD depth 0 + 1) % U32))
        (log ++ [zones.take ((depth + 1) % U32)])
    else some (zones, log ++ [zones.take ((depth + 1) % U32)])

/-- The loop `while (!powercap_sysfs_zone_exists(name, &ptr->n_children, 1))
ptr->n_children++;` of lines 121-123. -/
def probe_root (env : Env) (name : String) :
    Nat → Nat → List (List Nat) → Option (Nat × List (List Nat))
  | 0, _, _ => none
  | fuel + 1, n, log =>
    if env.powercap_sysfs_zone_exists name [n] = 0 then
      probe_root env name fuel ((n + 1) % U32) (log ++ [[n]])
    else some (n, log ++ [[n]])

/-- The loop `for (i = 0; i < n_children; i++) { ...; if (init(&children[i])) fail }`
shared by lines 83-92 and 141-151, run on the array entries from index `i` on.
The result holds the index at which the body failed, if it did, the array and
the state. -/
def init_children
    (body : Nat → powercap_tree_node → BuildSt → Option (Int × powercap_tree_node × BuildSt))
    (n : Nat) : List powercap_tree_node → Nat → BuildSt →
      Option (Option Nat × List powercap_tree_node × BuildSt)
  | [], _, st => some (none, [], st)
  | c :: cs, i, st =>
    if i < n then
      match body i c st with
      | none => none
      | some (r, c1, st1) =>
        if r ≠ 0 then some (some i, c1 :: cs, st1)
        else
          match init_children body n cs (i + 1) st1 with
          | none => none
          | some (failed, cs1, st2) => some (failed, c1 :: cs1, st2)
    else some (none, c :: cs, st)

/-- Lines 56-58 of `powercap_tree_node_init`: `if (depth > ptr->depth_max)
ptr->depth_max = depth;`. -/
def note_depth (st : BuildSt) (depth : Nat) : BuildSt :=
  if depth > st.depth_max then { st with depth_max := depth } else st

/-- Lines 60-66 of `powercap_tree_node_init`: the path buffer is doubled when
`depth >= *zones_len`.  The flag is `false` when `realloc` failed (the function
then returns `-1`).  The entries the larger block adds are not initialised by
C; they are written before they are read and appear as `0` here. -/
def grow_zones (env : Env) (st : BuildSt) (depth : Nat) : Bool × BuildSt :=
  if depth ≥ st.zones_len then
    let r := realloc env st.zones_ptr st.sys
    if r.1 = NULL then (false, { st with sys := r.2 })
    else
      (true, { st with zones_ptr := r.1, zones := st.zones ++ List.replicate st.zones_len 0,
                       zones_len := st.zones_len * 2, sys := r.2 })
  else (true, st)

/-- Lines 69-72 of `powercap_tree_node_init`: `(*zones)[depth] = 0;` followed by
the probing loop. -/
def count_children (env : Env) (name : String) (fuel : Nat) (st : BuildSt) (depth : Nat) :
    Option BuildSt :=
  match probe_zones env name depth fuel (st.zones.set depth 0) st.sys.probes with
  | none => none
  | some (z, log) => some { st with zones := z, sys := { st.sys with probes := log } }

/-- The function `powercap_tree_node_init` (lines 51-95).  The node `ptn` is the
array entry the C code writes through; the result carries the return value, the
entry as the call leaves it, and the state.  The argument `depth` is a
`uint32_t`: `depth + 1` wraps. -/
def powercap_tree_node_init (env : Env) (name : String) :
    Nat → powercap_tree_node → BuildSt → Nat → Option (Int × powercap_tree_node × BuildSt)
  | 0, _, _, _ => none
  | fuel + 1, ptn, st, depth =>
    let g := grow_zones env (note_depth st depth) depth
    if g.1 = false then some (-1, ptn, g.2)
    else
      match count_children env name (fuel + 1) g.2 depth with
      | none => none
      | some st3 =>
        let n := st3.zones.getD depth 0
        let got : Ptr × Sys :=
          if n ≠ 0 then alloc env st3.sys else (ptn.children_ptr, st3.sys)
        if n ≠ 0 ∧ got.1 = NULL then
          let dead := powercap_tree_node.mk NULL [] 0 ptn.ctx_node
          some (-1, dead,
            { st3 with sys := { powercap_tree_node_destroy dead got.2 with errno := got.2.errno } })
        else
          let arr : List powercap_tree_node :=
            if n ≠ 0 then List.replicate n zero_node else ptn.children
          match init_children
              (fun i c s => powercap_tree_node_init env name fuel c
                { s with zones := s.zones.set depth i } ((depth + 1) % U32))
              n arr 0 { st3 with sys := got.2 } with
          | none => none
          | some (none, arr5, st5) =>
            some (0, powercap_tree_node.mk got.1 arr5 n ptn.ctx_node, st5)
          | some (some i, arr5, st5) =>
            let dead := powercap_tree_node.mk got.1 arr5 i ptn.ctx_node
            some (-1, dead,
              { st5 with sys := { powercap_tree_node_destroy dead st5.sys with
                                  errno := st5.sys.errno } })

/-- The function `powercap_tree_root_init` (lines 97-156).  The inner option is
the returned pointer: `none` for `NULL`. -/
def powercap_tree_root_init (env : Env) (fuel : Nat) (name : String) (w : Sys) :
    Option (Option powercap_tree_root × Sys) :=
  if env.powercap_sysfs_control_type_exists name ≠ 0 then
    some (none, { w with errno := ENODEV })
  else
    let a := alloc env w
    if a.1 = NULL then some (none, a.2)
    else
      let b := alloc env a.2
      if b.1 = NULL then some (none, free a.1 b.2)
      else
        match probe_root env name fuel 0 b.2.probes with
        | none => none
        | some (n, log) =>
          let w2 : Sys := { b.2 with probes := log }
          let c : Ptr × Sys := if n ≠ 0 then alloc env w2 else (NULL, w2)
          if n ≠ 0 ∧ c.1 = NULL then some (none, free a.1 (free b.1 c.2))
          else if n ≠ 0 then
            let arr := List.replicate n zero_node
            let z := alloc env c.2
            if z.1 = NULL then
              let ptr : powercap_tree_root :=
                { addr := a.1, children_ptr := c.1, children := arr, n_children := 0,
                  name_ptr := b.1, name := name, depth_max := 0 }
              let w4 := (powercap_tree_root_destroy ptr z.2).2
              some (none, { w4 with errno := z.2.errno })
            else
              let st : BuildSt :=
                { depth_max := 0, zones_ptr := z.1,
                  zones := List.replicate POWERCAP_TREE_MAX_DEPTH_START 0,
                  zones_len := POWERCAP_TREE_MAX_DEPTH_START, sys := z.2 }
              match init_children
                  (fun i c s => powercap_tree_node_init env name fuel c
                    { s with zones := s.zones.set 0 i } 1)
                  n arr 0 st with
              | none => none
              | some (some i, arr5, st5) =>
                let ptr : powercap_tree_root :=
                  { addr := a.1, children_ptr := c.1, children := arr5, n_children := i,
                    name_ptr := b.1, name := name, depth_max := st5.depth_max }
                let w6 := (powercap_tree_root_destroy ptr st5.sys).2
                let w7 := free st5.zones_ptr w6
                some (none, { w7 with errno := st5.sys.errno })
              | some (none, arr5, st5) =>
                some (some { addr := a.1, children_ptr := c.1, children := arr5, n_children := n,
                             name_ptr := b.1, name := name, depth_max := st5.depth_max },
                      free st5.zones_ptr st5.sys)
          else
            some (some { addr := a.1, children_ptr := NULL, children := [], n_children := 0,
                         name_ptr := b.1, name := name, depth_max := 0 }, c.2)

/-- One invocation of the walk callback, as recorded in the ghost trace: the
path buffer and depth it was given, the slot value it found, its return value
and the slot value it left. -/
structure Visit where
  zones : List Nat
  depth : Nat
  ctx_in : Ptr
  ret : Int
  ctx_out : Ptr

/-- The path a visit was made for: the first `depth` entries of the buffer. -/
def Visit.path (v : Visit) : List Nat := v.zones.take v.depth

/-- The type `powercap_tree_cb`: the callback receives the control type, the
path buffer, the depth and the slot `*ctx_node`; it returns its code and the new
slot value.  Whatever else the callback reads or writes is the state `σ`. -/
abbrev powercap_tree_cb (σ : Type) := String → List Nat → Nat → Ptr → σ → Int × Ptr × σ

/-- The variables of a running walk: the path buffer, the state of the
callback and the ghost trace of its invocations. -/
structure WalkSt (σ : Type) where
  zones : List Nat
  user : σ
  trace : List Visit

mutual
/-- The function `powercap_tree_node_walk` (lines 169-182). -/
def powercap_tree_node_walk {σ : Type} (name : String) (cb : powercap_tree_cb σ) :
    powercap_tree_node → WalkSt σ → Nat → Int × powercap_tree_node × WalkSt σ
  | powercap_tree_node.mk p cs n ctx, s, depth =>
    let r := cb name s.zones depth ctx s.user
    let s1 : WalkSt σ :=
      { s with user := r.2.2, trace := s.trace ++ [⟨s.zones, depth, ctx, r.1, r.2.1⟩] }
    if r.1 ≠ 0 then (r.1, powercap_tree_node.mk p cs n r.2.1, s1)
    else
      let q := walk_children name cb cs 0 n depth r.1 s1
      (q.1, powercap_tree_node.mk p q.2.1 n r.2.1, q.2.2)
/-- The loop `for (i = 0; i < n_children; i++) { zones[depth] = i; if ((ret =
walk(&children[i], depth + 1))) break; }`, run on the entries from index `i` on;
`ret` is the value the variable holds when the loop is entered. -/
def walk_children {σ : Type} (name : String) (cb : powercap_tree_cb σ) :
    List powercap_tree_node → Nat → Nat → Nat → Int → WalkSt σ →
      Int × List powercap_tree_node × WalkSt σ
  | [], _, _, _, ret, s => (ret, [], s)
  | c :: cs, i, n, depth, ret, s =>
    if i < n then
      let r := powercap_tree_node_walk name cb c
        { s with zones := s.zones.set depth (i % U32) } ((depth + 1) % U32)
      if r.1 ≠ 0 then (r.1, r.2.1 :: cs, r.2.2)
      else
        let q := walk_children name cb cs (i + 1) n depth r.1 r.2.2
        (q.1, r.2.1 :: q.2.1, q.2.2)
    else (ret, c :: cs, s)
end

/-- What `powercap_tree_root_walk` leaves behind: its return value, the tree,
the state of the callback, the ghost trace and the process state. -/
structure WalkResult (σ : Type) where
  ret : Int
  root : powercap_tree_root
  user : σ
  trace : List Visit
  sys : Sys

/-- The function `powercap_tree_root_walk` (lines 184-201).  The entries of the
fresh path buffer, which `malloc` leaves undetermined, appear as `0`; the loops
write entry `depth` before the callback is handed `depth + 1` entries. -/
def powercap_tree_root_walk {σ : Type} (env : Env) (ptr : powercap_tree_root)
    (cb : powercap_tree_cb σ) (user : σ) (w : Sys) : WalkResult σ :=
  if ptr.depth_max ≠ 0 then
    let z := alloc env w
    if z.1 = NULL then ⟨-1, ptr, user, [], z.2⟩
    else
      let q := walk_children ptr.name cb ptr.children 0 ptr.n_children 0 0
        ⟨List.replicate ptr.depth_max 0, user, []⟩
      ⟨q.1, { ptr with children := q.2.1 }, q.2.2.user, q.2.2.trace, free z.1 z.2⟩
  else ⟨0, ptr, user, [], w⟩

/-! ## Notions used to state the properties of the tree code -/

mutual
/-- The paths of a node and of the nodes below it that the loops of the tree
code reach, in preorder with ascending index; `P` is the path of the node. -/
def preorder_node (P : List Nat) : powercap_tree_node → List (List Nat)
  | powercap_tree_node.mk _ cs n _ => P :: preorder_children P cs 0 n
/-- The preorder paths of the array entries from index `i` on that lie below
`n_children = n`; `P` is the path of the parent. -/
def preorder_children (P : List Nat) : List powercap_tree_node → Nat → Nat → List (List Nat)
  | [], _, _ => []
  | c :: cs, i, n =>
    if i < n then preorder_node (P ++ [i]) c ++ preorder_children P cs (i + 1) n else []
end

/-- The preorder node sequence of a tree, each node given by its path. -/
def preorder_root (ptr : powercap_tree_root) : List (List Nat) :=
  preorder_children [] ptr.children 0 ptr.n_children

mutual
/-- The context slots of a node and of the nodes below it, in preorder. -/
def slots_node : powercap_tree_node → List Ptr
  | powercap_tree_node.mk _ cs n ctx => ctx :: slots_children cs 0 n
/-- The context slots below the array entries from index `i` on, in preorder. -/
def slots_children : List powercap_tree_node → Nat → Nat → List Ptr
  | [], _, _ => []
  | c :: cs, i, n => if i < n then slots_node c ++ slots_children cs (i + 1) n else []
end

/-- The context slots of a tree, in preorder. -/
def slots_root (ptr : powercap_tree_root) : List Ptr :=
  slots_children ptr.children 0 ptr.n_children

mutual
/-- A node with every context slot in it cleared: what remains is the shape
(pointers, child counts, child order). -/
def strip_node : powercap_tree_node → powercap_tree_node
  | powercap_tree_node.mk p cs n _ => powercap_tree_node.mk p (strip_children cs) n NULL
/-- The entries of an array with every context slot cleared. -/
def strip_children : List powercap_tree_node → List powercap_tree_node
  | [] => []
  | c :: cs => strip_node c :: strip_children cs
end

mutual
/-- Number of levels below a node. -/
def height_node : powercap_tree_node → Nat
  | powercap_tree_node.mk _ cs n _ => height_children cs 0 n
/-- Number of levels spanned by the array entries from index `i` on. -/
def height_children : List powercap_tree_node → Nat → Nat → Nat
  | [], _, _ => 0
  | c :: cs, i, n =>
    if i < n then max (height_node c + 1) (height_children cs (i + 1) n) else 0
end

/-- The block a pointer holds: none for `NULL`. -/
def held (p : Ptr) : List Ptr := if p = NULL then [] else [p]

mutual
/-- The blocks `powercap_tree_node_destroy` releases for a node, in the order
in which it releases them. -/
def owned_node : powercap_tree_node → List Ptr
  | powercap_tree_node.mk p cs n _ => owned_children cs 0 n ++ held p
/-- The blocks released for the array entries from index `i` on. -/
def owned_children : List powercap_tree_node → Nat → Nat → List Ptr
  | [], _, _ => []
  | c :: cs, i, n => if i < n then owned_node c ++ owned_children cs (i + 1) n else []
end

/-- The blocks `powercap_tree_root_destroy` releases, in order. -/
def owned_root (ptr : powercap_tree_root) : List Ptr :=
  owned_children ptr.children 0 ptr.n_children ++ held ptr.children_ptr
    ++ held ptr.name_ptr ++ held ptr.addr

/-- From `w` to `w1` the allocator log grew by fresh consecutive addresses, the
log of released blocks grew, and the count of requests did not go down. -/
def Grows (w w1 : Sys) : Prop :=
  (∃ k, w1.allocated = w.allocated ++ List.range' (w.allocated.length + 1) k) ∧
    (∃ more, w1.freed = w.freed ++ more) ∧ w.ncalls ≤ w1.ncalls

/-- Block accounting between two states: the blocks held by the data at hand
`before`, plus those obtained in between, are those released in between plus the
blocks held `after`; each block is counted with its multiplicity. -/
def Bal (w w1 : Sys) (before after : List Ptr) : Prop :=
  ∀ x, w1.allocated.count x + w.freed.count x + before.count x
    = w.allocated.count x + w1.freed.count x + after.count x

/-- Every allocation request made between `w` and `w1` succeeded. -/
def Clean (env : Env) (w w1 : Sys) : Prop :=
  ∀ j, w.ncalls ≤ j → j < w1.ncalls → env.alloc_fails j = false

/-- Some allocation request made between `w` and `w1` failed. -/
def Failed (env : Env) (w w1 : Sys) : Prop :=
  ∃ j, w.ncalls ≤ j ∧ j < w1.ncalls ∧ env.alloc_fails j = true

mutual
/-- Every child count in the node fits a `uint32_t`. -/
def Narrow : powercap_tree_node → Prop
  | powercap_tree_node.mk _ cs n _ => n < U32 ∧ NarrowL cs
/-- Every child count in the array entries fits a `uint32_t`. -/
def NarrowL : List powercap_tree_node → Prop
  | [] => True
  | c :: cs => Narrow c ∧ NarrowL cs
end

mutual
/-- The node at path `P` is what discovery against the oracle `ex` yields: its
slot is empty, its array holds `n_children` entries, the oracle reports every
index below `n_children` present under `P` and the index `n_children` missing,
and the same holds of every entry.  A path of `2 ^ 32` entries or more cannot be
put to the oracle (its `depth` argument is a `uint32_t`), so for a node at depth
`2 ^ 32 - 1` nothing is said about the missing index. -/
def Discovered (ex : List Nat → Int) : List Nat → powercap_tree_node → Prop
  | P, powercap_tree_node.mk _ cs n ctx =>
    ctx = NULL ∧ cs.length = n ∧ n < U32 ∧ (∀ j, j < n → ex (P ++ [j]) = 0) ∧
      (ex (P ++ [n]) ≠ 0 ∨ U32 ≤ P.length + 1) ∧ DiscoveredL ex P cs 0
/-- The array entries from index `i` on are what discovery yields below `P`. -/
def DiscoveredL (ex : List Nat → Int) : List Nat → List powercap_tree_node → Nat → Prop
  | _, [], _ => True
  | P, c :: cs, i => Discovered ex (P ++ [i]) c ∧ DiscoveredL ex P cs (i + 1)
end

/-- The shape a walk relies on: `depth_max` is the number of levels of the tree
and, like every child count, fits a `uint32_t`. -/
def WellFormed (ptr : powercap_tree_root) : Prop :=
  height_children ptr.children 0 ptr.n_children = ptr.depth_max ∧ ptr.depth_max < U32 ∧
    ptr.n_children < U32 ∧ NarrowL ptr.children

/-- The array entry `children[i]`, when `i < n_children`. -/
def child_at (cs : List powercap_tree_node) (n i : Nat) : Option powercap_tree_node :=
  if i < n then cs[i]? else none

/-- The node reached from an array of `n` children along a non-empty path. -/
def node_at (cs : List powercap_tree_node) (n : Nat) : List Nat → Option powercap_tree_node
  | [] => none
  | [i] => child_at cs n i
  | i :: j :: rest =>
    match child_at cs n i with
    | none => none
    | some c => node_at c.children c.n_children (j :: rest)

/-- The code `ret` and the visits `vs` of a walk over `full` nodes agree with
the stopping rule: either every callback returned `0`, all nodes were visited
and the walk returns `0`, or the last visit is the only one with a non-zero
code, which the walk returns. -/
def Stopped (ret : Int) (vs : List Visit) (full : Nat) : Prop :=
  (ret = 0 ∧ (∀ v ∈ vs, v.ret = 0) ∧ vs.length = full) ∨
  (ret ≠ 0 ∧ vs.length ≤ full ∧
    ∃ init last, vs = init ++ [last] ∧ (∀ v ∈ init, v.ret = 0) ∧ last.ret = ret)

/-- The visit `v` records a call of the callback `cb`: its code and the slot
value it left are what `cb` returns on the arguments recorded. -/
def Genuine {σ : Type} (name : String) (cb : powercap_tree_cb σ) (v : Visit) : Prop :=
  ∃ u, (cb name v.zones v.depth v.ctx_in u).1 = v.ret ∧
    (cb name v.zones v.depth v.ctx_in u).2.1 = v.ctx_out

/-- `p` comes before `q` in preorder with ascending sibling index: `q` extends
`p`, or the two paths part at some position where `p` has the smaller index. -/
def PreorderBefore (p q : List Nat) : Prop :=
  (∃ x, x ≠ [] ∧ q = p ++ x) ∨
  (∃ P i j X Y, i < j ∧ p = P ++ i :: X ∧ q = P ++ j :: Y)

/-- One call of `powercap_tree_node_init`, as recorded in the ghost log of
calls: the `depth` argument and the variables the call finds when it is entered
(`ptr->depth_max`, `*zones`, `*zones_len`, the process state). -/
structure Entry where
  depth : Nat
  st : BuildSt

/-- The variables of a call right after the growth check of lines 56-66. -/
def Entry.checked (env : Env) (e : Entry) : BuildSt :=
  (grow_zones env (note_depth e.st e.depth) e.depth).2

/-- What the build maintains at every call of `powercap_tree_node_init`: the
buffer `*zones` holds `*zones_len` entries, no fewer than the initial capacity;
`depth` is at least `1`, fits a `uint32_t` and is at most the capacity; and the
oracle `ex` reports the path of the node, the first `depth` entries of the
buffer, present. -/
def Entry.fits (ex : List Nat → Int) (e : Entry) : Prop :=
  e.st.zones.length = e.st.zones_len ∧ POWERCAP_TREE_MAX_DEPTH_START ≤ e.st.zones_len ∧
    1 ≤ e.depth ∧ e.depth < U32 ∧ e.depth ≤ e.st.zones_len ∧
    ex (e.st.zones.take e.depth) = 0

/-- The calls of `powercap_tree_node_init` made in the course of the loop
`init_children`, in the order in which they are entered; `ent` lists the calls
one run of the loop body makes, `body` is the loop body itself. -/
def init_children_entries
    (ent : Nat → powercap_tree_node → BuildSt → List Entry)
    (body : Nat → powercap_tree_node → BuildSt → Option (Int × powercap_tree_node × BuildSt))
    (n : Nat) : List powercap_tree_node → Nat → BuildSt → List Entry
  | [], _, _ => []
  | c :: cs, i, st =>
    if i < n then
      ent i c st ++
        (match body i c st with
         | none => []
         | some (r, _, st1) =>
           if r ≠ 0 then [] else init_children_entries ent body n cs (i + 1) st1)
    else []

/-- The calls of `powercap_tree_node_init` made in the course of one call, that
call first, in the order in which they are entered.  The log follows the control
flow of `powercap_tree_node_init` and stops where that function returns or the
fuel runs out. -/
def node_init_entries (env : Env) (name : String) :
    Nat → powercap_tree_node → BuildSt → Nat → List Entry
  | 0, _, st, depth => [⟨depth, st⟩]
  | fuel + 1, ptn, st, depth =>
    ⟨depth, st⟩ ::
      (let g := grow_zones env (note_depth st depth) depth
       if g.1 = false then []
       else
         match count_children env name (fuel + 1) g.2 depth with
         | none => []
         | some st3 =>
           let n := st3.zones.getD depth 0
           let got : Ptr × Sys :=
             if n ≠ 0 then alloc env st3.sys else (ptn.children_ptr, st3.sys)
           if n ≠ 0 ∧ got.1 = NULL then []
           else
             let arr : List powercap_tree_node :=
               if n ≠ 0 then List.replicate n zero_node else ptn.children
             init_children_entries
               (fun i c s => node_init_entries env name fuel c
                 { s with zones := s.zones.set depth i } ((depth + 1) % U32))
               (fun i c s => powercap_tree_node_init env name fuel c
                 { s with zones := s.zones.set depth i } ((depth + 1) % U32))
               n arr 0 { st3 with sys := got.2 })

/-- The calls of `powercap_tree_node_init` made in the course of
`powercap_tree_root_init`, in the order in which they are entered. -/
def root_init_entries (env : Env) (fuel : Nat) (name : String) (w : Sys) : List Entry :=
  if env.powercap_sysfs_control_type_exists name ≠ 0 then []
  else
    let a := alloc env w
    if a.1 = NULL then []
    else
      let b := alloc env a.2
      if b.1 = NULL then []
      else
        match probe_root env name fuel 0 b.2.probes with
        | none => []
        | some (n, log) =>
          let w2 : Sys := { b.2 with probes := log }
          let c : Ptr × Sys := if n ≠ 0 then alloc env w2 else (NULL, w2)
          if n ≠ 0 ∧ c.1 = NULL then []
          else if n ≠ 0 then
            let z := alloc env c.2
            if z.1 = NULL then []
            else
              init_children_entries
                (fun i c s => node_init_entries env name fuel c
                  { s with zones := s.zones.set 0 i } 1)
                (fun i c s => powercap_tree_node_init env name fuel c
                  { s with zones := s.zones.set 0 i } 1)
                n (List.replicate n zero_node) 0
                { depth_max := 0, zones_ptr := z.1,
                  zones := List.replicate POWERCAP_TREE_MAX_DEPTH_START 0,
                  zones_len := POWERCAP_TREE_MAX_DEPTH_START, sys := z.2 }
          else []

/-! ## Concrete environments -/

/-- The process state before anything was allocated or probed. -/
def sys0 : Sys := ⟨[], [], 0, 0, []⟩

/-- The example of the specification: the control type exists, the zones are
`0` and `1`, zone `0` has the single subzone `0`; no allocation fails. -/
def example_env : Env :=
  ⟨fun _ => 0, fun _ p => if p.1 = [0] ∨ p.1 = [0, 0] ∨ p.1 = [1] then 0 else -1,
    fun _ => false⟩

/-- The tree shape of the example of the specification. -/
def example_T : Finset (List Nat) := {[0], [0, 0], [1]}

/-- The callback of `test/powercap-tree-test.c`: it returns `0` and leaves the
slot alone. -/
def test_cb : powercap_tree_cb Unit := fun _ _ _ ctx u => (0, ctx, u)

/-- A callback that marks the slot it is given and returns a non-zero code when
it finds the slot marked. -/
def marking_cb : powercap_tree_cb Unit := fun _ _ _ ctx u => (if ctx = NULL then 0 else 1, 1, u)

/-- An environment with an existing control type without zones in which every
allocation request fails. -/
def starved_env : Env := ⟨fun _ => 0, fun _ _ => -1, fun _ => true⟩

/-- An environment whose control type has the `2 ^ 32` zones `0`, ...,
`2 ^ 32 - 1` and no subzones; no allocation fails. -/
def wide_env : Env :=
  ⟨fun _ => 0, fun _ p => if p.1.length = 1 ∧ ∀ i ∈ p.1, i < U32 then 0 else -1, fun _ => false⟩

/-- The tree shape of `wide_env`: the paths `[i]` for `i < 2 ^ 32`. -/
def wide_T : Finset (List Nat) := (Finset.range U32).image (fun i => [i])

/-- The environment `wide_env` in which the third allocation request fails. -/
def wide_env_failing : Env := { wide_env with alloc_fails := fun k => decide (k = 2) }

/-- An environment whose control type holds one chain of zones `[0]`, `[0,0]`,
..., down to depth `h`; no allocation fails. -/
def chain_env (h : Nat) : Env :=
  ⟨fun _ => 0,
    fun _ p => if p.1 ≠ [] ∧ p.1.length ≤ h ∧ ∀ i ∈ p.1, i = 0 then 0 else -1,
    fun _ => false⟩

/-- An environment whose oracle reports present the paths made of zeros only,
the empty path included: one chain of zones down to depth `2 ^ 32 - 1`; no
allocation fails. -/
def deep_env : Env :=
  ⟨fun _ => 0, fun _ p => if ∀ i ∈ p.1, i = 0 then 0 else -1, fun _ => false⟩

/-- The paths `deep_env` reports present: `k` zeros for every `k < 2 ^ 32`. -/
def deep_T : Finset (List Nat) := (Finset.range U32).image (fun k => List.replicate k 0)

end Powercap

namespace Powercap

theorem stopped_cons {ret : Int} {vs : List Visit} {full : Nat} (v0 : Visit) (h0 : v0.ret = 0)
    (h : Stopped ret vs full) : Stopped ret (v0 :: vs) (full + 1) := by
  rcases h with ⟨hr, hall, hlen⟩ | ⟨hr, hlen, init, last, hvs, hinit, hlast⟩
  · left
    refine ⟨hr, ?_, by simp [hlen]⟩
    intro v hv
    rcases List.mem_cons.1 hv with rfl | hv
    · exact h0
    · exact hall v hv
  · right
    refine ⟨hr, by simp; omega, v0 :: init, last, by simp [hvs], ?_, hlast⟩
    intro v hv
    rcases List.mem_cons.1 hv with rfl | hv
    · exact h0
    · exact hinit v hv

theorem stopped_append {ret : Int} {vs1 vs2 : List Visit} {full1 full2 : Nat}
    (h1 : ∀ v ∈ vs1, v.ret = 0) (hl : vs1.length = full1)
    (h : Stopped ret vs2 full2) : Stopped ret (vs1 ++ vs2) (full1 + full2) := by
  rcases h with ⟨hr, hall, hlen⟩ | ⟨hr, hlen, init, last, hvs, hinit, hlast⟩
  · left
    refine ⟨hr, ?_, by simp [hlen, hl]⟩
    intro v hv
    rcases List.mem_append.1 hv with hv | hv
    · exact h1 v hv
    · exact hall v hv
  · right
    refine ⟨hr, by simp; omega, vs1 ++ init, last, by simp [hvs], ?_, hlast⟩
    intro v hv
    rcases List.mem_append.1 hv with hv | hv
    · exact h1 v hv
    · exact hinit v hv

theorem stopped_widen {ret : Int} {vs : List Visit} {full : Nat} (extra : Nat) (hr : ret ≠ 0)
    (h : Stopped ret vs full) : Stopped ret vs (full + extra) := by
  rcases h with ⟨h0, _, _⟩ | ⟨_, hlen, rest⟩
  · exact absurd h0 hr
  · exact Or.inr ⟨hr, by omega, rest⟩

theorem stopped_zero {ret : Int} {vs : List Visit} {full : Nat} (hr : ret = 0)
    (h : Stopped ret vs full) : (∀ v ∈ vs, v.ret = 0) ∧ vs.length = full := by
  rcases h with ⟨_, hall, hlen⟩ | ⟨h0, _⟩
  · exact ⟨hall, hlen⟩
  · exact absurd hr h0

theorem stopped_le {ret : Int} {vs : List Visit} {full : Nat}
    (h : Stopped ret vs full) : vs.length ≤ full := by
  rcases h with ⟨_, _, hlen⟩ | ⟨_, hlen, _⟩
  · omega
  · exact hlen

theorem take_of_take_succ {a b : List Nat} {d : Nat} (h : a.take (d + 1) = b.take (d + 1)) :
    a.take d = b.take d := by
  have := congrArg (List.take d) h
  simpa [List.take_take] using this

theorem take_set_succ (z : List Nat) (d i : Nat) (hd : d < z.length) :
    (z.set d i).take (d + 1) = z.take d ++ [i] := by
  induction z generalizing d with
  | nil => simp at hd
  | cons a z ih =>
    cases d with
    | zero => simp
    | succ d =>
      simp only [List.length_cons] at hd
      simp [List.set, ih d (by omega)]

mutual
theorem preorder_node_length :
    ∀ (t : powercap_tree_node) (P : List Nat),
      (preorder_node P t).length = (slots_node t).length
  | powercap_tree_node.mk _ cs n _, P => by
    simp [preorder_node, slots_node, preorder_children_length cs P 0 n]
theorem preorder_children_length :
    ∀ (cs : List powercap_tree_node) (P : List Nat) (i n : Nat),
      (preorder_children P cs i n).length = (slots_children cs i n).length
  | [], _, _, _ => by simp [preorder_children, slots_children]
  | c :: cs, P, i, n => by
    by_cases h : i < n
    · simp [preorder_children, slots_children, h, preorder_node_length c (P ++ [i]),
        preorder_children_length cs P (i + 1) n]
    · simp [preorder_children, slots_children, h]
end

theorem node_walk_stop {σ : Type} {name : String} {cb : powercap_tree_cb σ}
    {p : Ptr} {cs : List powercap_tree_node} {n : Nat} {ctx : Ptr} {s : WalkSt σ} {d : Nat}
    {r : Int} {out : Ptr} {u : σ} (hcb : cb name s.zones d ctx s.user = (r, out, u))
    (hr : r ≠ 0) :
    powercap_tree_node_walk name cb (powercap_tree_node.mk p cs n ctx) s d
      = (r, powercap_tree_node.mk p cs n out,
          ⟨s.zones, u, s.trace ++ [⟨s.zones, d, ctx, r, out⟩]⟩) := by
  simp [powercap_tree_node_walk, hcb, hr]

theorem node_walk_go {σ : Type} {name : String} {cb : powercap_tree_cb σ}
    {p : Ptr} {cs : List powercap_tree_node} {n : Nat} {ctx : Ptr} {s : WalkSt σ} {d : Nat}
    {r : Int} {out : Ptr} {u : σ} (hcb : cb name s.zones d ctx s.user = (r, out, u))
    (hr : r = 0) {ret : Int} {cs1 : List powercap_tree_node} {s1 : WalkSt σ}
    (hq : walk_children name cb cs 0 n d 0 ⟨s.zones, u, s.trace ++ [⟨s.zones, d, ctx, 0, out⟩]⟩
      = (ret, cs1, s1)) :
    powercap_tree_node_walk name cb (powercap_tree_node.mk p cs n ctx) s d
      = (ret, powercap_tree_node.mk p cs1 n out, s1) := by
  subst hr
  simp [powercap_tree_node_walk, hcb, hq]

theorem walk_children_skip {σ : Type} {name : String} {cb : powercap_tree_cb σ}
    {c : powercap_tree_node} {cs : List powercap_tree_node} {i n d : Nat} {ret : Int}
    {s : WalkSt σ} (h : ¬ i < n) :
    walk_children name cb (c :: cs) i n d ret s = (ret, c :: cs, s) := by
  simp [walk_children, h]

theorem walk_children_stop {σ : Type} {name : String} {cb : powercap_tree_cb σ}
    {c : powercap_tree_node} {cs : List powercap_tree_node} {i n d : Nat} {ret : Int}
    {s : WalkSt σ} (h : i < n) {r : Int} {c1 : powercap_tree_node} {s1 : WalkSt σ}
    (hc : powercap_tree_node_walk name cb c ⟨s.zones.set d (i % U32), s.user, s.trace⟩
      ((d + 1) % U32) = (r, c1, s1)) (hr : r ≠ 0) :
    walk_children name cb (c :: cs) i n d ret s = (r, c1 :: cs, s1) := by
  simp [walk_children, h, hc, hr]

theorem walk_children_go {σ : Type} {name : String} {cb : powercap_tree_cb σ}
    {c : powercap_tree_node} {cs : List powercap_tree_node} {i n d : Nat} {ret : Int}
    {s : WalkSt σ} (h : i < n) {r : Int} {c1 : powercap_tree_node} {s1 : WalkSt σ}
    (hc : powercap_tree_node_walk name cb c ⟨s.zones.set d (i % U32), s.user, s.trace⟩
      ((d + 1) % U32) = (r, c1, s1)) (hr : r = 0)
    {ret2 : Int} {cs2 : List powercap_tree_node} {s2 : WalkSt σ}
    (hq : walk_children name cb cs (i + 1) n d 0 s1 = (ret2, cs2, s2)) :
    walk_children name cb (c :: cs) i n d ret s = (ret2, c1 :: cs2, s2) := by
  subst hr
  simp [walk_children, h, hc, hq]

mutual
theorem node_walk_spec {σ : Type} (name : String) (cb : powercap_tree_cb σ) :
    ∀ (t : powercap_tree_node) (s : WalkSt σ) (d : Nat) (ret : Int)
      (t1 : powercap_tree_node) (s1 : WalkSt σ),
      powercap_tree_node_walk name cb t s d = (ret, t1, s1) →
      ∃ vs : List Visit,
        s1.trace = s.trace ++ vs ∧
        strip_node t1 = strip_node t ∧
        vs.map Visit.ctx_in = (slots_node t).take vs.length ∧
        slots_node t1 = vs.map Visit.ctx_out ++ (slots_node t).drop vs.length ∧
        Stopped ret vs (slots_node t).length ∧
        (d ≤ s.zones.length → d + height_node t ≤ s.zones.length →
          d + height_node t < U32 → Narrow t →
          s1.zones.length = s.zones.length ∧
          s1.zones.take d = s.zones.take d ∧
          vs.map Visit.path = (preorder_node (s.zones.take d) t).take vs.length ∧
          ∀ v ∈ vs, v.path.length = v.depth)
  | powercap_tree_node.mk p cs n ctx, s, d, ret, t1, s1, h => by
    rcases hcb : cb name s.zones d ctx s.user with ⟨r, out, u⟩
    by_cases hr : r = 0
    · rcases hq : walk_children name cb cs 0 n d 0
        ⟨s.zones, u, s.trace ++ [⟨s.zones, d, ctx, 0, out⟩]⟩ with ⟨ret2, cs2, s2⟩
      rw [node_walk_go hcb hr hq] at h
      obtain ⟨rfl, rfl, rfl⟩ : ret2 = ret ∧ powercap_tree_node.mk p cs2 n out = t1 ∧ s2 = s1 := by
        simpa using h
      obtain ⟨vs, htr, hstrip, hin, hout, hstop, hpath⟩ :=
        walk_children_spec name cb cs 0 n d 0 _ _ _ _ rfl hq
      refine ⟨⟨s.zones, d, ctx, 0, out⟩ :: vs, ?_, ?_, ?_, ?_, ?_, ?_⟩
      · simpa using htr
      · simp [strip_node, hstrip]
      · simp [slots_node, hin]
      · simp [slots_node, hout]
      · simp only [slots_node, List.length_cons]
        exact stopped_cons _ rfl hstop
      · intro hd hh hu hn
        simp only [height_node] at hh hu
        simp only [Narrow] at hn
        obtain ⟨hlen, htake, hp, hdep⟩ := hpath hd hh hu hn.1 hn.2
        refine ⟨hlen, htake, ?_, ?_⟩
        · simp [preorder_node, Visit.path]
          simpa using hp
        · intro v hv
          rcases List.mem_cons.1 hv with rfl | hv
          · simp [Visit.path]; omega
          · exact hdep v hv
    · rw [node_walk_stop hcb hr] at h
      obtain ⟨rfl, rfl, rfl⟩ : r = ret ∧ powercap_tree_node.mk p cs n out = t1 ∧
          (⟨s.zones, u, s.trace ++ [⟨s.zones, d, ctx, r, out⟩]⟩ : WalkSt σ) = s1 := by
        simpa using h
      refine ⟨[⟨s.zones, d, ctx, r, out⟩], rfl, ?_, ?_, ?_, ?_, ?_⟩
      · simp [strip_node]
      · simp [slots_node]
      · simp [slots_node]
      · simp only [slots_node, List.length_cons]
        exact Or.inr ⟨hr, by simp, [], _, rfl, by simp, rfl⟩
      · intro hd hh hu hn
        simp [preorder_node, Visit.path]
        omega
theorem walk_children_spec {σ : Type} (name : String) (cb : powercap_tree_cb σ) :
    ∀ (cs : List powercap_tree_node) (i n d : Nat) (ret0 : Int) (s : WalkSt σ) (ret : Int)
      (cs1 : List powercap_tree_node) (s1 : WalkSt σ), ret0 = 0 →
      walk_children name cb cs i n d ret0 s = (ret, cs1, s1) →
      ∃ vs : List Visit,
        s1.trace = s.trace ++ vs ∧
        strip_children cs1 = strip_children cs ∧
        vs.map Visit.ctx_in = (slots_children cs i n).take vs.length ∧
        slots_children cs1 i n = vs.map Visit.ctx_out ++ (slots_children cs i n).drop vs.length ∧
        Stopped ret vs (slots_children cs i n).length ∧
        (d ≤ s.zones.length → d + height_children cs i n ≤ s.zones.length →
          d + height_children cs i n < U32 → n < U32 → NarrowL cs →
          s1.zones.length = s.zones.length ∧
          s1.zones.take d = s.zones.take d ∧
          vs.map Visit.path = (preorder_children (s.zones.take d) cs i n).take vs.length ∧
          ∀ v ∈ vs, v.path.length = v.depth)
  | [], i, n, d, ret0, s, ret, cs1, s1, hret, h => by
    simp only [walk_children] at h
    obtain ⟨rfl, rfl, rfl⟩ : ret0 = ret ∧ [] = cs1 ∧ s = s1 := by simpa using h
    refine ⟨[], ?_, ?_, ?_, ?_, ?_, ?_⟩ <;>
      simp [slots_children, preorder_children, hret, Stopped]
  | c :: cs, i, n, d, ret0, s, ret, cs1, s1, hret, h => by
    by_cases hin : i < n
    · rcases hc : powercap_tree_node_walk name cb c ⟨s.zones.set d (i % U32), s.user, s.trace⟩
        ((d + 1) % U32) with ⟨r, c1, sc⟩
      obtain ⟨vs1, htr1, hstrip1, hin1, hout1, hstop1, hpath1⟩ :=
        node_walk_spec name cb c _ _ _ _ _ hc
      by_cases hr : r = 0
      · rcases hq : walk_children name cb cs (i + 1) n d 0 sc with ⟨ret2, cs2, s2⟩
        rw [walk_children_go hin hc hr hq] at h
        obtain ⟨rfl, rfl, rfl⟩ : ret2 = ret ∧ c1 :: cs2 = cs1 ∧ s2 = s1 := by simpa using h
        obtain ⟨vs2, htr2, hstrip2, hin2, hout2, hstop2, hpath2⟩ :=
          walk_children_spec name cb cs (i + 1) n d 0 _ _ _ _ rfl hq
        obtain ⟨hz1, hl1⟩ := stopped_zero hr hstop1
        refine ⟨vs1 ++ vs2, ?_, ?_, ?_, ?_, ?_, ?_⟩
        · simp [htr2, htr1]
        · simp [strip_children, hstrip1, hstrip2]
        · simp only [slots_children, hin, if_true, List.map_append, List.length_append, hl1]
          rw [List.take_append, hin1, hin2, hl1, List.take_length]
        · simp only [hin, if_true, slots_children, List.map_append,
            List.length_append, hl1]
          rw [hout1, hout2, hl1, List.drop_length, List.drop_append]
          simp
        · simp only [hin, if_true, slots_children, List.length_append]
          exact stopped_append hz1 hl1 hstop2
        · intro hd hh hu hn hN
          simp only [height_children, hin, if_true] at hh hu
          simp only [NarrowL] at hN
          have hlt : d < s.zones.length := by omega
          have hi : i % U32 = i := Nat.mod_eq_of_lt (by omega)
          have hd1 : (d + 1) % U32 = d + 1 := Nat.mod_eq_of_lt (by omega)
          rw [hi, hd1] at hc
          rw [hd1] at hpath1
          simp only [hi] at hpath1
          obtain ⟨hlen1, htake1, hp1, hdep1⟩ :=
            hpath1 (by simp; omega) (by simp; omega) (by omega) hN.1
          simp only [List.length_set] at hlen1
          rw [take_set_succ _ _ _ hlt] at htake1 hp1
          have htk : sc.zones.take d = s.zones.take d := by
            have h2 := congrArg (List.take d) htake1
            rw [List.take_take, List.take_append_of_le_length (by simp; omega),
              List.take_take] at h2
            simpa using h2
          obtain ⟨hlen2, htake2, hp2, hdep2⟩ :=
            hpath2 (by omega) (by omega) (by omega) hn hN.2
          rw [htk] at hp2
          refine ⟨by omega, by rw [htake2, htk], ?_, ?_⟩
          · simp only [preorder_children, hin, if_true, List.map_append, List.length_append]
            have hpl : (preorder_node (s.zones.take d ++ [i]) c).length = vs1.length := by
              rw [preorder_node_length, hl1]
            have e1 : List.take vs1.length (preorder_node (s.zones.take d ++ [i]) c)
                = preorder_node (s.zones.take d ++ [i]) c := by
              rw [← hpl]; exact List.take_length _
            rw [hp1, hp2, e1, ← hpl, List.take_append]
          · intro v hv
            rcases List.mem_append.1 hv with hv | hv
            · exact hdep1 v hv
            · exact hdep2 v hv
      · rw [walk_children_stop hin hc hr] at h
        obtain ⟨rfl, rfl, rfl⟩ : r = ret ∧ c1 :: cs = cs1 ∧ sc = s1 := by simpa using h
        refine ⟨vs1, htr1, ?_, ?_, ?_, ?_, ?_⟩
        · simp [strip_children, hstrip1]
        · simp only [slots_children, hin, if_true]
          rw [List.take_append_of_le_length (stopped_le hstop1)]
          exact hin1
        · simp only [hin, if_true, slots_children]
          rw [hout1, List.drop_append_of_le_length (stopped_le hstop1)]
          simp
        · simp only [hin, if_true, slots_children, List.length_append]
          exact stopped_widen _ hr hstop1
        · intro hd hh hu hn hN
          simp only [height_children, hin, if_true] at hh hu
          simp only [NarrowL] at hN
          have hlt : d < s.zones.length := by omega
          have hi : i % U32 = i := Nat.mod_eq_of_lt (by omega)
          have hd1 : (d + 1) % U32 = d + 1 := Nat.mod_eq_of_lt (by omega)
          rw [hd1] at hpath1
          simp only [hi] at hpath1
          obtain ⟨hlen1, htake1, hp1, hdep1⟩ :=
            hpath1 (by simp; omega) (by simp; omega) (by omega) hN.1
          simp only [List.length_set] at hlen1
          rw [take_set_succ _ _ _ hlt] at htake1 hp1
          have htk : sc.zones.take d = s.zones.take d := by
            have h2 := congrArg (List.take d) htake1
            rw [List.take_take, List.take_append_of_le_length (by simp; omega),
              List.take_take] at h2
            simpa using h2
          refine ⟨hlen1, htk, ?_, hdep1⟩
          simp only [preorder_children, hin, if_true]
          rw [List.take_append_of_le_length
            (by rw [preorder_node_length]; exact stopped_le hstop1)]
          exact hp1
    · rw [walk_children_skip hin] at h
      obtain ⟨rfl, rfl, rfl⟩ : ret0 = ret ∧ c :: cs = cs1 ∧ s = s1 := by simpa using h
      refine ⟨[], ?_, ?_, ?_, ?_, ?_, ?_⟩ <;>
        simp [slots_children, preorder_children, hin, hret, Stopped]
end

end Powercap

namespace Powercap

/-! ### The probing loops -/

theorem set_set_same (z : List Nat) (d a b : Nat) : (z.set d a).set d b = z.set d b := by
  induction z generalizing d with
  | nil => simp
  | cons x z ih =>
    cases d with
    | zero => simp
    | succ d => simp [ih]

theorem getD_set_same (z : List Nat) (d a : Nat) (hd : d < z.length) :
    (z.set d a).getD d 0 = a := by
  simp [List.getD, hd]

theorem probe_zones_diverges (env : Env) (name : String) (d : Nat) (base : List Nat)
    (hd : d < base.length)
    (hall : ∀ j, j < U32 →
      env.powercap_sysfs_zone_exists name ((base.set d j).take ((d + 1) % U32)) = 0) :
    ∀ (fuel v : Nat) (log : List (List Nat)), v < U32 →
      probe_zones env name d fuel (base.set d v) log = none := by
  intro fuel
  induction fuel with
  | zero => intro v log _; rfl
  | succ fuel ih =>
    intro v log hv
    have hpos : 0 < U32 := by decide
    simp only [probe_zones, hall v hv, if_true, getD_set_same _ _ _ hd, set_set_same]
    exact ih _ _ (Nat.mod_lt _ hpos)

theorem probe_zones_spec (env : Env) (name : String) (d : Nat) (base : List Nat)
    (hd : d < base.length) :
    ∀ (fuel v : Nat) (log : List (List Nat)) (z1 : List Nat) (log1 : List (List Nat)),
      v < U32 →
      (∀ j, j < v →
        env.powercap_sysfs_zone_exists name ((base.set d j).take ((d + 1) % U32)) = 0) →
      probe_zones env name d fuel (base.set d v) log = some (z1, log1) →
      ∃ k, k < U32 ∧ z1 = base.set d k ∧
        (∀ j, j < k →
          env.powercap_sysfs_zone_exists name ((base.set d j).take ((d + 1) % U32)) = 0) ∧
        env.powercap_sysfs_zone_exists name ((base.set d k).take ((d + 1) % U32)) ≠ 0 := by
  intro fuel
  induction fuel with
  | zero => intro v log z1 log1 _ _ h; simp [probe_zones] at h
  | succ fuel ih =>
    intro v log z1 log1 hv hbelow h
    by_cases hex :
        env.powercap_sysfs_zone_exists name ((base.set d v).take ((d + 1) % U32)) = 0
    · simp only [probe_zones, hex, if_true, getD_set_same _ _ _ hd, set_set_same] at h
      have hbelow1 : ∀ j, j < v + 1 →
          env.powercap_sysfs_zone_exists name ((base.set d j).take ((d + 1) % U32)) = 0 := by
        intro j hj
        rcases Nat.lt_succ_iff_lt_or_eq.1 hj with hj | rfl
        · exact hbelow j hj
        · exact hex
      by_cases hw : v + 1 < U32
      · rw [Nat.mod_eq_of_lt hw] at h
        exact ih _ _ _ _ hw hbelow1 h
      · have hv1 : v + 1 = U32 := by omega
        have hdiv := probe_zones_diverges env name d base hd
          (fun j hj => hbelow1 j (by omega)) fuel ((v + 1) % U32)
          (log ++ [(base.set d v).take ((d + 1) % U32)]) (Nat.mod_lt _ (by decide))
        rw [hdiv] at h
        exact absurd h (by simp)
    · simp only [probe_zones, hex, if_false] at h
      obtain ⟨rfl, -⟩ : base.set d v = z1 ∧ _ := by simpa using h
      exact ⟨v, hv, rfl, hbelow, hex⟩

theorem probe_zones_some (env : Env) (name : String) (d : Nat) (base : List Nat)
    (hd : d < base.length) (k : Nat) (hk : k < U32)
    (hmiss : env.powercap_sysfs_zone_exists name ((base.set d k).take ((d + 1) % U32)) ≠ 0) :
    ∀ (fuel v : Nat) (log : List (List Nat)), v ≤ k → k - v < fuel →
      ∃ r, probe_zones env name d fuel (base.set d v) log = some r := by
  intro fuel
  induction fuel with
  | zero => intro v log _ h; omega
  | succ fuel ih =>
    intro v log hvk hf
    by_cases hex :
        env.powercap_sysfs_zone_exists name ((base.set d v).take ((d + 1) % U32)) = 0
    · have hne : v ≠ k := by
        rintro rfl
        exact hmiss hex
      simp only [probe_zones, hex, if_true, getD_set_same _ _ _ hd, set_set_same]
      rw [Nat.mod_eq_of_lt (by omega)]
      exact ih _ _ (by omega) (by omega)
    · simp only [probe_zones, hex, if_false]
      exact ⟨_, rfl⟩

theorem probe_root_diverges (env : Env) (name : String)
    (hall : ∀ j, j < U32 → env.powercap_sysfs_zone_exists name [j] = 0) :
    ∀ (fuel v : Nat) (log : List (List Nat)), v < U32 →
      probe_root env name fuel v log = none := by
  intro fuel
  induction fuel with
  | zero => intro v log _; rfl
  | succ fuel ih =>
    intro v log hv
    simp only [probe_root, hall v hv, if_true]
    exact ih _ _ (Nat.mod_lt _ (by decide))

theorem probe_root_spec (env : Env) (name : String) :
    ∀ (fuel v : Nat) (log : List (List Nat)) (k : Nat) (log1 : List (List Nat)),
      v < U32 →
      (∀ j, j < v → env.powercap_sysfs_zone_exists name [j] = 0) →
      probe_root env name fuel v log = some (k, log1) →
      k < U32 ∧ (∀ j, j < k → env.powercap_sysfs_zone_exists name [j] = 0) ∧
        env.powercap_sysfs_zone_exists name [k] ≠ 0 := by
  intro fuel
  induction fuel with
  | zero => intro v log k log1 _ _ h; simp [probe_root] at h
  | succ fuel ih =>
    intro v log k log1 hv hbelow h
    by_cases hex : env.powercap_sysfs_zone_exists name [v] = 0
    · simp only [probe_root, hex, if_true] at h
      have hbelow1 : ∀ j, j < v + 1 → env.powercap_sysfs_zone_exists name [j] = 0 := by
        intro j hj
        rcases Nat.lt_succ_iff_lt_or_eq.1 hj with hj | rfl
        · exact hbelow j hj
        · exact hex
      by_cases hw : v + 1 < U32
      · rw [Nat.mod_eq_of_lt hw] at h
        exact ih _ _ _ _ hw hbelow1 h
      · have hdiv := probe_root_diverges env name
          (fun j hj => hbelow1 j (by omega)) fuel ((v + 1) % U32)
          (log ++ [[v]]) (Nat.mod_lt _ (by decide))
        rw [hdiv] at h
        exact absurd h (by simp)
    · simp only [probe_root, hex, if_false] at h
      obtain ⟨rfl, -⟩ : v = k ∧ _ := by simpa using h
      exact ⟨hv, hbelow, hex⟩

theorem probe_root_some (env : Env) (name : String) (k : Nat) (hk : k < U32)
    (hmiss : env.powercap_sysfs_zone_exists name [k] ≠ 0) :
    ∀ (fuel v : Nat) (log : List (List Nat)), v ≤ k → k - v < fuel →
      ∃ r, probe_root env name fuel v log = some r := by
  intro fuel
  induction fuel with
  | zero => intro v log _ h; omega
  | succ fuel ih =>
    intro v log hvk hf
    by_cases hex : env.powercap_sysfs_zone_exists name [v] = 0
    · have hne : v ≠ k := by
        rintro rfl
        exact hmiss hex
      simp only [probe_root, hex, if_true]
      rw [Nat.mod_eq_of_lt (by omega)]
      exact ih _ _ (by omega) (by omega)
    · simp only [probe_root, hex, if_false]
      exact ⟨_, rfl⟩

/-- The probing loops only add to the log of probes. -/
theorem probe_zones_log (env : Env) (name : String) (d : Nat) :
    ∀ (fuel : Nat) (z : List Nat) (log : List (List Nat)) (z1 : List Nat)
      (log1 : List (List Nat)),
      probe_zones env name d fuel z log = some (z1, log1) → ∃ more, log1 = log ++ more := by
  intro fuel
  induction fuel with
  | zero => intro z log z1 log1 h; simp [probe_zones] at h
  | succ fuel ih =>
    intro z log z1 log1 h
    simp only [probe_zones] at h
    split at h
    · obtain ⟨more, hm⟩ := ih _ _ _ _ h
      exact ⟨List.take ((d + 1) % U32) z :: more, by simp [hm]⟩
    · obtain ⟨-, rfl⟩ : z = z1 ∧ _ = log1 := by simpa using h
      exact ⟨_, rfl⟩

end Powercap

namespace Powercap

/-! ### Unfolding the init loop and `powercap_tree_node_init` -/

theorem sys_errno_self (w : Sys) : ({ w with errno := w.errno } : Sys) = w := by
  cases w; rfl

theorem init_children_cons_inv
    {body : Nat → powercap_tree_node → BuildSt → Option (Int × powercap_tree_node × BuildSt)}
    {n : Nat} {c : powercap_tree_node} {cs : List powercap_tree_node} {i : Nat} {st : BuildSt}
    {f : Option Nat} {arr1 : List powercap_tree_node} {st1 : BuildSt}
    (h : init_children body n (c :: cs) i st = some (f, arr1, st1)) (hi : i < n) :
    ∃ r c1 s1, body i c st = some (r, c1, s1) ∧
      ((r ≠ 0 ∧ f = some i ∧ arr1 = c1 :: cs ∧ st1 = s1) ∨
       (r = 0 ∧ ∃ cs1, init_children body n cs (i + 1) s1 = some (f, cs1, st1) ∧
          arr1 = c1 :: cs1)) := by
  simp only [init_children, hi, if_true] at h
  rcases hb : body i c st with _ | ⟨r, c1, s1⟩
  · simp [hb] at h
  · simp only [hb] at h
    refine ⟨r, c1, s1, rfl, ?_⟩
    by_cases hr : r = 0
    · right
      simp only [hr, ne_eq, not_true_eq_false, if_false] at h
      rcases hq : init_children body n cs (i + 1) s1 with _ | ⟨f2, cs2, s2⟩
      · simp [hq] at h
      · simp only [hq] at h
        obtain ⟨rfl, rfl, rfl⟩ : f2 = f ∧ c1 :: cs2 = arr1 ∧ s2 = st1 := by simpa using h
        exact ⟨hr, cs2, rfl, rfl⟩
    · left
      simp only [ne_eq, hr, not_false_eq_true, if_true] at h
      obtain ⟨rfl, rfl, rfl⟩ : some i = f ∧ c1 :: cs = arr1 ∧ s1 = st1 := by simpa using h
      exact ⟨hr, rfl, rfl, rfl⟩

theorem init_children_nil
    {body : Nat → powercap_tree_node → BuildSt → Option (Int × powercap_tree_node × BuildSt)}
    {n i : Nat} {st : BuildSt} :
    init_children body n [] i st = some (none, [], st) := rfl

theorem init_children_cons_some
    {body : Nat → powercap_tree_node → BuildSt → Option (Int × powercap_tree_node × BuildSt)}
    {n : Nat} {c : powercap_tree_node} {cs : List powercap_tree_node} {i : Nat} {st : BuildSt}
    (hi : i < n) {r : Int} {c1 : powercap_tree_node} {s1 : BuildSt}
    (hb : body i c st = some (r, c1, s1))
    (hrest : r = 0 → ∃ q, init_children body n cs (i + 1) s1 = some q) :
    ∃ q, init_children body n (c :: cs) i st = some q := by
  simp only [init_children, hi, if_true, hb]
  by_cases hr : r = 0
  · obtain ⟨q, hq⟩ := hrest hr
    simp [hr, hq]
  · simp [hr]

/-- The body of the loop of lines 83-92 in a call at depth `d` with fuel
`fuel + 1`. -/
theorem node_init_inv {env : Env} {name : String} {fuel : Nat} {st : BuildSt} {d : Nat}
    {r : Int} {t : powercap_tree_node} {st1 : BuildSt}
    (h : powercap_tree_node_init env name (fuel + 1) zero_node st d = some (r, t, st1)) :
    ((grow_zones env (note_depth st d) d).1 = false ∧ r = -1 ∧ t = zero_node ∧
      st1 = (grow_zones env (note_depth st d) d).2) ∨
    ((grow_zones env (note_depth st d) d).1 = true ∧
      ∃ st3, count_children env name (fuel + 1) (grow_zones env (note_depth st d) d).2 d
          = some st3 ∧
        ((st3.zones.getD d 0 ≠ 0 ∧ (alloc env st3.sys).1 = NULL ∧ r = -1 ∧ t = zero_node ∧
            st1 = { st3 with sys := (alloc env st3.sys).2 }) ∨
         (∃ p w4, ((st3.zones.getD d 0 = 0 ∧ p = NULL ∧ w4 = st3.sys) ∨
                   (st3.zones.getD d 0 ≠ 0 ∧ alloc env st3.sys = (p, w4) ∧ p ≠ NULL)) ∧
            ∃ f arr5 st5,
              init_children
                (fun i c s => powercap_tree_node_init env name fuel c
                  { s with zones := s.zones.set d i } ((d + 1) % U32))
                (st3.zones.getD d 0) (List.replicate (st3.zones.getD d 0) zero_node) 0
                { st3 with sys := w4 } = some (f, arr5, st5) ∧
              ((f = none ∧ r = 0 ∧
                  t = powercap_tree_node.mk p arr5 (st3.zones.getD d 0) NULL ∧ st1 = st5) ∨
               (∃ i, f = some i ∧ r = -1 ∧ t = powercap_tree_node.mk p arr5 i NULL ∧
                  st1 = { st5 with sys :=
                    { powercap_tree_node_destroy (powercap_tree_node.mk p arr5 i NULL) st5.sys
                      with errno := st5.sys.errno } }))))) := by
  simp only [powercap_tree_node_init] at h
  cases hg : (grow_zones env (note_depth st d) d).1
  · left
    simp only [hg, if_true] at h
    obtain ⟨rfl, rfl, rfl⟩ : (-1 : Int) = r ∧ zero_node = t ∧ _ = st1 := by simpa using h
    exact ⟨rfl, rfl, rfl, rfl⟩
  · right
    simp only [hg, Bool.true_eq_false, if_false] at h
    refine ⟨rfl, ?_⟩
    rcases hc : count_children env name (fuel + 1) (grow_zones env (note_depth st d) d).2 d
      with _ | st3
    · simp [hc] at h
    · simp only [hc] at h
      refine ⟨st3, rfl, ?_⟩
      by_cases hn : st3.zones.getD d 0 = 0
      · right
        refine ⟨NULL, st3.sys, Or.inl ⟨hn, rfl, rfl⟩, ?_⟩
        simp only [hn, ne_eq, not_true_eq_false, if_false, false_and] at h
        simp only [hn]
        simp only [zero_node, powercap_tree_node.children_ptr, powercap_tree_node.children,
          powercap_tree_node.ctx_node, List.replicate] at h ⊢
        split at h
        · exact absurd h (by simp)
        · rename_i arr5 st5 heq
          obtain ⟨rfl, rfl, rfl⟩ : (0 : Int) = r ∧ _ = t ∧ st5 = st1 := by simpa using h
          exact ⟨none, arr5, st5, heq, Or.inl ⟨rfl, rfl, rfl, rfl⟩⟩
        · rename_i i arr5 st5 heq
          obtain ⟨rfl, rfl, rfl⟩ : (-1 : Int) = r ∧ _ = t ∧ _ = st1 := by simpa using h
          exact ⟨some i, arr5, st5, heq, Or.inr ⟨i, rfl, rfl, rfl, rfl⟩⟩
      · simp only [hn, ne_eq, not_false_eq_true, if_true, true_and] at h
        by_cases ha : (alloc env st3.sys).1 = NULL
        · left
          simp only [ha, if_true] at h
          obtain ⟨rfl, rfl, rfl⟩ : (-1 : Int) = r ∧ _ = t ∧ _ = st1 := by simpa using h
          refine ⟨hn, ha, rfl, rfl, ?_⟩
          simp [zero_node, powercap_tree_node.ctx_node, powercap_tree_node_destroy,
            destroy_children, free, sys_errno_self]
        · right
          refine ⟨(alloc env st3.sys).1, (alloc env st3.sys).2, Or.inr ⟨hn, rfl, ha⟩, ?_⟩
          simp only [ha, if_false] at h
          simp only [zero_node, powercap_tree_node.ctx_node] at h ⊢
          split at h
          · exact absurd h (by simp)
          · rename_i arr5 st5 heq
            obtain ⟨rfl, rfl, rfl⟩ : (0 : Int) = r ∧ _ = t ∧ st5 = st1 := by simpa using h
            exact ⟨none, arr5, st5, heq, Or.inl ⟨rfl, rfl, by simp, rfl⟩⟩
          · rename_i i arr5 st5 heq
            obtain ⟨rfl, rfl, rfl⟩ : (-1 : Int) = r ∧ _ = t ∧ _ = st1 := by simpa using h
            exact ⟨some i, arr5, st5, heq, Or.inr ⟨i, rfl, rfl, rfl, rfl⟩⟩

end Powercap

namespace Powercap

/-! ### What a successful `powercap_tree_node_init` leaves behind -/

theorem take_set_same (z : List Nat) (d a : Nat) : (z.set d a).take d = z.take d := by
  induction z generalizing d with
  | nil => simp
  | cons x z ih =>
    cases d with
    | zero => simp
    | succ d => simp [ih]

theorem note_depth_eq (st : BuildSt) (d : Nat) :
    note_depth st d = { st with depth_max := max st.depth_max d } := by
  unfold note_depth
  split
  · rw [max_eq_right (by omega)]
  · rw [max_eq_left (by omega)]

theorem grow_zones_ok {env : Env} {st g : BuildSt} {d : Nat}
    (h : grow_zones env st d = (true, g)) (hlen : st.zones.length = st.zones_len)
    (hd : d ≤ st.zones_len) (hpos : 0 < st.zones_len) :
    g.zones.length = g.zones_len ∧ d < g.zones_len ∧ st.zones_len ≤ g.zones_len ∧
    g.zones.take d = st.zones.take d ∧ g.depth_max = st.depth_max := by
  unfold grow_zones at h
  by_cases hge : d ≥ st.zones_len
  · simp only [hge, if_true] at h
    by_cases hr : (realloc env st.zones_ptr st.sys).1 = NULL
    · simp [hr] at h
    · simp only [hr, if_false] at h
      obtain ⟨-, rfl⟩ := Prod.mk.inj h
      refine ⟨?_, ?_, ?_, ?_, ?_⟩
      · simp [hlen]; omega
      · show d < st.zones_len * 2
        omega
      · show st.zones_len ≤ st.zones_len * 2
        omega
      · exact List.take_append_of_le_length (by omega)
      · rfl
  · simp only [hge, if_false] at h
    obtain ⟨-, rfl⟩ := Prod.mk.inj h
    exact ⟨hlen, by omega, le_refl _, rfl, rfl⟩

theorem count_children_ok {env : Env} {name : String} {fuel : Nat} {st : BuildSt} {d : Nat}
    {st3 : BuildSt} (h : count_children env name fuel st d = some st3)
    (hd : d < st.zones.length) :
    ∃ k log, k < U32 ∧
      st3 = { st with zones := st.zones.set d k, sys := { st.sys with probes := log } } ∧
      (∀ j, j < k →
        env.powercap_sysfs_zone_exists name ((st.zones.set d j).take ((d + 1) % U32)) = 0) ∧
      env.powercap_sysfs_zone_exists name ((st.zones.set d k).take ((d + 1) % U32)) ≠ 0 := by
  unfold count_children at h
  rcases hp : probe_zones env name d fuel (st.zones.set d 0) st.sys.probes with _ | ⟨z, log⟩
  · simp [hp] at h
  · simp only [hp] at h
    obtain ⟨k, hk, rfl, hb, hm⟩ :=
      probe_zones_spec env name d st.zones hd fuel 0 _ _ _ (by decide)
        (fun j hj => absurd hj (Nat.not_lt_zero j)) hp
    refine ⟨k, log, hk, ?_, hb, hm⟩
    simpa using h.symm

theorem init_loop_ok (env : Env) (name : String) (fuel d n : Nat)
    (IH : ∀ (st : BuildSt) (d : Nat) (t : powercap_tree_node) (st1 : BuildSt),
      powercap_tree_node_init env name fuel zero_node st d = some (0, t, st1) →
      st.zones.length = st.zones_len → d ≤ st.zones_len → 0 < st.zones_len → d < U32 →
      Discovered (env.powercap_sysfs_zone_exists name) (st.zones.take d) t ∧
      st1.zones.length = st1.zones_len ∧ st.zones_len ≤ st1.zones_len ∧
      st1.zones.take d = st.zones.take d ∧
      st1.depth_max = max st.depth_max (d + height_node t) ∧
      d + height_node t < U32) :
    ∀ (cs : List powercap_tree_node) (i : Nat) (st : BuildSt)
      (arr1 : List powercap_tree_node) (st1 : BuildSt),
      init_children
        (fun i c s => powercap_tree_node_init env name fuel c
          { s with zones := s.zones.set d i } ((d + 1) % U32))
        n cs i st = some (none, arr1, st1) →
      (∀ c ∈ cs, c = zero_node) → st.zones.length = st.zones_len → d < st.zones_len →
      (cs ≠ [] → d + 1 < U32) → d < U32 → i + cs.length = n → d ≤ st.depth_max →
      DiscoveredL (env.powercap_sysfs_zone_exists name) (st.zones.take d) arr1 i ∧
      arr1.length = cs.length ∧
      st1.zones.length = st1.zones_len ∧ st.zones_len ≤ st1.zones_len ∧
      st1.zones.take d = st.zones.take d ∧
      st1.depth_max = max st.depth_max (d + height_children arr1 i n) ∧
      d + height_children arr1 i n < U32 := by
  intro cs
  induction cs with
  | nil =>
    intro i st arr1 st1 h _ hlen hd _ hdu _ hdm
    obtain ⟨rfl, rfl⟩ : [] = arr1 ∧ st = st1 := by simpa [init_children] using h
    refine ⟨by simp [DiscoveredL], rfl, hlen, le_refl _, rfl, ?_, by simpa [height_children]⟩
    simp only [height_children]
    omega
  | cons c cs ih =>
    intro i st arr1 st1 h hz hlen hd hne hdu hn hdm
    have hin : i < n := by simp at hn; omega
    have hd1 : d + 1 < U32 := hne (by simp)
    obtain ⟨r, c1, s1, hb, hcase⟩ := init_children_cons_inv h hin
    rcases hcase with ⟨_, hf, _, _⟩ | ⟨hr, cs1, hrest, harr⟩
    · exact absurd hf (by simp)
    · subst hr harr
      have hc : c = zero_node := hz c (by simp)
      subst hc
      simp only [Nat.mod_eq_of_lt hd1] at hb
      obtain ⟨hD, hlen1, hle1, htake1, hdm1, hu1⟩ :=
        IH _ (d + 1) c1 s1 hb (by simpa using hlen) (by simp; omega) (by simp; omega) hd1
      simp only [take_set_succ _ _ _ (by omega : d < st.zones.length)] at hD htake1
      have htk : s1.zones.take d = st.zones.take d := by
        have h2 := congrArg (List.take d) htake1
        rw [List.take_take, List.take_append_of_le_length (by simp; omega),
          List.take_take] at h2
        simpa using h2
      simp only at hle1 hdm1
      obtain ⟨hDL, hl2, hlen2, hle2, htake2, hdm2, hu2⟩ :=
        ih (i + 1) s1 cs1 st1 hrest (fun c hc => hz c (by simp [hc])) hlen1 (by omega)
          (fun _ => hd1) hdu (by simp at hn ⊢; omega) (by rw [hdm1]; omega)
      rw [htk] at hDL htake2
      refine ⟨by simp [DiscoveredL, hD, hDL], by simp [hl2], hlen2, by omega, htake2, ?_, ?_⟩
      · simp only [height_children, hin, if_true]
        rw [hdm2, hdm1]
        omega
      · simp only [height_children, hin, if_true]
        omega

theorem node_init_ok (env : Env) (name : String) :
    ∀ (fuel : Nat) (st : BuildSt) (d : Nat) (t : powercap_tree_node) (st1 : BuildSt),
      powercap_tree_node_init env name fuel zero_node st d = some (0, t, st1) →
      st.zones.length = st.zones_len → d ≤ st.zones_len → 0 < st.zones_len → d < U32 →
      Discovered (env.powercap_sysfs_zone_exists name) (st.zones.take d) t ∧
      st1.zones.length = st1.zones_len ∧ st.zones_len ≤ st1.zones_len ∧
      st1.zones.take d = st.zones.take d ∧
      st1.depth_max = max st.depth_max (d + height_node t) ∧
      d + height_node t < U32 := by
  intro fuel
  induction fuel with
  | zero => intro st d t st1 h; simp [powercap_tree_node_init] at h
  | succ fuel IH =>
    intro st d t st1 h hlen hd hpos hdu
    rcases node_init_inv h with ⟨_, hr, _⟩ | ⟨hg, st3, hc, hcase⟩
    · exact absurd hr (by decide)
    · rcases hcase with ⟨_, _, hr, _⟩ | ⟨p, w4, hw4, f, arr5, st5, hloop, hfin⟩
      · exact absurd hr (by decide)
      · rcases hfin with ⟨rfl, -, rfl, rfl⟩ | ⟨i, _, hr, _⟩
        swap
        · exact absurd hr (by decide)
        generalize hgz : grow_zones env (note_depth st d) d = gz at hg hc
        obtain ⟨b, g⟩ := gz
        simp only at hg hc
        subst hg
        obtain ⟨glen, gd, gle, gtake, gdm⟩ :=
          grow_zones_ok hgz (by simpa [note_depth_eq] using hlen)
            (by simpa [note_depth_eq] using hd) (by simpa [note_depth_eq] using hpos)
        simp only [note_depth_eq] at gle gtake gdm
        obtain ⟨k, log, hk, rfl, hbelow, hmiss⟩ := count_children_ok hc (by omega)
        have hdz : d < g.zones.length := by omega
        have hgetk : (g.zones.set d k).getD d 0 = k := getD_set_same _ _ _ hdz
        simp only [hgetk] at hloop ⊢
        have hPlen : (st.zones.take d).length = d := by simp; omega
        have hk0 : k ≠ 0 → d + 1 < U32 := by
          intro hk0
          by_contra hcon
          have hq : (d + 1) % U32 = 0 := by
            have : d + 1 = U32 := by omega
            rw [this]; exact Nat.mod_self _
          rw [hq] at hbelow hmiss
          simp only [List.take_zero] at hbelow hmiss
          exact hmiss (hbelow 0 (Nat.pos_of_ne_zero hk0))
        obtain ⟨hDL, hl, hlen2, hle2, htake2, hdm2, hu2⟩ :=
          init_loop_ok env name fuel d k IH _ 0 _ _ _ hloop
            (fun c hc => (List.mem_replicate.1 hc).2) (by simpa using glen) (by simpa using gd)
            (fun hne => hk0 (by rintro rfl; simp at hne)) hdu (by simp)
            (by simp [gdm])
        have htk : (g.zones.set d k).take d = st.zones.take d := by
          rw [← gtake]
          exact take_set_same _ _ _
        simp only [htk, gdm] at hDL htake2 hdm2
        simp only at hle2
        refine ⟨?_, hlen2, by omega, htake2, ?_, ?_⟩
        · simp only [Discovered]
          refine ⟨trivial, by simpa using hl, hk, ?_, ?_, hDL⟩
          · intro j hj
            have hd1 := hk0 (by omega)
            have := hbelow j hj
            rwa [Nat.mod_eq_of_lt hd1, take_set_succ _ _ _ hdz, gtake] at this
          · by_cases hd1 : d + 1 < U32
            · left
              rwa [Nat.mod_eq_of_lt hd1, take_set_succ _ _ _ hdz, gtake] at hmiss
            · right
              omega
        · simp only [height_node]
          rw [hdm2]
          omega
        · simpa [height_node] using hu2

end Powercap

namespace Powercap

/-! ### Unfolding `powercap_tree_root_init` -/

theorem root_init_inv {env : Env} {fuel : Nat} {name : String} {w w1 : Sys}
    {res : Option powercap_tree_root}
    (h : powercap_tree_root_init env fuel name w = some (res, w1)) :
    (env.powercap_sysfs_control_type_exists name ≠ 0 ∧ res = none ∧
      w1 = { w with errno := ENODEV }) ∨
    (env.powercap_sysfs_control_type_exists name = 0 ∧ ∃ a wa, alloc env w = (a, wa) ∧
      ((a = NULL ∧ res = none ∧ w1 = wa) ∨
       (a ≠ NULL ∧ ∃ b wb, alloc env wa = (b, wb) ∧
        ((b = NULL ∧ res = none ∧ w1 = free a wb) ∨
         (b ≠ NULL ∧ ∃ n log, probe_root env name fuel 0 wb.probes = some (n, log) ∧
          ((n = 0 ∧ res = some ⟨a, NULL, [], 0, b, name, 0⟩ ∧
              w1 = { wb with probes := log }) ∨
           (n ≠ 0 ∧ ∃ c wc, alloc env { wb with probes := log } = (c, wc) ∧
            ((c = NULL ∧ res = none ∧ w1 = free a (free b wc)) ∨
             (c ≠ NULL ∧ ∃ z wz, alloc env wc = (z, wz) ∧
              ((z = NULL ∧ res = none ∧
                  w1 = { (powercap_tree_root_destroy
                            ⟨a, c, List.replicate n zero_node, 0, b, name, 0⟩ wz).2
                          with errno := wz.errno }) ∨
               (z ≠ NULL ∧ ∃ f arr5 st5,
                  init_children
                    (fun i c s => powercap_tree_node_init env name fuel c
                      { s with zones := s.zones.set 0 i } 1)
                    n (List.replicate n zero_node) 0
                    ⟨0, z, List.replicate POWERCAP_TREE_MAX_DEPTH_START 0,
                      POWERCAP_TREE_MAX_DEPTH_START, wz⟩ = some (f, arr5, st5) ∧
                  ((f = none ∧ res = some ⟨a, c, arr5, n, b, name, st5.depth_max⟩ ∧
                      w1 = free st5.zones_ptr st5.sys) ∨
                   (∃ i, f = some i ∧ res = none ∧
                      w1 = { free st5.zones_ptr (powercap_tree_root_destroy
                                ⟨a, c, arr5, i, b, name, st5.depth_max⟩ st5.sys).2
                             with errno := st5.sys.errno }))))))))))))) := by
  unfold powercap_tree_root_init at h
  by_cases hct : env.powercap_sysfs_control_type_exists name = 0
  swap
  · left
    simp only [ne_eq, hct, not_false_eq_true, if_true] at h
    obtain ⟨rfl, rfl⟩ := Prod.mk.inj (Option.some.inj h)
    exact ⟨hct, rfl, rfl⟩
  right
  refine ⟨hct, ?_⟩
  simp only [ne_eq, hct, not_true_eq_false, if_false] at h
  rcases ha : alloc env w with ⟨a, wa⟩
  refine ⟨a, wa, rfl, ?_⟩
  simp only [ha] at h
  by_cases ha0 : a = NULL
  · left
    simp only [ha0, if_true] at h
    obtain ⟨rfl, rfl⟩ := Prod.mk.inj (Option.some.inj h)
    exact ⟨ha0, rfl, rfl⟩
  right
  refine ⟨ha0, ?_⟩
  simp only [ha0, if_false] at h
  rcases hb : alloc env wa with ⟨b, wb⟩
  refine ⟨b, wb, rfl, ?_⟩
  simp only [hb] at h
  by_cases hb0 : b = NULL
  · left
    simp only [hb0, if_true] at h
    obtain ⟨rfl, rfl⟩ := Prod.mk.inj (Option.some.inj h)
    exact ⟨hb0, rfl, rfl⟩
  right
  refine ⟨hb0, ?_⟩
  simp only [hb0, if_false] at h
  rcases hp : probe_root env name fuel 0 wb.probes with _ | ⟨n, log⟩
  · simp [hp] at h
  refine ⟨n, log, rfl, ?_⟩
  simp only [hp] at h
  by_cases hn : n = 0
  · left
    simp only [hn, not_true_eq_false, if_false, false_and] at h
    obtain ⟨rfl, rfl⟩ := Prod.mk.inj (Option.some.inj h)
    exact ⟨hn, rfl, rfl⟩
  right
  refine ⟨hn, ?_⟩
  simp only [hn, not_false_eq_true, if_true, true_and] at h
  rcases hc : alloc env { wb with probes := log } with ⟨c, wc⟩
  refine ⟨c, wc, rfl, ?_⟩
  simp only [hc] at h
  by_cases hc0 : c = NULL
  · left
    simp only [hc0, if_true] at h
    obtain ⟨rfl, rfl⟩ := Prod.mk.inj (Option.some.inj h)
    exact ⟨hc0, rfl, rfl⟩
  right
  refine ⟨hc0, ?_⟩
  simp only [hc0, if_false] at h
  rcases hz : alloc env wc with ⟨z, wz⟩
  refine ⟨z, wz, rfl, ?_⟩
  simp only [hz] at h
  by_cases hz0 : z = NULL
  · left
    simp only [hz0, if_true] at h
    obtain ⟨rfl, rfl⟩ := Prod.mk.inj (Option.some.inj h)
    exact ⟨hz0, rfl, rfl⟩
  right
  refine ⟨hz0, ?_⟩
  simp only [hz0, if_false] at h
  split at h
  · exact absurd h (by simp)
  · rename_i i arr5 st5 heq
    obtain ⟨rfl, rfl⟩ := Prod.mk.inj (Option.some.inj h)
    exact ⟨some i, arr5, st5, heq, Or.inr ⟨i, rfl, rfl, rfl⟩⟩
  · rename_i arr5 st5 heq
    obtain ⟨rfl, rfl⟩ := Prod.mk.inj (Option.some.inj h)
    exact ⟨none, arr5, st5, heq, Or.inl ⟨rfl, rfl, rfl⟩⟩

theorem one_mod_U32 : (0 + 1) % U32 = 1 := by decide

/-- What a successful `powercap_tree_root_init` returns. -/
theorem root_init_ok {env : Env} {fuel : Nat} {name : String} {w w1 : Sys}
    {root : powercap_tree_root}
    (h : powercap_tree_root_init env fuel name w = some (some root, w1)) :
    root.name = name ∧ root.children.length = root.n_children ∧ root.n_children < U32 ∧
    (∀ j, j < root.n_children → env.powercap_sysfs_zone_exists name [j] = 0) ∧
    env.powercap_sysfs_zone_exists name [root.n_children] ≠ 0 ∧
    DiscoveredL (env.powercap_sysfs_zone_exists name) [] root.children 0 ∧
    root.depth_max = height_children root.children 0 root.n_children ∧
    root.depth_max < U32 := by
  rcases root_init_inv h with ⟨_, hres, _⟩ | ⟨_, a, wa, _, hA⟩
  · exact absurd hres (by simp)
  rcases hA with ⟨_, hres, _⟩ | ⟨_, b, wb, _, hB⟩
  · exact absurd hres (by simp)
  rcases hB with ⟨_, hres, _⟩ | ⟨_, n, log, hp, hN⟩
  · exact absurd hres (by simp)
  obtain ⟨hnu, hbelow, hmiss⟩ :=
    probe_root_spec env name fuel 0 _ n log (by decide)
      (fun j hj => absurd hj (Nat.not_lt_zero j)) hp
  rcases hN with ⟨hn, hres, _⟩ | ⟨hn, c, wc, _, hC⟩
  · obtain rfl := (Option.some.inj hres)
    subst hn
    exact ⟨rfl, rfl, hnu, hbelow, hmiss, by simp [DiscoveredL],
      by simp [height_children], hnu⟩
  rcases hC with ⟨_, hres, _⟩ | ⟨_, z, wz, _, hZ⟩
  · exact absurd hres (by simp)
  rcases hZ with ⟨_, hres, _⟩ | ⟨_, f, arr5, st5, hloop, hF⟩
  · exact absurd hres (by simp)
  rcases hF with ⟨rfl, hres, _⟩ | ⟨i, _, hres, _⟩
  swap
  · exact absurd hres (by simp)
  obtain rfl := (Option.some.inj hres)
  have hbody : (fun i c s => powercap_tree_node_init env name fuel c
        { s with zones := s.zones.set 0 i } 1)
      = (fun i (c : powercap_tree_node) (s : BuildSt) =>
          powercap_tree_node_init env name fuel c
            { s with zones := s.zones.set 0 i } ((0 + 1) % U32)) := by
    rw [one_mod_U32]
  rw [hbody] at hloop
  obtain ⟨hDL, hl, -, -, -, hdm, hu⟩ :=
    init_loop_ok env name fuel 0 n (node_init_ok env name fuel) _ 0 _ _ _ hloop
      (fun c hc => (List.mem_replicate.1 hc).2) (by simp [POWERCAP_TREE_MAX_DEPTH_START])
      (by simp [POWERCAP_TREE_MAX_DEPTH_START]) (fun _ => by decide) (by decide) (by simp)
      (by simp)
  simp only [List.take_zero, Nat.zero_add, zero_le, max_eq_right] at hDL hdm hu
  refine ⟨rfl, by simpa using hl, hnu, hbelow, hmiss, hDL, hdm, ?_⟩
  show st5.depth_max < U32
  rw [hdm]
  exact hu

end Powercap

namespace Powercap

/-! ### Facts about trees: child counts, heights, preorder -/

mutual
theorem discovered_narrow (ex : List Nat → Int) :
    ∀ (t : powercap_tree_node) (P : List Nat), Discovered ex P t → Narrow t
  | powercap_tree_node.mk _ cs n _, P, h => by
    simp only [Discovered] at h
    exact ⟨h.2.2.1, discoveredL_narrow ex cs P 0 h.2.2.2.2.2⟩
theorem discoveredL_narrow (ex : List Nat → Int) :
    ∀ (cs : List powercap_tree_node) (P : List Nat) (i : Nat),
      DiscoveredL ex P cs i → NarrowL cs
  | [], _, _, _ => trivial
  | c :: cs, P, i, h => by
    simp only [DiscoveredL] at h
    exact ⟨discovered_narrow ex c _ h.1, discoveredL_narrow ex cs P (i + 1) h.2⟩
end

mutual
theorem discovered_slots (ex : List Nat → Int) :
    ∀ (t : powercap_tree_node) (P : List Nat), Discovered ex P t →
      ∀ c ∈ slots_node t, c = NULL
  | powercap_tree_node.mk _ cs n ctx, P, h => by
    simp only [Discovered] at h
    intro c hc
    simp only [slots_node, List.mem_cons] at hc
    rcases hc with rfl | hc
    · exact h.1
    · exact discoveredL_slots ex cs P 0 n h.2.2.2.2.2 c hc
theorem discoveredL_slots (ex : List Nat → Int) :
    ∀ (cs : List powercap_tree_node) (P : List Nat) (i n : Nat),
      DiscoveredL ex P cs i → ∀ c ∈ slots_children cs i n, c = NULL
  | [], _, _, _, _ => by simp [slots_children]
  | c :: cs, P, i, n, h => by
    simp only [DiscoveredL] at h
    intro x hx
    by_cases hin : i < n
    · simp only [slots_children, hin, if_true, List.mem_append] at hx
      rcases hx with hx | hx
      · exact discovered_slots ex c _ h.1 x hx
      · exact discoveredL_slots ex cs P (i + 1) n h.2 x hx
    · simp [slots_children, hin] at hx
end

mutual
theorem preorder_node_ext :
    ∀ (t : powercap_tree_node) (P : List Nat), ∀ p ∈ preorder_node P t,
      ∃ x, p = P ++ x ∧ x.length ≤ height_node t
  | powercap_tree_node.mk _ cs n _, P => by
    intro p hp
    simp only [preorder_node, List.mem_cons] at hp
    rcases hp with rfl | hp
    · exact ⟨[], by simp, Nat.zero_le _⟩
    · obtain ⟨j, X, _, rfl, hl⟩ := preorder_children_ext cs P 0 n p hp
      exact ⟨j :: X, rfl, by simpa [height_node] using hl⟩
theorem preorder_children_ext :
    ∀ (cs : List powercap_tree_node) (P : List Nat) (i n : Nat),
      ∀ p ∈ preorder_children P cs i n,
        ∃ j X, i ≤ j ∧ p = P ++ j :: X ∧ X.length + 1 ≤ height_children cs i n
  | [], _, _, _ => by simp [preorder_children]
  | c :: cs, P, i, n => by
    intro p hp
    by_cases hin : i < n
    · simp only [preorder_children, hin, if_true, List.mem_append] at hp
      simp only [height_children, hin, if_true]
      rcases hp with hp | hp
      · obtain ⟨x, rfl, hl⟩ := preorder_node_ext c (P ++ [i]) p hp
        exact ⟨i, x, le_refl _, by simp, by omega⟩
      · obtain ⟨j, X, hj, rfl, hl⟩ := preorder_children_ext cs P (i + 1) n p hp
        exact ⟨j, X, by omega, rfl, by omega⟩
    · simp [preorder_children, hin] at hp
end

mutual
theorem preorder_node_deepest :
    ∀ (t : powercap_tree_node) (P : List Nat),
      ∃ p ∈ preorder_node P t, p.length = P.length + height_node t
  | powercap_tree_node.mk _ cs n _, P => by
    by_cases h0 : height_children cs 0 n = 0
    · exact ⟨P, by simp [preorder_node], by simp [height_node, h0]⟩
    · obtain ⟨p, hp, hl⟩ := preorder_children_deepest cs P 0 n h0
      exact ⟨p, by simp [preorder_node, hp], by simpa [height_node] using hl⟩
theorem preorder_children_deepest :
    ∀ (cs : List powercap_tree_node) (P : List Nat) (i n : Nat),
      height_children cs i n ≠ 0 →
      ∃ p ∈ preorder_children P cs i n, p.length = P.length + height_children cs i n
  | [], _, _, _ => by simp [height_children]
  | c :: cs, P, i, n => by
    intro h0
    by_cases hin : i < n
    · simp only [height_children, hin, if_true] at h0 ⊢
      simp only [preorder_children, hin, if_true, List.mem_append]
      by_cases hle : height_children cs (i + 1) n ≤ height_node c + 1
      · obtain ⟨p, hp, hl⟩ := preorder_node_deepest c (P ++ [i])
        refine ⟨p, Or.inl hp, ?_⟩
        rw [hl, max_eq_left hle]
        simp
        omega
      · obtain ⟨p, hp, hl⟩ := preorder_children_deepest cs P (i + 1) n (by omega)
        refine ⟨p, Or.inr hp, ?_⟩
        rw [hl, max_eq_right (by omega)]
    · simp [height_children, hin] at h0
end

theorem child_head_mem (P : List Nat) :
    ∀ (cs : List powercap_tree_node) (i n j : Nat), i ≤ j → j < n → j < i + cs.length →
      P ++ [j] ∈ preorder_children P cs i n := by
  intro cs
  induction cs with
  | nil => intro i n j h1 h2 h3; simp at h3; omega
  | cons c cs ih =>
    intro i n j h1 h2 h3
    have hin : i < n := by omega
    simp only [preorder_children, hin, if_true, List.mem_append]
    by_cases hij : i = j
    · subst hij
      left
      cases c with
      | mk p cs2 n2 ctx => simp [preorder_node]
    · right
      exact ih (i + 1) n j (by omega) h2 (by simp at h3; omega)

mutual
theorem preorder_node_oracle (ex : List Nat → Int) :
    ∀ (t : powercap_tree_node) (P : List Nat), Discovered ex P t → ex P = 0 →
      ∀ p ∈ preorder_node P t, ex p = 0
  | powercap_tree_node.mk _ cs n _, P, h, hP => by
    simp only [Discovered] at h
    intro p hp
    simp only [preorder_node, List.mem_cons] at hp
    rcases hp with rfl | hp
    · exact hP
    · exact preorder_children_oracle ex cs P 0 n h.2.2.2.2.2 (fun j _ hj => h.2.2.2.1 j hj) p hp
theorem preorder_children_oracle (ex : List Nat → Int) :
    ∀ (cs : List powercap_tree_node) (P : List Nat) (i n : Nat), DiscoveredL ex P cs i →
      (∀ j, i ≤ j → j < n → ex (P ++ [j]) = 0) →
      ∀ p ∈ preorder_children P cs i n, ex p = 0
  | [], _, _, _, _, _ => by simp [preorder_children]
  | c :: cs, P, i, n, h, hex => by
    simp only [DiscoveredL] at h
    intro p hp
    by_cases hin : i < n
    · simp only [preorder_children, hin, if_true, List.mem_append] at hp
      rcases hp with hp | hp
      · exact preorder_node_oracle ex c _ h.1 (hex i (le_refl _) hin) p hp
      · exact preorder_children_oracle ex cs P (i + 1) n h.2
          (fun j hj hjn => hex j (by omega) hjn) p hp
    · simp [preorder_children, hin] at hp
end

mutual
theorem preorder_node_grow (ex : List Nat → Int) :
    ∀ (t : powercap_tree_node) (P : List Nat), Discovered ex P t →
      ∀ q ∈ preorder_node P t, ∀ j, q.length + 1 < U32 →
        (∀ k, k ≤ j → ex (q ++ [k]) = 0) → q ++ [j] ∈ preorder_node P t
  | powercap_tree_node.mk _ cs n _, P, h => by
    simp only [Discovered] at h
    obtain ⟨-, hlen, -, -, hmiss, hDL⟩ := h
    intro q hq j hu hall
    simp only [preorder_node, List.mem_cons] at hq ⊢
    right
    rcases hq with rfl | hq
    · have hmiss1 : ex (q ++ [n]) ≠ 0 := by
        rcases hmiss with hm | hm
        · exact hm
        · omega
      have hjn : j < n := by
        by_contra hcon
        exact hmiss1 (hall n (by omega))
      exact child_head_mem q cs 0 n j (Nat.zero_le _) hjn (by omega)
    · exact preorder_children_grow ex cs P 0 n hDL q hq j hu hall
theorem preorder_children_grow (ex : List Nat → Int) :
    ∀ (cs : List powercap_tree_node) (P : List Nat) (i n : Nat), DiscoveredL ex P cs i →
      ∀ q ∈ preorder_children P cs i n, ∀ j, q.length + 1 < U32 →
        (∀ k, k ≤ j → ex (q ++ [k]) = 0) → q ++ [j] ∈ preorder_children P cs i n
  | [], _, _, _, _ => by simp [preorder_children]
  | c :: cs, P, i, n, h => by
    simp only [DiscoveredL] at h
    intro q hq j hu hall
    by_cases hin : i < n
    · simp only [preorder_children, hin, if_true, List.mem_append] at hq ⊢
      rcases hq with hq | hq
      · exact Or.inl (preorder_node_grow ex c _ h.1 q hq j hu hall)
      · exact Or.inr (preorder_children_grow ex cs P (i + 1) n h.2 q hq j hu hall)
    · simp [preorder_children, hin] at hq
end

mutual
theorem preorder_node_pairwise :
    ∀ (t : powercap_tree_node) (P : List Nat), (preorder_node P t).Pairwise PreorderBefore
  | powercap_tree_node.mk _ cs n _, P => by
    simp only [preorder_node, List.pairwise_cons]
    refine ⟨?_, preorder_children_pairwise cs P 0 n⟩
    intro q hq
    obtain ⟨j, X, _, rfl, _⟩ := preorder_children_ext cs P 0 n q hq
    exact Or.inl ⟨j :: X, by simp, rfl⟩
theorem preorder_children_pairwise :
    ∀ (cs : List powercap_tree_node) (P : List Nat) (i n : Nat),
      (preorder_children P cs i n).Pairwise PreorderBefore
  | [], _, _, _ => by simp [preorder_children]
  | c :: cs, P, i, n => by
    by_cases hin : i < n
    · simp only [preorder_children, hin, if_true, List.pairwise_append]
      refine ⟨preorder_node_pairwise c _, preorder_children_pairwise cs P (i + 1) n, ?_⟩
      intro p hp q hq
      obtain ⟨x, rfl, _⟩ := preorder_node_ext c (P ++ [i]) p hp
      obtain ⟨j, Y, hj, rfl, _⟩ := preorder_children_ext cs P (i + 1) n q hq
      exact Or.inr ⟨P, i, j, x, Y, by omega, by simp, rfl⟩
    · simp [preorder_children, hin]
end

end Powercap

namespace Powercap

/-! ### The walk from the root -/

mutual
theorem preorder_node_strip :
    ∀ (t : powercap_tree_node) (P : List Nat),
      preorder_node P (strip_node t) = preorder_node P t
  | powercap_tree_node.mk _ cs n _, P => by
    simp [strip_node, preorder_node, preorder_children_strip cs P 0 n]
theorem preorder_children_strip :
    ∀ (cs : List powercap_tree_node) (P : List Nat) (i n : Nat),
      preorder_children P (strip_children cs) i n = preorder_children P cs i n
  | [], _, _, _ => by simp [strip_children]
  | c :: cs, P, i, n => by
    simp [strip_children, preorder_children, preorder_node_strip c (P ++ [i]),
      preorder_children_strip cs P (i + 1) n]
end

mutual
theorem height_node_strip :
    ∀ (t : powercap_tree_node), height_node (strip_node t) = height_node t
  | powercap_tree_node.mk _ cs n _ => by
    simp [strip_node, height_node, height_children_strip cs 0 n]
theorem height_children_strip :
    ∀ (cs : List powercap_tree_node) (i n : Nat),
      height_children (strip_children cs) i n = height_children cs i n
  | [], _, _ => by simp [strip_children]
  | c :: cs, i, n => by
    simp [strip_children, height_children, height_node_strip c,
      height_children_strip cs (i + 1) n]
end

mutual
theorem narrow_strip :
    ∀ (t : powercap_tree_node), Narrow (strip_node t) ↔ Narrow t
  | powercap_tree_node.mk _ cs n _ => by
    simp [strip_node, Narrow, narrowL_strip cs]
theorem narrowL_strip :
    ∀ (cs : List powercap_tree_node), NarrowL (strip_children cs) ↔ NarrowL cs
  | [] => by simp [strip_children]
  | c :: cs => by
    simp [strip_children, NarrowL, narrow_strip c, narrowL_strip cs]
end

mutual
theorem owned_node_strip :
    ∀ (t : powercap_tree_node), owned_node (strip_node t) = owned_node t
  | powercap_tree_node.mk _ cs n _ => by
    simp [strip_node, owned_node, owned_children_strip cs 0 n]
theorem owned_children_strip :
    ∀ (cs : List powercap_tree_node) (i n : Nat),
      owned_children (strip_children cs) i n = owned_children cs i n
  | [], _, _ => by simp [strip_children]
  | c :: cs, i, n => by
    simp [strip_children, owned_children, owned_node_strip c,
      owned_children_strip cs (i + 1) n]
end

theorem preorder_children_of_strip {cs1 cs2 : List powercap_tree_node}
    (h : strip_children cs1 = strip_children cs2) (P : List Nat) (i n : Nat) :
    preorder_children P cs1 i n = preorder_children P cs2 i n := by
  rw [← preorder_children_strip cs1, h, preorder_children_strip]

theorem height_children_of_strip {cs1 cs2 : List powercap_tree_node}
    (h : strip_children cs1 = strip_children cs2) (i n : Nat) :
    height_children cs1 i n = height_children cs2 i n := by
  rw [← height_children_strip cs1, h, height_children_strip]

theorem narrowL_of_strip {cs1 cs2 : List powercap_tree_node}
    (h : strip_children cs1 = strip_children cs2) (hn : NarrowL cs2) : NarrowL cs1 := by
  rw [← narrowL_strip, h, narrowL_strip]
  exact hn

theorem height_zero_slots :
    ∀ (cs : List powercap_tree_node) (i n : Nat), height_children cs i n = 0 →
      slots_children cs i n = [] := by
  intro cs i n h
  cases cs with
  | nil => simp [slots_children]
  | cons c cs =>
    by_cases hin : i < n
    · simp only [height_children, hin, if_true] at h
      omega
    · simp [slots_children, hin]

theorem root_walk_fields {σ : Type} (env : Env) (ptr : powercap_tree_root)
    (cb : powercap_tree_cb σ) (user : σ) (w : Sys) :
    (powercap_tree_root_walk env ptr cb user w).root.addr = ptr.addr ∧
    (powercap_tree_root_walk env ptr cb user w).root.children_ptr = ptr.children_ptr ∧
    (powercap_tree_root_walk env ptr cb user w).root.n_children = ptr.n_children ∧
    (powercap_tree_root_walk env ptr cb user w).root.name_ptr = ptr.name_ptr ∧
    (powercap_tree_root_walk env ptr cb user w).root.name = ptr.name ∧
    (powercap_tree_root_walk env ptr cb user w).root.depth_max = ptr.depth_max := by
  unfold powercap_tree_root_walk
  by_cases hdm : ptr.depth_max = 0
  · simp [hdm]
  · by_cases hz : (alloc env w).1 = NULL
    · simp [hdm, hz]
    · simp [hdm, hz]

theorem root_walk_frame {σ : Type} (env : Env) (ptr : powercap_tree_root)
    (cb : powercap_tree_cb σ) (user : σ) (w : Sys) :
    strip_children (powercap_tree_root_walk env ptr cb user w).root.children
      = strip_children ptr.children ∧
    (powercap_tree_root_walk env ptr cb user w).trace.map Visit.ctx_in
      = (slots_root ptr).take (powercap_tree_root_walk env ptr cb user w).trace.length ∧
    slots_root (powercap_tree_root_walk env ptr cb user w).root
      = (powercap_tree_root_walk env ptr cb user w).trace.map Visit.ctx_out
        ++ (slots_root ptr).drop (powercap_tree_root_walk env ptr cb user w).trace.length ∧
    (powercap_tree_root_walk env ptr cb user w).trace.length ≤ (slots_root ptr).length := by
  unfold powercap_tree_root_walk
  by_cases hdm : ptr.depth_max = 0
  · simp [hdm]
  · by_cases hz : (alloc env w).1 = NULL
    · simp [hdm, hz]
    · rcases hq : walk_children ptr.name cb ptr.children 0 ptr.n_children 0 0
        ⟨List.replicate ptr.depth_max 0, user, []⟩ with ⟨ret, cs1, s1⟩
      obtain ⟨vs, htr, hstrip, hin, hout, hstop, -⟩ :=
        walk_children_spec ptr.name cb _ _ _ _ _ _ _ _ _ rfl hq
      simp only [List.nil_append] at htr
      subst htr
      simp only [hdm, hz, hq, ne_eq, not_false_eq_true, if_true, if_false, slots_root]
      exact ⟨hstrip, hin, hout, stopped_le hstop⟩

theorem root_walk_visits {σ : Type} (env : Env) (ptr : powercap_tree_root)
    (cb : powercap_tree_cb σ) (user : σ) (w : Sys) (hwf : WellFormed ptr)
    (halloc : ptr.depth_max ≠ 0 → env.alloc_fails w.ncalls = false) :
    Stopped (powercap_tree_root_walk env ptr cb user w).ret
      (powercap_tree_root_walk env ptr cb user w).trace (preorder_root ptr).length ∧
    (powercap_tree_root_walk env ptr cb user w).trace.map Visit.path
      = (preorder_root ptr).take (powercap_tree_root_walk env ptr cb user w).trace.length ∧
    ∀ v ∈ (powercap_tree_root_walk env ptr cb user w).trace, v.path.length = v.depth := by
  obtain ⟨hh, hdu, hnu, hN⟩ := hwf
  unfold powercap_tree_root_walk
  by_cases hdm : ptr.depth_max = 0
  · have hs : slots_children ptr.children 0 ptr.n_children = [] :=
      height_zero_slots _ _ _ (by omega)
    have hp : (preorder_root ptr).length = 0 := by
      rw [preorder_root, preorder_children_length, hs]; rfl
    simp [hdm, hp, Stopped]
  · have hz : (alloc env w).1 ≠ NULL := by
      simp [alloc, halloc hdm, NULL]
    rcases hq : walk_children ptr.name cb ptr.children 0 ptr.n_children 0 0
      ⟨List.replicate ptr.depth_max 0, user, []⟩ with ⟨ret, cs1, s1⟩
    obtain ⟨vs, htr, -, -, -, hstop, hpath⟩ :=
      walk_children_spec ptr.name cb _ _ _ _ _ _ _ _ _ rfl hq
    simp only [List.nil_append] at htr
    subst htr
    obtain ⟨-, -, hp, hdep⟩ := hpath (by simp) (by simp; omega) (by omega) hnu hN
    simp only [hdm, hz, hq, ne_eq, not_false_eq_true, if_true, if_false, preorder_root]
    rw [preorder_children_length]
    exact ⟨hstop, by simpa using hp, hdep⟩

theorem root_walk_paths {σ : Type} (env : Env) (ptr : powercap_tree_root)
    (cb : powercap_tree_cb σ) (user : σ) (w : Sys) (hwf : WellFormed ptr) :
    (powercap_tree_root_walk env ptr cb user w).trace.map Visit.path
      = (preorder_root ptr).take (powercap_tree_root_walk env ptr cb user w).trace.length := by
  by_cases halloc : ptr.depth_max ≠ 0 → env.alloc_fails w.ncalls = false
  · exact (root_walk_visits env ptr cb user w hwf halloc).2.1
  · have hdm : ptr.depth_max ≠ 0 := fun h => halloc (fun h2 => absurd h h2)
    have hf : env.alloc_fails w.ncalls = true := by
      have : ¬ env.alloc_fails w.ncalls = false := fun h => halloc (fun _ => h)
      simpa using this
    simp [powercap_tree_root_walk, hdm, alloc, hf]

theorem root_init_wellFormed {env : Env} {fuel : Nat} {name : String} {w w1 : Sys}
    {root : powercap_tree_root}
    (h : powercap_tree_root_init env fuel name w = some (some root, w1)) :
    WellFormed root := by
  obtain ⟨-, -, hnu, -, -, hDL, hdm, hdu⟩ := root_init_ok h
  exact ⟨hdm.symm, hdu, hnu, discoveredL_narrow _ _ _ _ hDL⟩

theorem walk_wellFormed {σ : Type} (env : Env) (ptr : powercap_tree_root)
    (cb : powercap_tree_cb σ) (user : σ) (w : Sys) (hwf : WellFormed ptr) :
    WellFormed (powercap_tree_root_walk env ptr cb user w).root ∧
    preorder_root (powercap_tree_root_walk env ptr cb user w).root = preorder_root ptr := by
  obtain ⟨hh, hdu, hnu, hN⟩ := hwf
  obtain ⟨-, -, hn, -, -, hdm⟩ := root_walk_fields env ptr cb user w
  obtain ⟨hstrip, -, -, -⟩ := root_walk_frame env ptr cb user w
  refine ⟨⟨?_, ?_, ?_, narrowL_of_strip hstrip hN⟩, ?_⟩
  · rw [hn, hdm, height_children_of_strip hstrip, hh]
  · rw [hdm]; exact hdu
  · rw [hn]; exact hnu
  · rw [preorder_root, preorder_root, hn, preorder_children_of_strip hstrip]

end Powercap

namespace Powercap

/-! ### Termination of the discovery on a finite tree -/

theorem node_init_progress {env : Env} {name : String} {fuel : Nat} {st : BuildSt} {d : Nat}
    (h : ∀ g, grow_zones env (note_depth st d) d = (true, g) →
      ∃ st3, count_children env name (fuel + 1) g d = some st3 ∧
        ∀ w4, ∃ q, init_children
          (fun i c s => powercap_tree_node_init env name fuel c
            { s with zones := s.zones.set d i } ((d + 1) % U32))
          (st3.zones.getD d 0) (List.replicate (st3.zones.getD d 0) zero_node) 0
          { st3 with sys := w4 } = some q) :
    ∃ res, powercap_tree_node_init env name (fuel + 1) zero_node st d = some res := by
  simp only [powercap_tree_node_init]
  rcases hgz : grow_zones env (note_depth st d) d with ⟨b, g⟩
  cases b
  · exact ⟨_, rfl⟩
  · obtain ⟨st3, hc, hloop⟩ := h g hgz
    simp only [Bool.true_eq_false, if_false, hc]
    by_cases hn : st3.zones.getD d 0 = 0
    · obtain ⟨q, hq⟩ := hloop st3.sys
      simp only [hn] at hq
      simp only [hn, ne_eq, not_true_eq_false, if_false, false_and, zero_node,
        powercap_tree_node.children, List.replicate] at hq ⊢
      rw [hq]
      rcases q with ⟨_ | i, arr5, st5⟩
      · exact ⟨_, rfl⟩
      · exact ⟨_, rfl⟩
    · by_cases ha : (alloc env st3.sys).1 = NULL
      · simp only [hn, ha, ne_eq, not_false_eq_true, if_true, and_self]
        exact ⟨_, rfl⟩
      · obtain ⟨q, hq⟩ := hloop (alloc env st3.sys).2
        simp only [hn, ha, ne_eq, not_false_eq_true, if_true, and_false, if_false]
        rw [hq]
        rcases q with ⟨_ | i, arr5, st5⟩
        · exact ⟨_, rfl⟩
        · exact ⟨_, rfl⟩

theorem init_loop_terminates (env : Env) (name : String) (fuel d n : Nat)
    (hterm : ∀ (st : BuildSt),
      env.powercap_sysfs_zone_exists name (st.zones.take (d + 1)) = 0 →
      st.zones.length = st.zones_len → d + 1 ≤ st.zones_len →
      ∃ res, powercap_tree_node_init env name fuel zero_node st (d + 1) = some res)
    (hd1 : n ≠ 0 → d + 1 < U32) :
    ∀ (cs : List powercap_tree_node) (i : Nat) (st : BuildSt),
      (∀ c ∈ cs, c = zero_node) → st.zones.length = st.zones_len → d < st.zones_len →
      i + cs.length = n →
      (∀ j, i ≤ j → j < n →
        env.powercap_sysfs_zone_exists name (st.zones.take d ++ [j]) = 0) →
      ∃ q, init_children
        (fun i c s => powercap_tree_node_init env name fuel c
          { s with zones := s.zones.set d i } ((d + 1) % U32))
        n cs i st = some q := by
  intro cs
  induction cs with
  | nil => intro i st _ _ _ _ _; exact ⟨_, rfl⟩
  | cons c cs ih =>
    intro i st hz hlen hd hn hex
    have hin : i < n := by simp at hn; omega
    have hdu : d + 1 < U32 := hd1 (by omega)
    have hc : c = zero_node := hz c (by simp)
    subst hc
    have hdz : d < st.zones.length := by omega
    obtain ⟨⟨r, c1, s1⟩, hb⟩ := hterm { st with zones := st.zones.set d i }
      (by
        show env.powercap_sysfs_zone_exists name ((st.zones.set d i).take (d + 1)) = 0
        rw [take_set_succ _ _ _ hdz]
        exact hex i (le_refl _) hin)
      (by simpa using hlen) (by simp; omega)
    have hb2 : (fun i c s => powercap_tree_node_init env name fuel c
          { s with zones := s.zones.set d i } ((d + 1) % U32)) i zero_node st
        = some (r, c1, s1) := by
      simp only [Nat.mod_eq_of_lt hdu]
      exact hb
    refine init_children_cons_some hin hb2 ?_
    intro hr
    subst hr
    obtain ⟨-, hlen1, hle1, htake1, -, -⟩ :=
      node_init_ok env name fuel _ (d + 1) c1 s1 hb (by simpa using hlen) (by simp; omega)
        (by simp; omega) hdu
    simp only [take_set_succ _ _ _ hdz] at htake1
    have htk : s1.zones.take d = st.zones.take d := by
      have h2 := congrArg (List.take d) htake1
      rw [List.take_take, List.take_append_of_le_length (by simp; omega),
        List.take_take] at h2
      simpa using h2
    simp only at hle1
    refine ih (i + 1) s1 (fun c hc => hz c (by simp [hc])) hlen1 (by omega)
      (by simp at hn ⊢; omega) ?_
    intro j hj hjn
    rw [htk]
    exact hex j (by omega) hjn

theorem node_init_terminates_of (env : Env) (name : String) (H : Nat)
    (hH : ∀ p, env.powercap_sysfs_zone_exists name p = 0 → p.length ≤ H) (hHu : H < U32)
    (hnil : env.powercap_sysfs_zone_exists name [] ≠ 0 ∨ H + 1 < U32)
    (hW : ∀ P, ∃ k, k < U32 ∧ env.powercap_sysfs_zone_exists name (P ++ [k]) ≠ 0) :
    ∀ (fuel : Nat) (st : BuildSt) (d : Nat), H - d + U32 ≤ fuel →
      env.powercap_sysfs_zone_exists name (st.zones.take d) = 0 →
      st.zones.length = st.zones_len → d ≤ st.zones_len → 0 < st.zones_len →
      ∃ res, powercap_tree_node_init env name fuel zero_node st d = some res := by
  intro fuel
  induction fuel with
  | zero =>
    intro st d hf
    have : 0 < U32 := by decide
    omega
  | succ fuel IH =>
    intro st d hf hex hlen hd hpos
    have hdH : d ≤ H := by
      have := hH _ hex
      simp at this
      omega
    apply node_init_progress
    intro g hgz
    obtain ⟨glen, gd, gle, gtake, gdm⟩ :=
      grow_zones_ok hgz (by simpa [note_depth_eq] using hlen)
        (by simpa [note_depth_eq] using hd) (by simpa [note_depth_eq] using hpos)
    simp only [note_depth_eq] at gtake
    have hdz : d < g.zones.length := by omega
    -- the probing loop stops
    have hstop : ∃ k, k < U32 ∧
        env.powercap_sysfs_zone_exists name ((g.zones.set d k).take ((d + 1) % U32)) ≠ 0 := by
      by_cases hd1 : d + 1 < U32
      · obtain ⟨k, hk, hm⟩ := hW (st.zones.take d)
        refine ⟨k, hk, ?_⟩
        rwa [Nat.mod_eq_of_lt hd1, take_set_succ _ _ _ hdz, gtake]
      · have hq : (d + 1) % U32 = 0 := by
          have : d + 1 = U32 := by omega
          rw [this]; exact Nat.mod_self _
        rcases hnil with hnil | hdeep
        · exact ⟨0, by decide, by simpa [hq] using hnil⟩
        · omega
    obtain ⟨k, hk, hm⟩ := hstop
    have hU : k < fuel + 1 := by omega
    obtain ⟨⟨z, log⟩, hp⟩ := probe_zones_some env name d g.zones hdz k hk hm (fuel + 1) 0
      g.sys.probes (Nat.zero_le _) (by omega)
    have hcc : count_children env name (fuel + 1) g d
        = some { g with zones := z, sys := { g.sys with probes := log } } := by
      simp [count_children, hp]
    obtain ⟨k1, log1, hk1, hst3, hbelow, hmiss⟩ := count_children_ok hcc hdz
    refine ⟨_, hcc, ?_⟩
    intro w4
    rw [hst3]
    simp only [getD_set_same _ _ _ hdz]
    have hk0 : k1 ≠ 0 → d + 1 < U32 := by
      intro hk0
      by_contra hcon
      have hq : (d + 1) % U32 = 0 := by
        have : d + 1 = U32 := by omega
        rw [this]; exact Nat.mod_self _
      rw [hq] at hbelow hmiss
      simp only [List.take_zero] at hbelow hmiss
      exact hmiss (hbelow 0 (Nat.pos_of_ne_zero hk0))
    have hchild : ∀ j, j < k1 →
        env.powercap_sysfs_zone_exists name (st.zones.take d ++ [j]) = 0 := by
      intro j hj
      have := hbelow j hj
      rwa [Nat.mod_eq_of_lt (hk0 (by omega)), take_set_succ _ _ _ hdz, gtake] at this
    refine init_loop_terminates env name fuel d k1 ?_ hk0 _ 0 _
      (fun c hc => (List.mem_replicate.1 hc).2) (by simpa using glen) (by simpa using gd)
      (by simp) ?_
    · intro s hs hsl hsd
      have hl := hH _ hs
      have : d + 1 ≤ s.zones.length := by omega
      simp at hl
      exact IH s (d + 1) (by omega) hs hsl hsd (by omega)
    · intro j _ hj
      show env.powercap_sysfs_zone_exists name ((g.zones.set d k1).take d ++ [j]) = 0
      rw [take_set_same, gtake]
      exact hchild j hj

theorem node_init_terminates (env : Env) (name : String) (H : Nat)
    (hH : ∀ p, env.powercap_sysfs_zone_exists name p = 0 → p.length ≤ H) (hHu : H < U32)
    (hnil : env.powercap_sysfs_zone_exists name [] ≠ 0)
    (hW : ∀ P, ∃ k, k < U32 ∧ env.powercap_sysfs_zone_exists name (P ++ [k]) ≠ 0) :
    ∀ (fuel : Nat) (st : BuildSt) (d : Nat), H - d + U32 ≤ fuel →
      env.powercap_sysfs_zone_exists name (st.zones.take d) = 0 →
      st.zones.length = st.zones_len → d ≤ st.zones_len → 0 < st.zones_len →
      ∃ res, powercap_tree_node_init env name fuel zero_node st d = some res :=
  node_init_terminates_of env name H hH hHu (Or.inl hnil) hW

end Powercap

namespace Powercap

/-! ### Block accounting -/

theorem free_eq (p : Ptr) (w : Sys) : free p w = { w with freed := w.freed ++ held p } := by
  unfold free held
  split <;> simp

mutual
theorem node_destroy_eq :
    ∀ (t : powercap_tree_node) (w : Sys),
      powercap_tree_node_destroy t w = { w with freed := w.freed ++ owned_node t }
  | powercap_tree_node.mk p cs n _, w => by
    simp [powercap_tree_node_destroy, owned_node, free_eq, destroy_children_eq cs 0 n w]
theorem destroy_children_eq :
    ∀ (cs : List powercap_tree_node) (i n : Nat) (w : Sys),
      destroy_children cs i n w = { w with freed := w.freed ++ owned_children cs i n }
  | [], _, _, w => by simp [destroy_children, owned_children]
  | c :: cs, i, n, w => by
    by_cases h : i < n
    · simp [destroy_children, owned_children, h, node_destroy_eq c w,
        destroy_children_eq cs (i + 1) n]
    · simp [destroy_children, owned_children, h]
end

theorem root_destroy_eq (ptr : powercap_tree_root) (w : Sys) :
    (powercap_tree_root_destroy ptr w).2 = { w with freed := w.freed ++ owned_root ptr } := by
  simp [powercap_tree_root_destroy, owned_root, free_eq, destroy_children_eq]

theorem Grows.grefl (w : Sys) : Grows w w :=
  ⟨⟨0, by simp⟩, ⟨[], by simp⟩, le_refl _⟩

theorem Grows.gtrans {w w1 w2 : Sys} (h1 : Grows w w1) (h2 : Grows w1 w2) : Grows w w2 := by
  obtain ⟨⟨k1, ha1⟩, ⟨m1, hf1⟩, hn1⟩ := h1
  obtain ⟨⟨k2, ha2⟩, ⟨m2, hf2⟩, hn2⟩ := h2
  refine ⟨⟨k1 + k2, ?_⟩, ⟨m1 ++ m2, by rw [hf2, hf1, List.append_assoc]⟩, le_trans hn1 hn2⟩
  rw [ha2, ha1, List.append_assoc]
  congr 1
  simp only [List.length_append, List.length_range']
  rw [show w.allocated.length + k1 + 1 = w.allocated.length + 1 + k1 by omega]
  rw [List.range'_append_1, Nat.add_comm k2 k1]

theorem Grows.of_eq {w w1 : Sys} (ha : w1.allocated = w.allocated) (hf : w1.freed = w.freed)
    (hn : w1.ncalls = w.ncalls) : Grows w w1 :=
  ⟨⟨0, by simp [ha]⟩, ⟨[], by simp [hf]⟩, by omega⟩

theorem Bal.brefl (w : Sys) (b : List Ptr) : Bal w w b b := fun _ => rfl

theorem Bal.btrans {w w1 w2 : Sys} {b m a : List Ptr} (h1 : Bal w w1 b m) (h2 : Bal w1 w2 m a) :
    Bal w w2 b a := by
  intro x
  have := h1 x
  have := h2 x
  omega

theorem Bal.frame {w w1 : Sys} {b a : List Ptr} (h : Bal w w1 b a) (f : List Ptr) :
    Bal w w1 (b ++ f) (a ++ f) := by
  intro x
  have := h x
  simp only [List.count_append]
  omega

theorem Bal.of_count {w w1 : Sys} {b a b1 a1 : List Ptr} (h : Bal w w1 b a)
    (hb : ∀ x, b1.count x = b.count x) (ha : ∀ x, a1.count x = a.count x) :
    Bal w w1 b1 a1 := by
  intro x
  have := h x
  rw [hb, ha]
  exact this

theorem Clean.crefl (env : Env) {w w1 : Sys} (h : w1.ncalls = w.ncalls) : Clean env w w1 := by
  intro j h1 h2
  omega

theorem Clean.ctrans {env : Env} {w w1 w2 : Sys} (h1 : Clean env w w1) (h2 : Clean env w1 w2) :
    Clean env w w2 := by
  intro j hj1 hj2
  by_cases h : j < w1.ncalls
  · exact h1 j hj1 h
  · exact h2 j (by omega) hj2

theorem Failed.left {env : Env} {w w1 w2 : Sys} (h : Failed env w w1)
    (hle : w1.ncalls ≤ w2.ncalls) : Failed env w w2 := by
  obtain ⟨j, h1, h2, h3⟩ := h
  exact ⟨j, h1, by omega, h3⟩

theorem Failed.right {env : Env} {w w1 w2 : Sys} (hle : w.ncalls ≤ w1.ncalls)
    (h : Failed env w1 w2) : Failed env w w2 := by
  obtain ⟨j, h1, h2, h3⟩ := h
  exact ⟨j, by omega, h2, h3⟩

theorem Failed.not_clean {env : Env} {w w1 : Sys} (h : Failed env w w1) (hc : Clean env w w1) :
    False := by
  obtain ⟨j, h1, h2, h3⟩ := h
  have := hc j h1 h2
  rw [this] at h3
  exact absurd h3 (by simp)

theorem alloc_ok {env : Env} {w w1 : Sys} {p : Ptr} (h : alloc env w = (p, w1))
    (hp : p ≠ NULL) :
    Grows w w1 ∧ Bal w w1 [] (held p) ∧ Clean env w w1 ∧ w1.probes = w.probes := by
  unfold alloc at h
  split at h
  · obtain ⟨rfl, -⟩ := Prod.mk.inj h
    exact absurd rfl hp
  · rename_i hf
    obtain ⟨rfl, rfl⟩ := Prod.mk.inj h
    refine ⟨⟨⟨1, by simp [List.range']⟩, ⟨[], by simp⟩, by simp⟩, ?_, ?_, rfl⟩
    · intro x
      simp [held, NULL, List.count_append]
      omega
    · intro j h1 h2
      have : j = w.ncalls := by simp at h2; omega
      subst this
      simpa using hf

theorem alloc_fail {env : Env} {w w1 : Sys} {p : Ptr} (h : alloc env w = (p, w1))
    (hp : p = NULL) :
    Grows w w1 ∧ Bal w w1 [] [] ∧ Failed env w w1 ∧ w1.allocated = w.allocated ∧
      w1.freed = w.freed ∧ w1.probes = w.probes := by
  unfold alloc at h
  split at h
  · rename_i hf
    obtain ⟨-, rfl⟩ := Prod.mk.inj h
    exact ⟨Grows.of_eq rfl rfl rfl |>.gtrans ⟨⟨0, by simp⟩, ⟨[], by simp⟩, by simp⟩,
      fun x => rfl, ⟨w.ncalls, le_refl _, by simp, hf⟩, rfl, rfl, rfl⟩
  · obtain ⟨rfl, -⟩ := Prod.mk.inj h
    simp [NULL] at hp

theorem free_acct (p : Ptr) (w : Sys) :
    Grows w (free p w) ∧ Bal w (free p w) (held p) [] ∧ (free p w).ncalls = w.ncalls := by
  rw [free_eq]
  refine ⟨⟨⟨0, by simp⟩, ⟨held p, rfl⟩, le_refl _⟩, ?_, rfl⟩
  intro x
  simp [List.count_append]
  omega

theorem released_acct (w : Sys) (l : List Ptr) (e : Int) :
    Grows w { w with freed := w.freed ++ l, errno := e } ∧
    Bal w { w with freed := w.freed ++ l, errno := e } l [] := by
  refine ⟨⟨⟨0, by simp⟩, ⟨l, rfl⟩, le_refl _⟩, ?_⟩
  intro x
  simp [List.count_append]
  omega

end Powercap

namespace Powercap

theorem grow_zones_acct {env : Env} {st g : BuildSt} {d : Nat} {b : Bool}
    (h : grow_zones env st d = (b, g)) :
    Grows st.sys g.sys ∧ Bal st.sys g.sys (held st.zones_ptr) (held g.zones_ptr) ∧
      ((b = true ∧ Clean env st.sys g.sys) ∨ (b = false ∧ Failed env st.sys g.sys)) := by
  unfold grow_zones at h
  by_cases hge : d ≥ st.zones_len
  · simp only [hge, if_true] at h
    unfold realloc at h
    rcases ha : alloc env st.sys with ⟨p, w1⟩
    simp only [ha] at h
    by_cases hp : p = NULL
    · simp only [hp, if_true] at h
      obtain ⟨rfl, rfl⟩ := Prod.mk.inj h
      obtain ⟨hG, hB, hF, -⟩ := alloc_fail ha hp
      exact ⟨hG, by simpa using hB.frame (held st.zones_ptr), Or.inr ⟨rfl, hF⟩⟩
    · simp only [hp, if_false] at h
      obtain ⟨rfl, rfl⟩ := Prod.mk.inj h
      obtain ⟨hG, hB, hC, -⟩ := alloc_ok ha hp
      obtain ⟨hG2, hB2, hn2⟩ := free_acct st.zones_ptr w1
      refine ⟨hG.gtrans hG2, ?_, Or.inl ⟨rfl, hC.ctrans (Clean.crefl env hn2)⟩⟩
      intro x
      have h1 := hB x
      have h2 := hB2 x
      simp only [List.count_nil] at h1 h2
      show (free st.zones_ptr w1).allocated.count x + _ + _ = _ + (free st.zones_ptr w1).freed.count x + (held p).count x
      omega
  · simp only [hge, if_false] at h
    obtain ⟨rfl, rfl⟩ := Prod.mk.inj h
    exact ⟨Grows.grefl _, Bal.brefl _ _, Or.inl ⟨rfl, Clean.crefl env rfl⟩⟩

theorem count_children_sys {env : Env} {name : String} {fuel : Nat} {st st3 : BuildSt}
    {d : Nat} (h : count_children env name fuel st d = some st3) :
    st3.sys.allocated = st.sys.allocated ∧ st3.sys.freed = st.sys.freed ∧
      st3.sys.ncalls = st.sys.ncalls ∧ st3.zones_ptr = st.zones_ptr := by
  unfold count_children at h
  split at h
  · exact absurd h (by simp)
  · obtain rfl := Option.some.inj h
    exact ⟨rfl, rfl, rfl, rfl⟩

theorem Grows.gcongr {w w1 v v1 : Sys} (h : Grows w w1)
    (ha : v.allocated = w.allocated) (hf : v.freed = w.freed) (hn : v.ncalls = w.ncalls)
    (ha1 : v1.allocated = w1.allocated) (hf1 : v1.freed = w1.freed)
    (hn1 : v1.ncalls = w1.ncalls) : Grows v v1 := by
  unfold Grows at h ⊢
  rw [ha, hf, hn, ha1, hf1, hn1]
  exact h

theorem Bal.bcongr {w w1 v v1 : Sys} {b a : List Ptr} (h : Bal w w1 b a)
    (ha : v.allocated = w.allocated) (hf : v.freed = w.freed)
    (ha1 : v1.allocated = w1.allocated) (hf1 : v1.freed = w1.freed) : Bal v v1 b a := by
  unfold Bal at h ⊢
  rw [ha, hf, ha1, hf1]
  exact h

theorem Clean.ccongr {env : Env} {w w1 v v1 : Sys} (h : Clean env w w1)
    (hn : v.ncalls = w.ncalls) (hn1 : v1.ncalls = w1.ncalls) : Clean env v v1 := by
  unfold Clean at h ⊢
  rw [hn, hn1]
  exact h

theorem Failed.fcongr {env : Env} {w w1 v v1 : Sys} (h : Failed env w w1)
    (hn : v.ncalls = w.ncalls) (hn1 : v1.ncalls = w1.ncalls) : Failed env v v1 := by
  unfold Failed at h ⊢
  rw [hn, hn1]
  exact h

theorem init_loop_acct (env : Env) (name : String) (fuel d dd n : Nat)
    (IH : ∀ (st : BuildSt) (d : Nat) (r : Int) (t : powercap_tree_node) (st1 : BuildSt),
      powercap_tree_node_init env name fuel zero_node st d = some (r, t, st1) →
      Grows st.sys st1.sys ∧
      Bal st.sys st1.sys (held st.zones_ptr)
        (held st1.zones_ptr ++ (if r = 0 then owned_node t else [])) ∧
      ((r = 0 ∧ Clean env st.sys st1.sys) ∨ (r = -1 ∧ Failed env st.sys st1.sys))) :
    ∀ (cs : List powercap_tree_node) (i : Nat) (st : BuildSt) (f : Option Nat)
      (arr1 : List powercap_tree_node) (st1 : BuildSt),
      init_children
        (fun i c s => powercap_tree_node_init env name fuel c
          { s with zones := s.zones.set d i } dd)
        n cs i st = some (f, arr1, st1) →
      (∀ c ∈ cs, c = zero_node) →
      Grows st.sys st1.sys ∧
      ((f = none ∧
          Bal st.sys st1.sys (held st.zones_ptr)
            (held st1.zones_ptr ++ owned_children arr1 i n) ∧
          Clean env st.sys st1.sys) ∨
       (∃ j, f = some j ∧ i ≤ j ∧
          Bal st.sys st1.sys (held st.zones_ptr)
            (held st1.zones_ptr ++ owned_children arr1 i j) ∧
          Failed env st.sys st1.sys)) := by
  intro cs
  induction cs with
  | nil =>
    intro i st f arr1 st1 h _
    obtain ⟨rfl, rfl, rfl⟩ : none = f ∧ [] = arr1 ∧ st = st1 := by
      simpa [init_children] using h
    exact ⟨Grows.grefl _, Or.inl ⟨rfl, by simpa [owned_children] using Bal.brefl _ _,
      Clean.crefl env rfl⟩⟩
  | cons c cs ih =>
    intro i st f arr1 st1 h hz
    by_cases hin : i < n
    swap
    · simp only [init_children, hin, if_false] at h
      obtain ⟨rfl, rfl, rfl⟩ : none = f ∧ c :: cs = arr1 ∧ st = st1 := by simpa using h
      exact ⟨Grows.grefl _, Or.inl ⟨rfl, by simpa [owned_children, hin] using Bal.brefl _ _,
        Clean.crefl env rfl⟩⟩
    have hc : c = zero_node := hz c (by simp)
    subst hc
    obtain ⟨r, c1, s1, hb, hcase⟩ := init_children_cons_inv h hin
    obtain ⟨hG, hB, hR⟩ := IH _ _ _ _ _ hb
    simp only at hG hB hR
    rcases hcase with ⟨hr, rfl, rfl, rfl⟩ | ⟨hr, cs1, hrest, rfl⟩
    · refine ⟨hG, Or.inr ⟨i, rfl, le_refl _, ?_, ?_⟩⟩
      · simpa [owned_children, hr] using hB
      · rcases hR with ⟨h0, _⟩ | ⟨_, hF⟩
        · exact absurd h0 hr
        · exact hF
    · subst hr
      simp only [if_true] at hB
      have hC1 : Clean env st.sys s1.sys := by
        rcases hR with ⟨_, hC⟩ | ⟨h0, _⟩
        · exact hC
        · exact absurd h0 (by decide)
      obtain ⟨hG2, hcase2⟩ := ih (i + 1) s1 f cs1 st1 hrest (fun c hc => hz c (by simp [hc]))
      refine ⟨hG.gtrans hG2, ?_⟩
      rcases hcase2 with ⟨rfl, hB2, hC2⟩ | ⟨j, rfl, hj, hB2, hF2⟩
      · refine Or.inl ⟨rfl, ?_, hC1.ctrans hC2⟩
        intro x
        have h1 := hB x
        have h2 := hB2 x
        simp only [owned_children, hin, if_true, List.count_append] at h1 h2 ⊢
        omega
      · refine Or.inr ⟨j, rfl, by omega, ?_, Failed.right hG.2.2 hF2⟩
        have hij : i < j := by omega
        intro x
        have h1 := hB x
        have h2 := hB2 x
        simp only [owned_children, hij, if_true, List.count_append] at h1 h2 ⊢
        omega

theorem node_init_acct (env : Env) (name : String) :
    ∀ (fuel : Nat) (st : BuildSt) (d : Nat) (r : Int) (t : powercap_tree_node) (st1 : BuildSt),
      powercap_tree_node_init env name fuel zero_node st d = some (r, t, st1) →
      Grows st.sys st1.sys ∧
      Bal st.sys st1.sys (held st.zones_ptr)
        (held st1.zones_ptr ++ (if r = 0 then owned_node t else [])) ∧
      ((r = 0 ∧ Clean env st.sys st1.sys) ∨ (r = -1 ∧ Failed env st.sys st1.sys)) := by
  intro fuel
  induction fuel with
  | zero => intro st d r t st1 h; simp [powercap_tree_node_init] at h
  | succ fuel IH =>
    intro st d r t st1 h
    rcases hgz : grow_zones env (note_depth st d) d with ⟨b, g⟩
    obtain ⟨gG, gB, gR⟩ := grow_zones_acct hgz
    simp only [note_depth_eq] at gG gB gR
    rcases node_init_inv h with ⟨hg, rfl, rfl, rfl⟩ | ⟨hg, st3, hc, hcase⟩
    · rw [hgz] at hg ⊢
      simp only at hg
      subst hg
      refine ⟨gG, by simpa using gB, Or.inr ⟨rfl, ?_⟩⟩
      rcases gR with ⟨h0, _⟩ | ⟨_, hF⟩
      · exact absurd h0 (by simp)
      · exact hF
    · rw [hgz] at hg hc
      simp only at hg hc
      subst hg
      have gC : Clean env st.sys g.sys := by
        rcases gR with ⟨_, hC⟩ | ⟨h0, _⟩
        · exact hC
        · exact absurd h0 (by simp)
      obtain ⟨ca, cf, cn, cz⟩ := count_children_sys hc
      have cG : Grows st.sys st3.sys := gG.gcongr rfl rfl rfl ca cf cn
      have cB : Bal st.sys st3.sys (held st.zones_ptr) (held st3.zones_ptr) := by
        rw [cz]; exact gB.bcongr rfl rfl ca cf
      have cC : Clean env st.sys st3.sys := gC.ccongr rfl cn
      rcases hcase with ⟨hn, ha, rfl, rfl, rfl⟩ | ⟨p, w4, hw4, f, arr5, st5, hloop, hfin⟩
      · obtain ⟨aG, aB, aF, -⟩ := alloc_fail (Prod.ext rfl rfl : alloc env st3.sys = (_, _)) ha
        refine ⟨cG.gtrans aG, ?_, Or.inr ⟨rfl, Failed.right cG.2.2 aF⟩⟩
        have := cB.btrans (by simpa using aB.frame (held st3.zones_ptr))
        simpa using this
      · -- the children array
        have hA : Grows st3.sys w4 ∧ Bal st3.sys w4 [] (held p) ∧ Clean env st3.sys w4 := by
          rcases hw4 with ⟨_, rfl, rfl⟩ | ⟨_, ha, hp⟩
          · exact ⟨Grows.grefl _, by simpa [held] using Bal.brefl _ [], Clean.crefl env rfl⟩
          · obtain ⟨aG, aB, aC, -⟩ := alloc_ok ha hp
            exact ⟨aG, aB, aC⟩
        obtain ⟨aG, aB, aC⟩ := hA
        obtain ⟨lG, lcase⟩ :=
          init_loop_acct env name fuel d _ _ IH _ 0 _ _ _ _ hloop
            (fun c hc => (List.mem_replicate.1 hc).2)
        simp only at lG lcase
        have hB0 : Bal st.sys w4 (held st.zones_ptr) (held st3.zones_ptr ++ held p) := by
          have := cB.btrans (by simpa using aB.frame (held st3.zones_ptr))
          intro x
          have h1 := this x
          simp only [List.count_append] at h1 ⊢
          omega
        rcases hfin with ⟨rfl, rfl, rfl, rfl⟩ | ⟨i, rfl, rfl, rfl, rfl⟩
        · rcases lcase with ⟨-, lB, lC⟩ | ⟨j, hj, _⟩
          swap
          · exact absurd hj (by simp)
          refine ⟨(cG.gtrans aG).gtrans lG, ?_, Or.inl ⟨rfl, (cC.ctrans aC).ctrans lC⟩⟩
          intro x
          have h1 := hB0 x
          have h2 := lB x
          simp only [owned_node, if_true, List.count_append] at h1 h2 ⊢
          omega
        · rcases lcase with ⟨hj, _⟩ | ⟨j, hj, _, lB, lF⟩
          · exact absurd hj (by simp)
          obtain rfl := Option.some.inj hj
          rw [node_destroy_eq]
          obtain ⟨dG, dB⟩ := released_acct st5.sys
            (owned_node (powercap_tree_node.mk p arr5 i NULL)) st5.sys.errno
          refine ⟨((cG.gtrans aG).gtrans lG).gtrans dG, ?_,
            Or.inr ⟨rfl, Failed.right (cG.gtrans aG).2.2 lF⟩⟩
          intro x
          have h1 := hB0 x
          have h2 := lB x
          have h3 := dB x
          simp only [owned_node, List.count_append, List.count_nil] at h1 h2 h3 ⊢
          simp only [show (-1 : Int) = 0 ↔ False by decide, if_false, List.count_nil,
            List.append_nil] 
          omega

end Powercap

namespace Powercap

/-! ### The root: termination and accounting -/

theorem root_body_eq (env : Env) (name : String) (fuel : Nat) :
    (fun i c s => powercap_tree_node_init env name fuel c
        { s with zones := s.zones.set 0 i } 1)
      = (fun i (c : powercap_tree_node) (s : BuildSt) =>
          powercap_tree_node_init env name fuel c
            { s with zones := s.zones.set 0 i } ((0 + 1) % U32)) := by
  rw [one_mod_U32]

theorem root_init_progress {env : Env} {fuel : Nat} {name : String} {w : Sys}
    (hp : ∀ probes, ∃ r, probe_root env name fuel 0 probes = some r)
    (hl : ∀ n log probes, probe_root env name fuel 0 probes = some (n, log) →
      ∀ z wz, ∃ q, init_children
        (fun i c s => powercap_tree_node_init env name fuel c
          { s with zones := s.zones.set 0 i } 1)
        n (List.replicate n zero_node) 0
        ⟨0, z, List.replicate POWERCAP_TREE_MAX_DEPTH_START 0,
          POWERCAP_TREE_MAX_DEPTH_START, wz⟩ = some q) :
    ∃ res, powercap_tree_root_init env fuel name w = some res := by
  unfold powercap_tree_root_init
  by_cases hct : env.powercap_sysfs_control_type_exists name = 0
  swap
  · simp only [ne_eq, hct, not_false_eq_true, if_true]
    exact ⟨_, rfl⟩
  simp only [ne_eq, hct, not_true_eq_false, if_false]
  by_cases ha0 : (alloc env w).1 = NULL
  · simp only [ha0, if_true]
    exact ⟨_, rfl⟩
  simp only [ha0, if_false]
  by_cases hb0 : (alloc env (alloc env w).2).1 = NULL
  · simp only [hb0, if_true]
    exact ⟨_, rfl⟩
  simp only [hb0, if_false]
  obtain ⟨⟨n, log⟩, hpr⟩ := hp (alloc env (alloc env w).2).2.probes
  simp only [hpr]
  by_cases hn : n = 0
  · simp only [hn, not_true_eq_false, if_false, false_and]
    exact ⟨_, rfl⟩
  simp only [hn, not_false_eq_true, if_true, true_and]
  split
  · exact ⟨_, rfl⟩
  split
  · exact ⟨_, rfl⟩
  obtain ⟨q, hq⟩ := hl n log _ hpr
    (alloc env (alloc env { (alloc env (alloc env w).2).2 with probes := log }).2).1
    (alloc env (alloc env { (alloc env (alloc env w).2).2 with probes := log }).2).2
  rw [hq]
  rcases q with ⟨_ | i, arr5, st5⟩
  · exact ⟨_, rfl⟩
  · exact ⟨_, rfl⟩

theorem root_init_terminates_of (env : Env) (name : String) (H : Nat)
    (hH : ∀ p, env.powercap_sysfs_zone_exists name p = 0 → p.length ≤ H) (hHu : H < U32)
    (hnil : env.powercap_sysfs_zone_exists name [] ≠ 0 ∨ H + 1 < U32)
    (hW : ∀ P, ∃ k, k < U32 ∧ env.powercap_sysfs_zone_exists name (P ++ [k]) ≠ 0)
    (fuel : Nat) (hf : H + U32 ≤ fuel) (w : Sys) :
    ∃ res, powercap_tree_root_init env fuel name w = some res := by
  apply root_init_progress
  · intro probes
    obtain ⟨k, hk, hm⟩ := hW []
    exact probe_root_some env name k hk (by simpa using hm) fuel 0 probes (Nat.zero_le _)
      (by omega)
  · intro n log probes hpr z wz
    obtain ⟨hnu, hbelow, hmiss⟩ :=
      probe_root_spec env name fuel 0 _ n log (by decide)
        (fun j hj => absurd hj (Nat.not_lt_zero j)) hpr
    rw [root_body_eq]
    refine init_loop_terminates env name fuel 0 n ?_ (fun _ => by decide) _ 0 _
      (fun c hc => (List.mem_replicate.1 hc).2) (by simp [POWERCAP_TREE_MAX_DEPTH_START])
      (by simp [POWERCAP_TREE_MAX_DEPTH_START]) (by simp) ?_
    · intro s hs hsl hsd
      exact node_init_terminates_of env name H hH hHu hnil hW fuel s 1 (by omega) hs hsl hsd
        (by omega)
    · intro j _ hj
      simpa using hbelow j hj

theorem root_init_terminates (env : Env) (name : String) (H : Nat)
    (hH : ∀ p, env.powercap_sysfs_zone_exists name p = 0 → p.length ≤ H) (hHu : H < U32)
    (hnil : env.powercap_sysfs_zone_exists name [] ≠ 0)
    (hW : ∀ P, ∃ k, k < U32 ∧ env.powercap_sysfs_zone_exists name (P ++ [k]) ≠ 0)
    (fuel : Nat) (hf : H + U32 ≤ fuel) (w : Sys) :
    ∃ res, powercap_tree_root_init env fuel name w = some res :=
  root_init_terminates_of env name H hH hHu (Or.inl hnil) hW fuel hf w

theorem root_init_acct {env : Env} {fuel : Nat} {name : String} {w w1 : Sys}
    {res : Option powercap_tree_root}
    (h : powercap_tree_root_init env fuel name w = some (res, w1)) :
    Grows w w1 ∧
    ((res = none ∧ Bal w w1 [] [] ∧
        (Failed env w w1 ∨ env.powercap_sysfs_control_type_exists name ≠ 0)) ∨
     (∃ root, res = some root ∧ Bal w w1 [] (owned_root root) ∧ Clean env w w1)) := by
  rcases root_init_inv h with ⟨hct, rfl, rfl⟩ | ⟨_, a, wa, ha, hA⟩
  · exact ⟨Grows.of_eq rfl rfl rfl, Or.inl ⟨rfl, fun _ => rfl, Or.inr hct⟩⟩
  rcases hA with ⟨ha0, rfl, rfl⟩ | ⟨ha0, b, wb, hb, hB⟩
  · obtain ⟨aG, aB, aF, -⟩ := alloc_fail ha ha0
    exact ⟨aG, Or.inl ⟨rfl, aB, Or.inl aF⟩⟩
  obtain ⟨aG, aB, aC, -⟩ := alloc_ok ha ha0
  rcases hB with ⟨hb0, rfl, rfl⟩ | ⟨hb0, n, log, hp, hN⟩
  · obtain ⟨bG, bB, bF, -⟩ := alloc_fail hb hb0
    obtain ⟨fG, fB, fn⟩ := free_acct a wb
    refine ⟨(aG.gtrans bG).gtrans fG, Or.inl ⟨rfl, ?_, Or.inl ?_⟩⟩
    · intro x
      have h1 := aB x
      have h2 := bB x
      have h3 := fB x
      simp only [List.count_nil] at h1 h2 h3 ⊢
      omega
    · exact Failed.left (Failed.right aG.2.2 bF) (by omega)
  obtain ⟨bG, bB, bC, -⟩ := alloc_ok hb hb0
  have abB : Bal w wb [] (held a ++ held b) := by
    intro x
    have h1 := aB x
    have h2 := bB x
    simp only [List.count_nil, List.count_append] at h1 h2 ⊢
    omega
  rcases hN with ⟨hn, rfl, rfl⟩ | ⟨hn, c, wc, hc, hC⟩
  · refine ⟨aG.gtrans bG, Or.inr ⟨_, rfl, ?_, aC.ctrans bC⟩⟩
    intro x
    have h1 := abB x
    simp only [owned_root, owned_children, held, NULL, List.count_nil, List.count_append,
      if_true, List.nil_append] at h1 ⊢
    omega
  have pG : Grows wb { wb with probes := log } := Grows.of_eq rfl rfl rfl
  rcases hC with ⟨hc0, rfl, rfl⟩ | ⟨hc0, z, wz, hz, hZ⟩
  · obtain ⟨cG, cB, cF, -⟩ := alloc_fail hc hc0
    obtain ⟨f1G, f1B, f1n⟩ := free_acct b wc
    obtain ⟨f2G, f2B, f2n⟩ := free_acct a (free b wc)
    refine ⟨(((aG.gtrans bG).gtrans (pG.gtrans cG)).gtrans f1G).gtrans f2G,
      Or.inl ⟨rfl, ?_, Or.inl ?_⟩⟩
    · intro x
      have h1 := abB x
      have h2 := cB x
      have h3 := f1B x
      have h4 := f2B x
      simp only [List.count_nil, List.count_append] at h1 h2 h3 h4 ⊢
      omega
    · exact Failed.left (Failed.right (aG.gtrans bG).2.2 cF) (by omega)
  obtain ⟨cG, cB, cC, -⟩ := alloc_ok hc hc0
  have abcG : Grows w wc := (aG.gtrans bG).gtrans (pG.gtrans cG)
  have abcC : Clean env w wc := (aC.ctrans bC).ctrans cC
  have abcB : Bal w wc [] (held a ++ held b ++ held c) := by
    intro x
    have h1 := abB x
    have h2 := cB x
    simp only [List.count_nil, List.count_append] at h1 h2 ⊢
    omega
  rcases hZ with ⟨hz0, rfl, rfl⟩ | ⟨hz0, f, arr5, st5, hloop, hF⟩
  · obtain ⟨zG, zB, zF, -⟩ := alloc_fail hz hz0
    rw [root_destroy_eq]
    obtain ⟨dG, dB⟩ := released_acct wz
      (owned_root ⟨a, c, List.replicate n zero_node, 0, b, name, 0⟩) wz.errno
    refine ⟨(abcG.gtrans zG).gtrans dG, Or.inl ⟨rfl, ?_, Or.inl ?_⟩⟩
    · intro x
      have h1 := abcB x
      have h2 := zB x
      have h3 := dB x
      have h0 : owned_children (List.replicate n zero_node) 0 0 = [] := by
        cases n <;> simp [List.replicate, owned_children]
      simp only [owned_root, h0, List.count_nil, List.count_append, List.nil_append]
        at h1 h2 h3 ⊢
      omega
    · exact Failed.right abcG.2.2 zF
  obtain ⟨zG, zB, zC, -⟩ := alloc_ok hz hz0
  obtain ⟨lG, lcase⟩ :=
    init_loop_acct env name fuel 0 1 n (node_init_acct env name fuel) _ 0 _ _ _ _ hloop
      (fun c hc => (List.mem_replicate.1 hc).2)
  simp only at lG lcase
  rcases hF with ⟨rfl, rfl, rfl⟩ | ⟨i, rfl, rfl, rfl⟩
  · rcases lcase with ⟨-, lB, lC⟩ | ⟨j, hj, _⟩
    swap
    · exact absurd hj (by simp)
    obtain ⟨fG, fB, fn⟩ := free_acct st5.zones_ptr st5.sys
    refine ⟨((abcG.gtrans zG).gtrans lG).gtrans fG,
      Or.inr ⟨_, rfl, ?_, ((abcC.ctrans zC).ctrans lC).ctrans (Clean.crefl env fn)⟩⟩
    intro x
    have h1 := abcB x
    have h2 := zB x
    have h3 := lB x
    have h4 := fB x
    simp only [owned_root, List.count_nil, List.count_append] at h1 h2 h3 h4 ⊢
    omega
  · rcases lcase with ⟨hj, _⟩ | ⟨j, hj, _, lB, lF⟩
    · exact absurd hj (by simp)
    obtain rfl := Option.some.inj hj
    rw [root_destroy_eq]
    obtain ⟨dG, dB⟩ := released_acct st5.sys
      (owned_root ⟨a, c, arr5, i, b, name, st5.depth_max⟩) st5.sys.errno
    obtain ⟨fG, fB, fn⟩ := free_acct st5.zones_ptr
      { st5.sys with freed := st5.sys.freed ++ owned_root ⟨a, c, arr5, i, b, name, st5.depth_max⟩ }
    refine ⟨(((abcG.gtrans zG).gtrans lG).gtrans dG).gtrans (fG.gcongr rfl rfl rfl rfl rfl rfl), Or.inl ⟨rfl, ?_, Or.inl ?_⟩⟩
    · intro x
      have h1 := abcB x
      have h2 := zB x
      have h3 := lB x
      have h4 := dB x
      have h5 := fB x
      simp only [owned_root, List.count_nil, List.count_append] at h1 h2 h3 h4 h5 ⊢
      omega
    · exact Failed.left (Failed.right (abcG.gtrans zG).2.2 lF) (by simp [free_eq])

end Powercap

namespace Powercap

/-! ### The trace records calls of the callback -/

mutual
theorem node_walk_genuine {σ : Type} (name : String) (cb : powercap_tree_cb σ) :
    ∀ (t : powercap_tree_node) (s : WalkSt σ) (d : Nat) (ret : Int)
      (t1 : powercap_tree_node) (s1 : WalkSt σ),
      powercap_tree_node_walk name cb t s d = (ret, t1, s1) →
      (∀ v ∈ s.trace, Genuine name cb v) → ∀ v ∈ s1.trace, Genuine name cb v
  | powercap_tree_node.mk p cs n ctx, s, d, ret, t1, s1, h, hs => by
    rcases hcb : cb name s.zones d ctx s.user with ⟨r, out, u⟩
    have hv : ∀ v ∈ s.trace ++ [(⟨s.zones, d, ctx, r, out⟩ : Visit)], Genuine name cb v := by
      intro v hv
      rcases List.mem_append.1 hv with hv | hv
      · exact hs v hv
      · obtain rfl := List.mem_singleton.1 hv
        exact ⟨s.user, by simp [hcb], by simp [hcb]⟩
    by_cases hr : r = 0
    · rcases hq : walk_children name cb cs 0 n d 0
        ⟨s.zones, u, s.trace ++ [⟨s.zones, d, ctx, 0, out⟩]⟩ with ⟨ret2, cs2, s2⟩
      rw [node_walk_go hcb hr hq] at h
      obtain ⟨-, -, rfl⟩ : ret2 = ret ∧ powercap_tree_node.mk p cs2 n out = t1 ∧ s2 = s1 := by
        simpa using h
      subst hr
      exact walk_children_genuine name cb cs 0 n d 0 _ _ _ _ hq hv
    · rw [node_walk_stop hcb hr] at h
      obtain ⟨-, -, rfl⟩ : r = ret ∧ powercap_tree_node.mk p cs n out = t1 ∧
          (⟨s.zones, u, s.trace ++ [⟨s.zones, d, ctx, r, out⟩]⟩ : WalkSt σ) = s1 := by
        simpa using h
      exact hv
theorem walk_children_genuine {σ : Type} (name : String) (cb : powercap_tree_cb σ) :
    ∀ (cs : List powercap_tree_node) (i n d : Nat) (ret0 : Int) (s : WalkSt σ) (ret : Int)
      (cs1 : List powercap_tree_node) (s1 : WalkSt σ),
      walk_children name cb cs i n d ret0 s = (ret, cs1, s1) →
      (∀ v ∈ s.trace, Genuine name cb v) → ∀ v ∈ s1.trace, Genuine name cb v
  | [], i, n, d, ret0, s, ret, cs1, s1, h, hs => by
    simp only [walk_children] at h
    obtain ⟨-, -, rfl⟩ : ret0 = ret ∧ [] = cs1 ∧ s = s1 := by simpa using h
    exact hs
  | c :: cs, i, n, d, ret0, s, ret, cs1, s1, h, hs => by
    by_cases hin : i < n
    · rcases hc : powercap_tree_node_walk name cb c ⟨s.zones.set d (i % U32), s.user, s.trace⟩
        ((d + 1) % U32) with ⟨r, c1, sc⟩
      have h1 := node_walk_genuine name cb c _ _ _ _ _ hc hs
      by_cases hr : r = 0
      · rcases hq : walk_children name cb cs (i + 1) n d 0 sc with ⟨ret2, cs2, s2⟩
        rw [walk_children_go hin hc hr hq] at h
        obtain ⟨-, -, rfl⟩ : ret2 = ret ∧ c1 :: cs2 = cs1 ∧ s2 = s1 := by simpa using h
        exact walk_children_genuine name cb cs (i + 1) n d 0 _ _ _ _ hq h1
      · rw [walk_children_stop hin hc hr] at h
        obtain ⟨-, -, rfl⟩ : r = ret ∧ c1 :: cs = cs1 ∧ sc = s1 := by simpa using h
        exact h1
    · rw [walk_children_skip hin] at h
      obtain ⟨-, -, rfl⟩ : ret0 = ret ∧ c :: cs = cs1 ∧ s = s1 := by simpa using h
      exact hs
end

theorem root_walk_genuine {σ : Type} (env : Env) (ptr : powercap_tree_root)
    (cb : powercap_tree_cb σ) (user : σ) (w : Sys) :
    ∀ v ∈ (powercap_tree_root_walk env ptr cb user w).trace, Genuine ptr.name cb v := by
  unfold powercap_tree_root_walk
  by_cases hdm : ptr.depth_max = 0
  · simp [hdm]
  · by_cases hz : (alloc env w).1 = NULL
    · simp [hdm, hz]
    · rcases hq : walk_children ptr.name cb ptr.children 0 ptr.n_children 0 0
        ⟨List.replicate ptr.depth_max 0, user, []⟩ with ⟨ret, cs1, s1⟩
      have := walk_children_genuine ptr.name cb _ _ _ _ _ _ _ _ _ hq (by simp)
      simpa [hdm, hz, hq] using this

/-! ### The oracle and the tree -/

theorem zone_exists_dom (env : Env) (name : String) (p : List Nat)
    (h : env.powercap_sysfs_zone_exists name p = 0) : p.length < U32 := by
  unfold Env.powercap_sysfs_zone_exists at h
  split at h
  · assumption
  · exact absurd h (by decide)

theorem discoveredL_get (ex : List Nat → Int) :
    ∀ (cs : List powercap_tree_node) (P : List Nat) (i k : Nat) (c : powercap_tree_node),
      DiscoveredL ex P cs i → cs[k]? = some c → Discovered ex (P ++ [i + k]) c := by
  intro cs
  induction cs with
  | nil => intro P i k c _ h; simp at h
  | cons a cs ih =>
    intro P i k c h hk
    simp only [DiscoveredL] at h
    cases k with
    | zero =>
      simp at hk
      subst hk
      simpa using h.1
    | succ k =>
      simp at hk
      have := ih P (i + 1) k c h.2 hk
      rwa [show i + 1 + k = i + (k + 1) by omega] at this

theorem discovered_children (ex : List Nat → Int) (P : List Nat) (t : powercap_tree_node)
    (h : Discovered ex P t) :
    t.ctx_node = NULL ∧ t.children.length = t.n_children ∧ t.n_children < U32 ∧
    (∀ j, j < t.n_children → ex (P ++ [j]) = 0) ∧
    (ex (P ++ [t.n_children]) ≠ 0 ∨ U32 ≤ P.length + 1) ∧
    DiscoveredL ex P t.children 0 := by
  cases t with
  | mk p cs n ctx => simpa [Discovered] using h

theorem node_at_discovered (ex : List Nat → Int) :
    ∀ (Q : List Nat) (cs : List powercap_tree_node) (n : Nat) (P : List Nat)
      (t : powercap_tree_node),
      DiscoveredL ex P cs 0 → node_at cs n Q = some t → Discovered ex (P ++ Q) t := by
  intro Q
  induction Q with
  | nil => intro cs n P t _ h; simp [node_at] at h
  | cons i rest ih =>
    intro cs n P t hD h
    cases rest with
    | nil =>
      simp only [node_at, child_at] at h
      split at h
      · simpa using discoveredL_get ex cs P 0 i t hD h
      · exact absurd h (by simp)
    | cons j rest =>
      simp only [node_at] at h
      rcases hc : child_at cs n i with _ | c
      · simp [hc] at h
      · simp only [hc] at h
        have hci : cs[i]? = some c := by
          simp only [child_at] at hc
          split at hc
          · exact hc
          · exact absurd hc (by simp)
        have hDc := discoveredL_get ex cs P 0 i c hD hci
        simp only [Nat.zero_add] at hDc
        have := ih c.children c.n_children (P ++ [i]) t
          (discovered_children ex _ c hDc).2.2.2.2.2 h
        simpa using this

theorem node_at_snoc :
    ∀ (Q : List Nat) (cs : List powercap_tree_node) (n j : Nat), Q ≠ [] →
      node_at cs n (Q ++ [j]) =
        match node_at cs n Q with
        | none => none
        | some t => child_at t.children t.n_children j := by
  intro Q
  induction Q with
  | nil => intro cs n j h; exact absurd rfl h
  | cons i rest ih =>
    intro cs n j _
    cases rest with
    | nil =>
      cases h : child_at cs n i <;> simp [node_at, h]
    | cons k rest =>
      simp only [List.cons_append, node_at]
      rcases child_at cs n i with _ | c
      · simp
      · simpa using ih c.children c.n_children j (by simp)

theorem mem_preorder_of_closed (ex : List Nat → Int) (cs : List powercap_tree_node) (n : Nat)
    (hlen : cs.length = n) (hDL : DiscoveredL ex [] cs 0) (hmiss : ex [n] ≠ 0)
    (hclosed : ∀ P i, ex (P ++ [i]) = 0 → (P = [] ∨ ex P = 0) ∧ ∀ j, j < i → ex (P ++ [j]) = 0)
    (hdom : ∀ p, ex p = 0 → p.length < U32) :
    ∀ (k : Nat) (p : List Nat), p.length = k → p ≠ [] → ex p = 0 →
      p ∈ preorder_children [] cs 0 n := by
  intro k
  induction k using Nat.strong_induction_on with
  | _ k IH =>
    intro p hk hne hp
    rcases List.eq_nil_or_concat p with rfl | ⟨q, j, hpq⟩
    · exact absurd rfl hne
    rw [List.concat_eq_append] at hpq
    subst hpq
    obtain ⟨hq, hbelow⟩ := hclosed q j hp
    have hall : ∀ i, i ≤ j → ex (q ++ [i]) = 0 := by
      intro i hi
      rcases Nat.lt_or_eq_of_le hi with h | rfl
      · exact hbelow i h
      · exact hp
    by_cases hq0 : q = []
    · subst hq0
      have hjn : j < n := by
        by_contra hcon
        exact hmiss (by simpa using hall n (by omega))
      simpa using child_head_mem [] cs 0 n j (Nat.zero_le _) hjn (by omega)
    · have hqe : ex q = 0 := by
        rcases hq with h | h
        · exact absurd h hq0
        · exact h
      have hqm := IH q.length (by simp at hk; omega) q rfl hq0 hqe
      have hu := hdom _ hp
      simp at hu
      exact preorder_children_grow ex cs [] 0 n hDL q hqm j (by omega) hall

theorem pairwise_preorderBefore_nodup (l : List (List Nat))
    (h : l.Pairwise PreorderBefore) : l.Nodup := by
  refine h.imp ?_
  intro p q hpq heq
  subst heq
  rcases hpq with ⟨x, hx, he⟩ | ⟨P, i, j, X, Y, hij, h1, h2⟩
  · have := congrArg List.length he
    simp at this
    exact hx this
  · rw [h1] at h2
    have := List.append_cancel_left h2
    simp at this
    omega

end Powercap

namespace Powercap

theorem stopped_find {ret : Int} {vs : List Visit} {full : Nat} (h : Stopped ret vs full) :
    ret = ((vs.map Visit.ret).find? (fun r => decide (r ≠ 0))).getD 0 := by
  have hnone : ∀ l : List Visit, (∀ v ∈ l, v.ret = 0) →
      (l.map Visit.ret).find? (fun r => decide (r ≠ 0)) = none := by
    intro l hl
    rw [List.find?_eq_none]
    intro r hr
    obtain ⟨v, hv, rfl⟩ := List.mem_map.1 hr
    simp [hl v hv]
  rcases h with ⟨hr, hall, _⟩ | ⟨hr, _, init, last, rfl, hinit, hlast⟩
  · rw [hnone vs hall, hr]; rfl
  · rw [List.map_append, List.find?_append, hnone init hinit]
    simp [hlast, hr]

theorem stopped_cases {ret : Int} {vs : List Visit} {full : Nat} (h : Stopped ret vs full) :
    ((∀ v ∈ vs, v.ret = 0) ∧ vs.length = full ∧ ret = 0) ∨
    (∃ init last, vs = init ++ [last] ∧ (∀ v ∈ init, v.ret = 0) ∧ last.ret ≠ 0 ∧
      last.ret = ret) := by
  rcases h with ⟨hr, hall, hl⟩ | ⟨hr, _, init, last, hvs, hinit, hlast⟩
  · exact Or.inl ⟨hall, hl, hr⟩
  · exact Or.inr ⟨init, last, hvs, hinit, by rw [hlast]; exact hr, hlast⟩

theorem built_of_check {β : Type} (o : Option (Option powercap_tree_root × Sys))
    (f : powercap_tree_root → Sys → β) (b : β)
    (h : o.bind (fun r => r.1.map (fun x => f x r.2)) = some b) :
    ∃ root w1, o = some (some root, w1) ∧ f root w1 = b := by
  rcases o with _ | ⟨_ | root, w1⟩
  · simp at h
  · simp at h
  · exact ⟨root, w1, rfl, by simpa using h⟩

theorem example_built :
    ∃ root w1, powercap_tree_root_init example_env 3 "x" sys0 = some (some root, w1) ∧
      (preorder_root root, root.depth_max, root.n_children, slots_root root)
        = ([[0], [0, 0], [1]], 2, 2, [0, 0, 0]) :=
  built_of_check _ (fun root _ => (preorder_root root, root.depth_max, root.n_children,
    slots_root root)) _ (by decide!)

/-- C2 (amended): on a tree returned by `powercap_tree_root_init`, when the
walker obtains its path buffer, `powercap_tree_root_walk` calls the callback on
exactly a leading part of the preorder node sequence of the tree: every recorded
visit is a call of the callback, the visited paths are the first nodes of the
preorder sequence, and either every call returned `0` and the whole sequence was
visited, or the last visit is the first and only one whose call returned a
non-zero code, so nothing after that node was visited. -/
theorem walk_visits_leading_part {σ : Type} (env : Env) (fuel : Nat) (name : String)
    (w w1 : Sys) (root : powercap_tree_root)
    (hb : powercap_tree_root_init env fuel name w = some (some root, w1))
    (env2 : Env) (cb : powercap_tree_cb σ) (user : σ) (w2 : Sys)
    (halloc : root.depth_max ≠ 0 → env2.alloc_fails w2.ncalls = false) :
    (∀ v ∈ (powercap_tree_root_walk env2 root cb user w2).trace, Genuine root.name cb v) ∧
    (powercap_tree_root_walk env2 root cb user w2).trace.map Visit.path
      = (preorder_root root).take (powercap_tree_root_walk env2 root cb user w2).trace.length ∧
    (((∀ v ∈ (powercap_tree_root_walk env2 root cb user w2).trace, v.ret = 0) ∧
        (powercap_tree_root_walk env2 root cb user w2).trace.map Visit.path
          = preorder_root root) ∨
     (∃ init last, (powercap_tree_root_walk env2 root cb user w2).trace = init ++ [last] ∧
        (∀ v ∈ init, v.ret = 0) ∧ last.ret ≠ 0)) := by
  obtain ⟨hstop, hpath, -⟩ :=
    root_walk_visits env2 root cb user w2 (root_init_wellFormed hb) halloc
  refine ⟨root_walk_genuine env2 root cb user w2, hpath, ?_⟩
  rcases stopped_cases hstop with ⟨hall, hl, -⟩ | ⟨init, last, hvs, hinit, hlast, -⟩
  · left
    refine ⟨hall, ?_⟩
    rw [hpath, hl, List.take_length]
  · exact Or.inr ⟨init, last, hvs, hinit, hlast⟩

/-- C2, witness: the tree of the example of the specification, walked with the
callback of the test. -/
theorem walk_visits_leading_part_witness :
    ∃ root w1, powercap_tree_root_init example_env 3 "x" sys0 = some (some root, w1) ∧
      (powercap_tree_root_walk example_env root test_cb () w1).trace.map Visit.path
        = (preorder_root root).take
            (powercap_tree_root_walk example_env root test_cb () w1).trace.length := by
  obtain ⟨root, w1, hb, -⟩ := example_built
  exact ⟨root, w1, hb,
    (walk_visits_leading_part example_env 3 "x" sys0 w1 root hb example_env test_cb () w1
      (fun _ => rfl)).2.1⟩

/-- C2, counterexample: the tree of the example of the specification holds the
nodes `[0]`, `[0,0]`, `[1]`; a walk whose path-buffer allocation fails returns
`-1` and calls the callback of the test, which always returns `0`, on none. -/
theorem starved_walk_visits_nothing :
    (powercap_tree_root_init example_env 3 "x" sys0).bind
        (fun r => r.1.map (fun root =>
          (preorder_root root,
            (powercap_tree_root_walk starved_env root test_cb () r.2).trace.map Visit.path,
            (powercap_tree_root_walk starved_env root test_cb () r.2).ret)))
      = some ([[0], [0, 0], [1]], [], -1) := by
  decide!

/-- C3: on a tree returned by `powercap_tree_root_init`, when the walker obtains
its path buffer: every recorded visit is a call of the callback, the visits are
made for the first nodes of the preorder sequence of the tree, in that order,
and the value `powercap_tree_root_walk` returns is the first non-zero code among
the codes of these calls, and `0` when there is none.  Either every call
returned `0`, every node of the tree was visited and the walk returns `0`, or
the last call is the first and only one with a non-zero code and the walk
returns that code.  So the walk returns `0` for a callback that always returns
`0`; a non-zero return value is the code of a recorded call of the callback;
and for a callback that never returns `0`, on a tree with a node, the callback
is called for the node `[0]` alone and the walk returns a non-zero value, the
code of that call. -/
theorem walk_returns_first_nonzero {σ : Type} (env : Env) (fuel : Nat) (name : String)
    (w w1 : Sys) (root : powercap_tree_root)
    (hb : powercap_tree_root_init env fuel name w = some (some root, w1))
    (env2 : Env) (cb : powercap_tree_cb σ) (user : σ) (w2 : Sys)
    (halloc : root.depth_max ≠ 0 → env2.alloc_fails w2.ncalls = false) :
    (powercap_tree_root_walk env2 root cb user w2).ret
      = (((powercap_tree_root_walk env2 root cb user w2).trace.map Visit.ret).find?
          (fun r => decide (r ≠ 0))).getD 0 ∧
    ((∀ v ∈ (powercap_tree_root_walk env2 root cb user w2).trace, v.ret = 0) →
      (powercap_tree_root_walk env2 root cb user w2).ret = 0) ∧
    ((∀ a b c d e, (cb a b c d e).1 = 0) →
      (powercap_tree_root_walk env2 root cb user w2).ret = 0) ∧
    ((powercap_tree_root_walk env2 root cb user w2).ret ≠ 0 →
      ∃ v ∈ (powercap_tree_root_walk env2 root cb user w2).trace,
        Genuine root.name cb v ∧
          v.ret = (powercap_tree_root_walk env2 root cb user w2).ret) ∧
    (∀ v ∈ (powercap_tree_root_walk env2 root cb user w2).trace, Genuine root.name cb v) ∧
    (powercap_tree_root_walk env2 root cb user w2).trace.map Visit.path
      = (preorder_root root).take (powercap_tree_root_walk env2 root cb user w2).trace.length ∧
    (((∀ v ∈ (powercap_tree_root_walk env2 root cb user w2).trace, v.ret = 0) ∧
        (powercap_tree_root_walk env2 root cb user w2).trace.map Visit.path
          = preorder_root root ∧
        (powercap_tree_root_walk env2 root cb user w2).ret = 0) ∨
     (∃ init last, (powercap_tree_root_walk env2 root cb user w2).trace = init ++ [last] ∧
        (∀ v ∈ init, v.ret = 0) ∧ last.ret ≠ 0 ∧
        (powercap_tree_root_walk env2 root cb user w2).ret = last.ret)) ∧
    ((∀ a b c d e, (cb a b c d e).1 ≠ 0) → root.n_children ≠ 0 →
      (powercap_tree_root_walk env2 root cb user w2).trace.map Visit.path = [[0]] ∧
      (powercap_tree_root_walk env2 root cb user w2).ret ≠ 0 ∧
      ∃ v, (powercap_tree_root_walk env2 root cb user w2).trace = [v] ∧
        Genuine root.name cb v ∧
        v.ret = (powercap_tree_root_walk env2 root cb user w2).ret) := by
  obtain ⟨hstop, hpath, -⟩ :=
    root_walk_visits env2 root cb user w2 (root_init_wellFormed hb) halloc
  have hgen := root_walk_genuine env2 root cb user w2
  have hzero : (∀ v ∈ (powercap_tree_root_walk env2 root cb user w2).trace, v.ret = 0) →
      (powercap_tree_root_walk env2 root cb user w2).ret = 0 := by
    intro hall
    rcases stopped_cases hstop with ⟨-, -, h0⟩ | ⟨init, last, hvs, -, hlast, -⟩
    · exact h0
    · exact absurd (hall last (by rw [hvs]; simp)) hlast
  have hcases : ((∀ v ∈ (powercap_tree_root_walk env2 root cb user w2).trace, v.ret = 0) ∧
        (powercap_tree_root_walk env2 root cb user w2).trace.map Visit.path
          = preorder_root root ∧
        (powercap_tree_root_walk env2 root cb user w2).ret = 0) ∨
     (∃ init last, (powercap_tree_root_walk env2 root cb user w2).trace = init ++ [last] ∧
        (∀ v ∈ init, v.ret = 0) ∧ last.ret ≠ 0 ∧
        (powercap_tree_root_walk env2 root cb user w2).ret = last.ret) := by
    rcases stopped_cases hstop with ⟨hall, hl, h0⟩ | ⟨init, last, hvs, hinit, hlast, hret⟩
    · left
      refine ⟨hall, ?_, h0⟩
      rw [hpath, hl, List.take_length]
    · exact Or.inr ⟨init, last, hvs, hinit, hlast, hret.symm⟩
  refine ⟨stopped_find hstop, hzero, ?_, ?_, hgen, hpath, hcases, ?_⟩
  · intro hcb
    apply hzero
    intro v hv
    obtain ⟨u, hu, -⟩ := hgen v hv
    rw [← hu]
    exact hcb _ _ _ _ _
  · intro hne
    rcases stopped_cases hstop with ⟨-, -, h0⟩ | ⟨init, last, hvs, -, -, hlast⟩
    · exact absurd h0 hne
    · exact ⟨last, by rw [hvs]; simp, hgen last (by rw [hvs]; simp), hlast⟩
  · intro hcb hn
    have hnz : ∀ v ∈ (powercap_tree_root_walk env2 root cb user w2).trace, v.ret ≠ 0 := by
      intro v hv
      obtain ⟨u, hu, -⟩ := hgen v hv
      rw [← hu]
      exact hcb _ _ _ _ _
    obtain ⟨-, hcl, -, -, -, -, -, -⟩ := root_init_ok hb
    have hhead : ∃ rest, preorder_root root = [0] :: rest := by
      unfold preorder_root
      rcases hch : root.children with _ | ⟨c, cs⟩
      · rw [hch] at hcl
        exact absurd hcl.symm hn
      · cases c with
        | mk p cs2 n2 ctx =>
          exact ⟨preorder_children [0] cs2 0 n2 ++ preorder_children [] cs 1 root.n_children,
            by simp [preorder_children, preorder_node, Nat.pos_of_ne_zero hn]⟩
    obtain ⟨rest, hrest⟩ := hhead
    rcases hcases with ⟨hall, hp, -⟩ | ⟨init, last, hvs, hinit, hlast, hret⟩
    · exfalso
      rcases htr : (powercap_tree_root_walk env2 root cb user w2).trace with _ | ⟨v, vs⟩
      · rw [htr, hrest] at hp
        simp at hp
      · exact hnz v (by rw [htr]; simp) (hall v (by rw [htr]; simp))
    · have hi : init = [] := by
        rcases init with _ | ⟨v, vs⟩
        · rfl
        · exact absurd (hinit v (by simp)) (hnz v (by rw [hvs]; simp))
      subst hi
      simp only [List.nil_append] at hvs
      refine ⟨?_, by rw [hret]; exact hlast, last, hvs, hgen last (by rw [hvs]; simp),
        hret.symm⟩
      rw [hpath, hvs, hrest]
      simp

/-- C3, witness: the tree of the example of the specification, walked with the
callback of the test, returns `0`; walked with a callback that always returns
`7` it returns `7`, having called the callback for the node `[0]` alone. -/
theorem walk_returns_first_nonzero_witness :
    ∃ root w1, powercap_tree_root_init example_env 3 "x" sys0 = some (some root, w1) ∧
      (powercap_tree_root_walk example_env root test_cb () w1).ret = 0 ∧
      ((powercap_tree_root_walk example_env root
          (fun _ _ _ ctx (u : Unit) => ((7 : Int), ctx, u)) () w1).ret,
        (powercap_tree_root_walk example_env root
          (fun _ _ _ ctx (u : Unit) => ((7 : Int), ctx, u)) () w1).trace.map Visit.path)
        = (7, [[0]]) := by
  obtain ⟨root, w1, hb, hs⟩ := built_of_check
    (powercap_tree_root_init example_env 3 "x" sys0)
    (fun root w1 =>
      ((powercap_tree_root_walk example_env root
          (fun _ _ _ ctx (u : Unit) => ((7 : Int), ctx, u)) () w1).ret,
        (powercap_tree_root_walk example_env root
          (fun _ _ _ ctx (u : Unit) => ((7 : Int), ctx, u)) () w1).trace.map Visit.path))
    (7, [[0]]) (by decide!)
  exact ⟨root, w1, hb,
    (walk_returns_first_nonzero example_env 3 "x" sys0 w1 root hb example_env test_cb () w1
      (fun _ => rfl)).2.2.1 (fun _ _ _ _ _ => rfl), hs⟩

end Powercap

namespace Powercap

theorem preorder_root_iff (env : Env) (fuel : Nat) (name : String) (w w1 : Sys)
    (root : powercap_tree_root) (T : Finset (List Nat)) (hnil : [] ∉ T)
    (hclosed : ∀ P i, P ++ [i] ∈ T → (P = [] ∨ P ∈ T) ∧ ∀ j, j < i → P ++ [j] ∈ T)
    (hex : ∀ p, env.powercap_sysfs_zone_exists name p = 0 ↔ p ∈ T)
    (hb : powercap_tree_root_init env fuel name w = some (some root, w1)) :
    ∀ p, p ∈ preorder_root root ↔ p ∈ T := by
  obtain ⟨-, hlen, -, hbelow, hmiss, hDL, -, -⟩ := root_init_ok hb
  intro p
  constructor
  · intro hp
    exact (hex p).1 (preorder_children_oracle _ root.children [] 0 root.n_children hDL
      (fun j _ hj => by simpa using hbelow j hj) p hp)
  · intro hp
    have hne : p ≠ [] := by
      rintro rfl
      exact hnil hp
    exact mem_preorder_of_closed _ root.children root.n_children hlen hDL hmiss
      (fun P i h => by
        obtain ⟨h1, h2⟩ := hclosed P i ((hex _).1 h)
        exact ⟨h1.imp id (fun h => (hex _).2 h), fun j hj => (hex _).2 (h2 j hj)⟩)
      (zone_exists_dom env name) p.length p rfl hne ((hex p).2 hp)

/-- C4: when the oracle reports present exactly the paths of a finite
prefix-closed gapless set `T` of non-empty paths, the root returned by a
successful `powercap_tree_root_init` has `depth_max` equal to the length of the
longest path of `T`, which is `0` when `T` is empty. -/
theorem depth_max_is_longest_path (env : Env) (fuel : Nat) (name : String) (w w1 : Sys)
    (root : powercap_tree_root) (T : Finset (List Nat)) (hnil : [] ∉ T)
    (hclosed : ∀ P i, P ++ [i] ∈ T → (P = [] ∨ P ∈ T) ∧ ∀ j, j < i → P ++ [j] ∈ T)
    (hex : ∀ p, env.powercap_sysfs_zone_exists name p = 0 ↔ p ∈ T)
    (hb : powercap_tree_root_init env fuel name w = some (some root, w1)) :
    root.depth_max = T.sup List.length ∧ (T = ∅ → root.depth_max = 0) := by
  have hiff := preorder_root_iff env fuel name w w1 root T hnil hclosed hex hb
  obtain ⟨-, -, -, -, -, -, hdm, -⟩ := root_init_ok hb
  have heq : root.depth_max = T.sup List.length := by
    apply le_antisymm
    · by_cases h0 : height_children root.children 0 root.n_children = 0
      · rw [hdm, h0]; exact Nat.zero_le _
      · obtain ⟨p, hp, hl⟩ := preorder_children_deepest root.children [] 0 root.n_children h0
        have hpT := (hiff p).1 hp
        have := Finset.le_sup (f := List.length) hpT
        rw [hdm]
        simp at hl
        omega
    · apply Finset.sup_le
      intro p hp
      obtain ⟨j, X, -, rfl, hl⟩ :=
        preorder_children_ext root.children [] 0 root.n_children p ((hiff p).2 hp)
      rw [hdm]
      simp
      omega
  refine ⟨heq, ?_⟩
  rintro rfl
  simpa using heq

theorem example_closed :
    ∀ P i, P ++ [i] ∈ example_T →
      (P = [] ∨ P ∈ example_T) ∧ ∀ j, j < i → P ++ [j] ∈ example_T := by
  intro P i h
  simp only [example_T, Finset.mem_insert, Finset.mem_singleton] at h
  have key : (P = [] ∧ i = 0) ∨ (P = [0] ∧ i = 0) ∨ (P = [] ∧ i = 1) := by
    rcases P with _ | ⟨a, _ | ⟨b, P⟩⟩
    · simp at h
      rcases h with h | h
      · exact Or.inl ⟨rfl, h⟩
      · exact Or.inr (Or.inr ⟨rfl, h⟩)
    · simp at h
      obtain ⟨rfl, rfl⟩ := h
      exact Or.inr (Or.inl ⟨rfl, rfl⟩)
    · simp at h
  rcases key with ⟨rfl, rfl⟩ | ⟨rfl, rfl⟩ | ⟨rfl, rfl⟩
  · exact ⟨Or.inl rfl, fun j hj => absurd hj (Nat.not_lt_zero j)⟩
  · exact ⟨Or.inr (by decide), fun j hj => absurd hj (Nat.not_lt_zero j)⟩
  · refine ⟨Or.inl rfl, fun j hj => ?_⟩
    have : j = 0 := by omega
    subst this
    decide

theorem example_exact :
    ∀ p, example_env.powercap_sysfs_zone_exists "x" p = 0 ↔ p ∈ example_T := by
  intro p
  simp only [Env.powercap_sysfs_zone_exists, example_env, example_T, Finset.mem_insert,
    Finset.mem_singleton]
  by_cases hl : p.length < U32
  · by_cases hp : p = [0] ∨ p = [0, 0] ∨ p = [1]
    · simp [hl, hp]
    · simp [hl, hp]
  · have : ¬ (p = [0] ∨ p = [0, 0] ∨ p = [1]) := by
      rintro (rfl | rfl | rfl) <;> exact hl (by decide)
    simp [hl, this]

/-- C4, witness: the shape `{[0], [0,0], [1]}` of the specification gives
`depth_max = 2`. -/
theorem depth_max_is_longest_path_witness :
    ∃ root w1, powercap_tree_root_init example_env 3 "x" sys0 = some (some root, w1) ∧
      root.depth_max = example_T.sup List.length ∧ root.depth_max = 2 := by
  obtain ⟨root, w1, hb, hv⟩ := example_built
  have h2 : root.depth_max = 2 := by
    have := congrArg (fun x => x.2.1) hv
    simpa using this
  exact ⟨root, w1, hb,
    (depth_max_is_longest_path example_env 3 "x" sys0 w1 root example_T (by decide)
      example_closed example_exact hb).1, h2⟩

/-- C5: in a tree returned by a successful `powercap_tree_root_init`, whatever
the oracle, the root and every node, reached by its path `P`, has exactly `k`
children where `k` is the least index for which the oracle reports `P ++ [k]`
missing: the array holds `k` entries, every index below `k` is reported present
and `k` is reported missing.  Hence a node whose index `0` is reported missing
is a leaf, and when `P ++ [k]` is missing the tree has no node `P ++ [j]` for
any `j ≥ k`, whatever the oracle says of the later indices. -/
theorem child_counts_match_oracle (env : Env) (fuel : Nat) (name : String) (w w1 : Sys)
    (root : powercap_tree_root)
    (hb : powercap_tree_root_init env fuel name w = some (some root, w1)) :
    (root.children.length = root.n_children ∧
      (∀ j, j < root.n_children → env.powercap_sysfs_zone_exists name [j] = 0) ∧
      env.powercap_sysfs_zone_exists name [root.n_children] ≠ 0) ∧
    (∀ P t, node_at root.children root.n_children P = some t →
      t.children.length = t.n_children ∧
      (∀ j, j < t.n_children → env.powercap_sysfs_zone_exists name (P ++ [j]) = 0) ∧
      env.powercap_sysfs_zone_exists name (P ++ [t.n_children]) ≠ 0) ∧
    (∀ P t, node_at root.children root.n_children P = some t →
      env.powercap_sysfs_zone_exists name (P ++ [0]) ≠ 0 →
      t.n_children = 0 ∧ t.children = []) ∧
    (∀ k j, env.powercap_sysfs_zone_exists name [k] ≠ 0 → k ≤ j →
      node_at root.children root.n_children [j] = none) ∧
    (∀ P t k j, node_at root.children root.n_children P = some t →
      env.powercap_sysfs_zone_exists name (P ++ [k]) ≠ 0 → k ≤ j →
      node_at root.children root.n_children (P ++ [j]) = none) := by
  obtain ⟨-, hlen, -, hbelow, hmiss, hDL, -, -⟩ := root_init_ok hb
  have hnode : ∀ P t, node_at root.children root.n_children P = some t →
      t.children.length = t.n_children ∧
      (∀ j, j < t.n_children → env.powercap_sysfs_zone_exists name (P ++ [j]) = 0) ∧
      env.powercap_sysfs_zone_exists name (P ++ [t.n_children]) ≠ 0 := by
    intro P t ht
    have hD := node_at_discovered _ P root.children root.n_children [] t hDL ht
    simp only [List.nil_append] at hD
    obtain ⟨-, hl, -, hb2, hm2, -⟩ := discovered_children _ P t hD
    refine ⟨hl, hb2, ?_⟩
    rcases hm2 with h | h
    · exact h
    · intro hex
      have := zone_exists_dom env name _ hex
      simp at this
      omega
  refine ⟨⟨hlen, hbelow, hmiss⟩, hnode, ?_, ?_, ?_⟩
  · intro P t ht h0
    obtain ⟨hl, hb2, -⟩ := hnode P t ht
    have hn : t.n_children = 0 := by
      by_contra hne
      exact h0 (hb2 0 (Nat.pos_of_ne_zero hne))
    exact ⟨hn, List.length_eq_zero.1 (by rw [hl, hn])⟩
  · intro k j hk hkj
    have hnk : root.n_children ≤ k := by
      by_contra hcon
      exact hk (hbelow k (by omega))
    simp [node_at, child_at]
    intro hj
    omega
  · intro P t k j ht hk hkj
    obtain ⟨-, hb2, -⟩ := hnode P t ht
    have hnk : t.n_children ≤ k := by
      by_contra hcon
      exact hk (hb2 k (by omega))
    have hP : P ≠ [] := by
      rintro rfl
      simp [node_at] at ht
    rw [node_at_snoc P _ _ j hP, ht]
    simp [child_at]
    intro hj
    omega

/-- C5, witness: the tree of the example of the specification. -/
theorem child_counts_match_oracle_witness :
    ∃ root w1, powercap_tree_root_init example_env 3 "x" sys0 = some (some root, w1) ∧
      root.children.length = root.n_children ∧ root.n_children = 2 ∧
      example_env.powercap_sysfs_zone_exists "x" [root.n_children] ≠ 0 := by
  obtain ⟨root, w1, hb, hv⟩ := example_built
  have h2 : root.n_children = 2 := by
    have := congrArg (fun x => x.2.2.1) hv
    simpa using this
  have h := (child_counts_match_oracle example_env 3 "x" sys0 w1 root hb).1
  exact ⟨root, w1, hb, h.1, h2, h.2.2⟩

end Powercap

namespace Powercap

/-- C7 (amended): for an existing control type whose oracle reports zone path
`[0]` missing, when the two allocations of the root and of the name copy
succeed, `powercap_tree_root_init` returns a root with `n_children = 0`, no child
array and `depth_max = 0`, and `powercap_tree_root_walk` on that root returns `0`
without a single call of the callback, for every callback. -/
theorem no_zones_empty_root (env : Env) (name : String) (w : Sys) (fuel : Nat)
    (hct : env.powercap_sysfs_control_type_exists name = 0)
    (h0 : env.powercap_sysfs_zone_exists name [0] ≠ 0)
    (ha1 : env.alloc_fails w.ncalls = false)
    (ha2 : env.alloc_fails (w.ncalls + 1) = false) (hf : 1 ≤ fuel) :
    ∃ root w1, powercap_tree_root_init env fuel name w = some (some root, w1) ∧
      root.n_children = 0 ∧ root.children_ptr = NULL ∧ root.children = [] ∧
      root.depth_max = 0 ∧
      ∀ (σ : Type) (env2 : Env) (cb : powercap_tree_cb σ) (user : σ) (w2 : Sys),
        (powercap_tree_root_walk env2 root cb user w2).ret = 0 ∧
        (powercap_tree_root_walk env2 root cb user w2).trace = [] := by
  have hn0 : ∀ n log probes, probe_root env name fuel 0 probes = some (n, log) → n = 0 := by
    intro n log probes hp
    obtain ⟨-, hbelow, -⟩ := probe_root_spec env name fuel 0 probes n log (by decide)
      (fun j hj => absurd hj (Nat.not_lt_zero j)) hp
    by_contra hne
    exact h0 (hbelow 0 (Nat.pos_of_ne_zero hne))
  obtain ⟨⟨res, w1⟩, hres⟩ : ∃ r, powercap_tree_root_init env fuel name w = some r := by
    apply root_init_progress
    · intro probes
      exact probe_root_some env name 0 (by decide) h0 fuel 0 probes (le_refl _) (by omega)
    · intro n log probes hp z wz
      obtain rfl := hn0 n log probes hp
      exact ⟨_, rfl⟩
  have hwalk : ∀ (a b : Ptr) (σ : Type) (env2 : Env) (cb : powercap_tree_cb σ) (user : σ)
      (w2 : Sys),
      (powercap_tree_root_walk env2 ⟨a, NULL, [], 0, b, name, 0⟩ cb user w2).ret = 0 ∧
      (powercap_tree_root_walk env2 ⟨a, NULL, [], 0, b, name, 0⟩ cb user w2).trace = [] := by
    intro a b σ env2 cb user w2
    simp [powercap_tree_root_walk]
  rcases root_init_inv hres with ⟨hct2, -, -⟩ | ⟨-, a, wa, ha, hA⟩
  · exact absurd hct hct2
  have hwa : a ≠ NULL ∧ wa.ncalls = w.ncalls + 1 := by
    simp only [alloc, ha1] at ha
    obtain ⟨rfl, rfl⟩ := Prod.mk.inj ha
    exact ⟨by simp [NULL], rfl⟩
  rcases hA with ⟨ha0, -, -⟩ | ⟨-, b, wb, hbb, hB⟩
  · exact absurd ha0 hwa.1
  have hwb : b ≠ NULL := by
    simp only [alloc, hwa.2, ha2] at hbb
    obtain ⟨rfl, -⟩ := Prod.mk.inj hbb
    simp [NULL]
  rcases hB with ⟨hb0, -, -⟩ | ⟨-, n, log, hp, hN⟩
  · exact absurd hb0 hwb
  rcases hN with ⟨-, rfl, rfl⟩ | ⟨hn, -⟩
  · exact ⟨_, _, hres, rfl, rfl, rfl, rfl, hwalk a b⟩
  · exact absurd (hn0 n log _ hp) hn

/-- C7, witness: an existing control type without zones, from the initial
state. -/
theorem no_zones_empty_root_witness :
    ∃ root w1, powercap_tree_root_init ⟨fun _ => 0, fun _ _ => -1, fun _ => false⟩ 1 "x" sys0
        = some (some root, w1) ∧ root.n_children = 0 ∧ root.depth_max = 0 := by
  obtain ⟨root, w1, hb, hn, -, -, hd, -⟩ :=
    no_zones_empty_root ⟨fun _ => 0, fun _ _ => -1, fun _ => false⟩ "x" sys0 1 rfl
      (by decide) rfl rfl (le_refl _)
  exact ⟨root, w1, hb, hn, hd⟩

/-- C7, counterexample: the control type exists and zone path `[0]` is
reported missing, yet `powercap_tree_root_init` returns `NULL`, because the
allocation of the root fails. -/
theorem starved_init_returns_null :
    starved_env.powercap_sysfs_control_type_exists "x" = 0 ∧
    starved_env.powercap_sysfs_zone_exists "x" [0] ≠ 0 ∧
    (powercap_tree_root_init starved_env 1 "x" sys0).map (fun r => r.1.isSome)
      = some false := by
  decide!

/-- C9: in a tree returned by a successful `powercap_tree_root_init`, whatever
the oracle, the context slot of every node, at every depth, is `NULL`; so every
callback invocation of a first walk reads `NULL` from `*ctx_node`. -/
theorem slots_start_null (env : Env) (fuel : Nat) (name : String) (w w1 : Sys)
    (root : powercap_tree_root)
    (hb : powercap_tree_root_init env fuel name w = some (some root, w1)) :
    (∀ c ∈ slots_root root, c = NULL) ∧
    (∀ P t, node_at root.children root.n_children P = some t → t.ctx_node = NULL) ∧
    ∀ (σ : Type) (env2 : Env) (cb : powercap_tree_cb σ) (user : σ) (w2 : Sys),
      ∀ v ∈ (powercap_tree_root_walk env2 root cb user w2).trace, v.ctx_in = NULL := by
  obtain ⟨-, -, -, -, -, hDL, -, -⟩ := root_init_ok hb
  have hs : ∀ c ∈ slots_root root, c = NULL :=
    discoveredL_slots _ root.children [] 0 root.n_children hDL
  refine ⟨hs, ?_, ?_⟩
  · intro P t ht
    have hD := node_at_discovered _ P root.children root.n_children [] t hDL ht
    exact (discovered_children _ _ t hD).1
  · intro σ env2 cb user w2 v hv
    obtain ⟨-, hin, -, -⟩ := root_walk_frame env2 root cb user w2
    have hm : v.ctx_in ∈ (powercap_tree_root_walk env2 root cb user w2).trace.map
        Visit.ctx_in := List.mem_map.2 ⟨v, hv, rfl⟩
    rw [hin] at hm
    exact hs _ (List.mem_of_mem_take hm)

/-- C9, witness: the three slots of the tree of the example are `NULL`. -/
theorem slots_start_null_witness :
    ∃ root w1, powercap_tree_root_init example_env 3 "x" sys0 = some (some root, w1) ∧
      slots_root root = [0, 0, 0] ∧ ∀ c ∈ slots_root root, c = NULL := by
  obtain ⟨root, w1, hb, hv⟩ := example_built
  have h3 : slots_root root = [0, 0, 0] := by
    have := congrArg (fun x => x.2.2.2) hv
    simpa using this
  exact ⟨root, w1, hb, h3, (slots_start_null example_env 3 "x" sys0 w1 root hb).1⟩

/-- C8 (amended): on a tree returned by `powercap_tree_root_init`, after
`powercap_tree_root_walk` returns (with `0`, with a non-zero code of the
callback, or with `-1` for want of a path buffer) the name, `n_children`,
`depth_max` and the pointers of the root are unchanged and the tree differs from
the old one in context slots only, so its preorder node sequence is the same;
the nodes visited are the first nodes of that sequence, their slots hold what
their callback invocations left and the slots of the other nodes are unchanged.
A second walk visits a leading part of the same preorder sequence and hands the
callback at each node it visits the slot value the first walk left there; when
both walks obtain their path buffer and no invocation of either returns a
non-zero code, the two walks visit the same nodes in the same order. -/
theorem walk_changes_only_slots {σ τ : Type} (env : Env) (fuel : Nat) (name : String)
    (w w1 : Sys) (root : powercap_tree_root)
    (hb : powercap_tree_root_init env fuel name w = some (some root, w1))
    (env2 : Env) (cb : powercap_tree_cb σ) (user : σ) (w2 : Sys)
    (R : WalkResult σ) (hR : R = powercap_tree_root_walk env2 root cb user w2)
    (env3 : Env) (cb2 : powercap_tree_cb τ) (user2 : τ) (w3 : Sys)
    (R2 : WalkResult τ) (hR2 : R2 = powercap_tree_root_walk env3 R.root cb2 user2 w3) :
    (R.root.name = root.name ∧ R.root.n_children = root.n_children ∧
      R.root.depth_max = root.depth_max ∧ R.root.addr = root.addr ∧
      R.root.children_ptr = root.children_ptr ∧ R.root.name_ptr = root.name_ptr) ∧
    strip_children R.root.children = strip_children root.children ∧
    preorder_root R.root = preorder_root root ∧
    R.trace.map Visit.path = (preorder_root root).take R.trace.length ∧
    R.trace.map Visit.ctx_in = (slots_root root).take R.trace.length ∧
    slots_root R.root = R.trace.map Visit.ctx_out ++ (slots_root root).drop R.trace.length ∧
    R.trace.length ≤ (slots_root root).length ∧
    R2.trace.map Visit.path = (preorder_root root).take R2.trace.length ∧
    R2.trace.map Visit.ctx_in
      = (R.trace.map Visit.ctx_out ++ (slots_root root).drop R.trace.length).take
          R2.trace.length ∧
    ((root.depth_max ≠ 0 → env2.alloc_fails w2.ncalls = false) →
      (root.depth_max ≠ 0 → env3.alloc_fails w3.ncalls = false) →
      (∀ v ∈ R.trace, v.ret = 0) → (∀ v ∈ R2.trace, v.ret = 0) →
      R2.trace.map Visit.path = R.trace.map Visit.path ∧
      R2.trace.map Visit.ctx_in = R.trace.map Visit.ctx_out) := by
  have hwf := root_init_wellFormed hb
  obtain ⟨ha, hcp, hn, hnp, hname, hdm⟩ := root_walk_fields env2 root cb user w2
  obtain ⟨hstrip, hin, hout, hle⟩ := root_walk_frame env2 root cb user w2
  obtain ⟨hwf2, hpre⟩ := walk_wellFormed env2 root cb user w2 hwf
  have hpath1 := root_walk_paths env2 root cb user w2 hwf
  rw [← hR] at ha hcp hn hnp hname hdm hstrip hin hout hle hwf2 hpre hpath1
  have hpath2 := root_walk_paths env3 R.root cb2 user2 w3 hwf2
  obtain ⟨-, hin2, -, -⟩ := root_walk_frame env3 R.root cb2 user2 w3
  rw [← hR2] at hpath2 hin2
  rw [hpre] at hpath2
  rw [hout] at hin2
  refine ⟨⟨hname, hn, hdm, ha, hcp, hnp⟩, hstrip, hpre, hpath1, hin, hout, hle, hpath2, hin2,
    ?_⟩
  intro halloc1 halloc2 hz1 hz2
  obtain ⟨hstop1, -, -⟩ := root_walk_visits env2 root cb user w2 hwf halloc1
  obtain ⟨hstop2, -, -⟩ :=
    root_walk_visits env3 R.root cb2 user2 w3 hwf2 (by rw [hdm]; exact halloc2)
  rw [← hR] at hstop1
  rw [← hR2, hpre] at hstop2
  have hl1 : R.trace.length = (preorder_root root).length := by
    rcases stopped_cases hstop1 with ⟨-, hl, -⟩ | ⟨init, last, hvs, -, hlast, -⟩
    · exact hl
    · exact absurd (hz1 last (by rw [hvs]; simp)) hlast
  have hl2 : R2.trace.length = (preorder_root root).length := by
    rcases stopped_cases hstop2 with ⟨-, hl, -⟩ | ⟨init, last, hvs, -, hlast, -⟩
    · exact hl
    · exact absurd (hz2 last (by rw [hvs]; simp)) hlast
  refine ⟨by rw [hpath2, hpath1, hl1, hl2], ?_⟩
  rw [hin2, hl2, ← hl1]
  have : (R.trace.map Visit.ctx_out).length = R.trace.length := by simp
  rw [List.take_append_of_le_length (by omega), ← this, List.take_length]

/-- C8, witness: two walks with the callback of the test over the tree of the
example of the specification visit the same nodes in the same order. -/
theorem walk_changes_only_slots_witness :
    ∃ root w1, powercap_tree_root_init example_env 3 "x" sys0 = some (some root, w1) ∧
      preorder_root (powercap_tree_root_walk example_env root test_cb () w1).root
        = preorder_root root := by
  obtain ⟨root, w1, hb, -⟩ := example_built
  exact ⟨root, w1, hb,
    (walk_changes_only_slots example_env 3 "x" sys0 w1 root hb example_env test_cb () w1
      _ rfl example_env test_cb () w1 _ rfl).2.2.1⟩

/-- C8, counterexample: on the tree of the example of the specification a first
walk with the marking callback visits `[0]`, `[0,0]`, `[1]` and returns `0`; a
second walk with the same callback visits `[0]` alone and returns `1`. -/
theorem second_walk_stops_early :
    (powercap_tree_root_init example_env 3 "x" sys0).bind
        (fun r => r.1.map (fun root =>
          ((powercap_tree_root_walk example_env root marking_cb () r.2).trace.map Visit.path,
            (powercap_tree_root_walk example_env root marking_cb () r.2).ret,
            (powercap_tree_root_walk example_env
              (powercap_tree_root_walk example_env root marking_cb () r.2).root
              marking_cb () r.2).trace.map Visit.path,
            (powercap_tree_root_walk example_env
              (powercap_tree_root_walk example_env root marking_cb () r.2).root
              marking_cb () r.2).ret)))
      = some ([[0], [0, 0], [1]], 0, [[0]], 1) := by
  decide!

end Powercap

namespace Powercap

/-! ### Finite oracle trees -/

theorem grow_zones_clean {env : Env} (halloc : ∀ k, env.alloc_fails k = false)
    (st : BuildSt) (d : Nat) : (grow_zones env st d).1 = true := by
  unfold grow_zones realloc alloc
  by_cases h : d ≥ st.zones_len
  · simp [h, halloc, NULL]
  · simp [h]

theorem finite_oracle_bounds (env : Env) (name : String) (T : Finset (List Nat))
    (hex : ∀ p, env.powercap_sysfs_zone_exists name p = 0 ↔ p ∈ T)
    (hwidth : ∀ p ∈ T, ∀ i ∈ p, i + 1 < U32)
    (hdepth : [] ∉ T ∨ ∀ p ∈ T, p.length + 1 < U32) :
    (∀ p, env.powercap_sysfs_zone_exists name p = 0 → p.length ≤ T.sup List.length) ∧
    T.sup List.length < U32 ∧
    (env.powercap_sysfs_zone_exists name [] ≠ 0 ∨ T.sup List.length + 1 < U32) ∧
    (∀ P, ∃ k, k < U32 ∧ env.powercap_sysfs_zone_exists name (P ++ [k]) ≠ 0) := by
  refine ⟨?_, ?_, ?_, ?_⟩
  · intro p hp
    exact Finset.le_sup (f := List.length) ((hex p).1 hp)
  · rw [Finset.sup_lt_iff (by decide)]
    intro p hp
    exact zone_exists_dom env name p ((hex p).2 hp)
  · rcases hdepth with hnil | hdeep
    · exact Or.inl (fun h => hnil ((hex _).1 h))
    · right
      have h1 : T.sup List.length < U32 - 1 := by
        rw [Finset.sup_lt_iff (by decide)]
        intro p hp
        have := hdeep p hp
        omega
      omega
  · intro P
    refine ⟨U32 - 1, by decide, ?_⟩
    intro h
    have := hwidth _ ((hex _).1 h) (U32 - 1) (by simp)
    revert this
    decide

/-! ### A chain of zones of depth `2 ^ 32 - 1` -/

theorem deep_exists (name : String) (p : List Nat) :
    deep_env.powercap_sysfs_zone_exists name p = 0 ↔ p.length < U32 ∧ ∀ i ∈ p, i = 0 := by
  simp only [Env.powercap_sysfs_zone_exists, deep_env]
  by_cases hl : p.length < U32
  · by_cases hp : ∀ i ∈ p, i = 0
    · simp [hl, hp]
    · simp [hl, hp]
  · simp [hl]

theorem deep_exact : ∀ p, deep_env.powercap_sysfs_zone_exists "x" p = 0 ↔ p ∈ deep_T := by
  intro p
  rw [deep_exists]
  simp only [deep_T, Finset.mem_image, Finset.mem_range]
  constructor
  · rintro ⟨hl, hz⟩
    exact ⟨p.length, hl, (List.eq_replicate_iff.2 ⟨rfl, hz⟩).symm⟩
  · rintro ⟨k, hk, rfl⟩
    refine ⟨by simpa using hk, ?_⟩
    intro i hi
    exact (List.mem_replicate.1 hi).2

theorem deep_alloc (w : Sys) : (alloc deep_env w).1 ≠ NULL := by
  simp [alloc, deep_env, NULL]

theorem deep_node_init_none :
    ∀ (fuel : Nat) (st : BuildSt) (d : Nat), d < U32 →
      st.zones.length = st.zones_len → d ≤ st.zones_len → 0 < st.zones_len →
      (∀ x ∈ st.zones.take d, x = 0) →
      powercap_tree_node_init deep_env "x" fuel zero_node st d = none := by
  intro fuel
  induction fuel with
  | zero => intro st d _ _ _ _ _; rfl
  | succ fuel IH =>
    intro st d hdu hlen hd hpos hzero
    rcases h : powercap_tree_node_init deep_env "x" (fuel + 1) zero_node st d
      with _ | ⟨r, t, st1⟩
    · rfl
    exfalso
    have hclean : (grow_zones deep_env (note_depth st d) d).1 = true :=
      grow_zones_clean (fun _ => rfl) _ _
    rcases node_init_inv h with ⟨hg, -⟩ | ⟨hg, st3, hc, hcase⟩
    · rw [hclean] at hg
      exact absurd hg (by decide)
    generalize hgz : grow_zones deep_env (note_depth st d) d = gz at hg hc
    obtain ⟨b, g⟩ := gz
    simp only at hg hc
    subst hg
    obtain ⟨glen, gd, -, gtake, -⟩ :=
      grow_zones_ok hgz (by simpa [note_depth_eq] using hlen)
        (by simpa [note_depth_eq] using hd) (by simpa [note_depth_eq] using hpos)
    simp only [note_depth_eq] at gtake
    have hdz : d < g.zones.length := by omega
    obtain ⟨k, log, hk, rfl, hbelow, hmiss⟩ := count_children_ok hc hdz
    by_cases hd1 : d + 1 < U32
    swap
    · have hq : (d + 1) % U32 = 0 := by
        have : d + 1 = U32 := by omega
        rw [this]; exact Nat.mod_self _
      rw [hq] at hmiss
      apply hmiss
      rw [deep_exists]
      simp
      decide
    rw [Nat.mod_eq_of_lt hd1] at hbelow hmiss
    have hpath : ∀ j, deep_env.powercap_sysfs_zone_exists "x" ((g.zones.set d j).take (d + 1)) = 0
        ↔ j = 0 := by
      intro j
      rw [take_set_succ _ _ _ hdz, gtake, deep_exists]
      constructor
      · rintro ⟨-, hz⟩
        exact hz j (by simp)
      · rintro rfl
        refine ⟨?_, ?_⟩
        · rw [List.length_append, List.length_take]
          simp
          omega
        · intro i hi
          rcases List.mem_append.1 hi with hi | hi
          · exact hzero i hi
          · simpa using hi
    have hk1 : k = 1 := by
      have h0 : k ≠ 0 := by
        rintro rfl
        exact hmiss ((hpath 0).2 rfl)
      have h2 : k < 2 := by
        by_contra hcon
        have := (hpath 1).1 (hbelow 1 (by omega))
        exact absurd this (by decide)
      omega
    subst hk1
    have hget : (g.zones.set d 1).getD d 0 = 1 := getD_set_same _ _ _ hdz
    simp only [hget] at hcase
    rcases hcase with ⟨-, ha, -⟩ | ⟨p, w4, -, f, arr5, st5, hloop, -⟩
    · exact deep_alloc _ ha
    · obtain ⟨r2, c2, s2, hb2, -⟩ :=
        @init_children_cons_inv _ _ zero_node [] _ _ _ _ _ hloop (by decide)
      rw [Nat.mod_eq_of_lt hd1] at hb2
      rw [IH _ (d + 1) hd1 (by simpa using glen) (by simpa using gd) (by simp; omega)
        ?_] at hb2
      · exact absurd hb2 (by simp)
      · intro x hx
        simp only [set_set_same] at hx
        rw [take_set_succ _ _ _ hdz, gtake] at hx
        rcases List.mem_append.1 hx with hx | hx
        · exact hzero x hx
        · simpa using hx

theorem deep_root_init_none (w : Sys) :
    ∀ fuel, powercap_tree_root_init deep_env fuel "x" w = none := by
  intro fuel
  rcases hres : powercap_tree_root_init deep_env fuel "x" w with _ | ⟨res, w1⟩
  · rfl
  exfalso
  rcases root_init_inv hres with ⟨hct, -⟩ | ⟨-, a, wa, ha, hA⟩
  · exact hct rfl
  rcases hA with ⟨ha0, -⟩ | ⟨-, b, wb, hbb, hB⟩
  · exact deep_alloc w (by rw [ha]; exact ha0)
  rcases hB with ⟨hb0, -⟩ | ⟨-, n, log, hp, hN⟩
  · exact deep_alloc wa (by rw [hbb]; exact hb0)
  obtain ⟨-, hbelow, hmiss⟩ := probe_root_spec deep_env "x" fuel 0 _ n log (by decide)
    (fun j hj => absurd hj (Nat.not_lt_zero j)) hp
  have hone : ∀ j, deep_env.powercap_sysfs_zone_exists "x" [j] = 0 ↔ j = 0 := by
    intro j
    rw [deep_exists]
    simp
    intro _
    decide
  have hn1 : n = 1 := by
    have h0 : n ≠ 0 := by
      rintro rfl
      exact hmiss ((hone 0).2 rfl)
    have h2 : n < 2 := by
      by_contra hcon
      have := (hone 1).1 (hbelow 1 (by omega))
      exact absurd this (by decide)
    omega
  subst hn1
  rcases hN with ⟨h0, -⟩ | ⟨-, c, wc, hc, hC⟩
  · exact absurd h0 (by decide)
  rcases hC with ⟨hc0, -⟩ | ⟨-, z, wz, hz, hZ⟩
  · exact deep_alloc _ (by rw [hc]; exact hc0)
  rcases hZ with ⟨hz0, -⟩ | ⟨-, f, arr5, st5, hloop, -⟩
  · exact deep_alloc _ (by rw [hz]; exact hz0)
  obtain ⟨r2, c2, s2, hb2, -⟩ :=
    @init_children_cons_inv _ _ zero_node [] _ _ _ _ _ hloop (by decide)
  rw [deep_node_init_none fuel _ 1 (by decide) (by simp) (by simp [POWERCAP_TREE_MAX_DEPTH_START])
    (by simp [POWERCAP_TREE_MAX_DEPTH_START]) ?_] at hb2
  · exact absurd hb2 (by simp)
  · intro x hx
    simp only [POWERCAP_TREE_MAX_DEPTH_START] at hx
    revert x
    decide

theorem deep_narrow : ∀ p ∈ deep_T, ∀ i ∈ p, i + 1 < U32 := by
  intro p hp i hi
  obtain ⟨k, -, rfl⟩ := Finset.mem_image.1 hp
  obtain rfl := (List.mem_replicate.1 hi).2
  decide

end Powercap

namespace Powercap

theorem finite_tree_bounds (env : Env) (name : String) (T : Finset (List Nat))
    (hnil : [] ∉ T) (hex : ∀ p, env.powercap_sysfs_zone_exists name p = 0 ↔ p ∈ T)
    (hwidth : ∀ p ∈ T, ∀ i ∈ p, i + 1 < U32) :
    (∀ p, env.powercap_sysfs_zone_exists name p = 0 → p.length ≤ T.sup List.length) ∧
    T.sup List.length < U32 ∧
    env.powercap_sysfs_zone_exists name [] ≠ 0 ∧
    (∀ P, ∃ k, k < U32 ∧ env.powercap_sysfs_zone_exists name (P ++ [k]) ≠ 0) := by
  refine ⟨?_, ?_, ?_, ?_⟩
  · intro p hp
    exact Finset.le_sup (f := List.length) ((hex p).1 hp)
  · rw [Finset.sup_lt_iff (by decide)]
    intro p hp
    exact zone_exists_dom env name p ((hex p).2 hp)
  · intro h
    exact hnil ((hex _).1 h)
  · intro P
    refine ⟨U32 - 1, by decide, ?_⟩
    intro h
    have := hwidth _ ((hex _).1 h) (U32 - 1) (by simp)
    revert this
    decide

theorem alloc_of_ok {env : Env} {w : Sys} (h : env.alloc_fails w.ncalls = false) :
    (alloc env w).1 ≠ NULL ∧ (alloc env w).2.ncalls = w.ncalls + 1 := by
  simp [alloc, h, NULL]

theorem root_init_diverges (env : Env) (name : String) (w : Sys)
    (ha1 : env.alloc_fails w.ncalls = false) (ha2 : env.alloc_fails (w.ncalls + 1) = false)
    (hct : env.powercap_sysfs_control_type_exists name = 0)
    (hall : ∀ j, j < U32 → env.powercap_sysfs_zone_exists name [j] = 0) :
    ∀ fuel, powercap_tree_root_init env fuel name w = none := by
  intro fuel
  rcases hres : powercap_tree_root_init env fuel name w with _ | ⟨res, w1⟩
  · rfl
  exfalso
  rcases root_init_inv hres with ⟨hct2, -, -⟩ | ⟨-, a, wa, ha, hA⟩
  · exact hct2 hct
  have hwa := alloc_of_ok ha1
  rw [ha] at hwa
  rcases hA with ⟨ha0, -, -⟩ | ⟨-, b, wb, hbb, hB⟩
  · exact hwa.1 ha0
  have hwb := @alloc_of_ok env wa (by rw [hwa.2]; exact ha2)
  rw [hbb] at hwb
  rcases hB with ⟨hb0, -, -⟩ | ⟨-, n, log, hp, -⟩
  · exact hwb.1 hb0
  rw [probe_root_diverges env name hall fuel 0 _ (by decide)] at hp
  exact absurd hp (by simp)

theorem root_init_returns_root (env : Env) (name : String) (T : Finset (List Nat)) (w : Sys)
    (hnil : [] ∉ T) (hex : ∀ p, env.powercap_sysfs_zone_exists name p = 0 ↔ p ∈ T)
    (hwidth : ∀ p ∈ T, ∀ i ∈ p, i + 1 < U32)
    (hct : env.powercap_sysfs_control_type_exists name = 0)
    (halloc : ∀ k, env.alloc_fails k = false) (fuel : Nat)
    (hf : T.sup List.length + U32 ≤ fuel) :
    ∃ root w1, powercap_tree_root_init env fuel name w = some (some root, w1) := by
  obtain ⟨hH, hHu, hn, hW⟩ := finite_tree_bounds env name T hnil hex hwidth
  obtain ⟨⟨res, w1⟩, hres⟩ := root_init_terminates env name _ hH hHu hn hW fuel hf w
  obtain ⟨-, hcase⟩ := root_init_acct hres
  rcases hcase with ⟨-, -, hF | hc⟩ | ⟨root, rfl, -, -⟩
  · obtain ⟨j, -, -, hj⟩ := hF
    rw [halloc j] at hj
    exact absurd hj (by simp)
  · exact absurd hct hc
  · exact ⟨root, w1, hres⟩

theorem root_init_returns_root_of (env : Env) (name : String) (T : Finset (List Nat)) (w : Sys)
    (hex : ∀ p, env.powercap_sysfs_zone_exists name p = 0 ↔ p ∈ T)
    (hwidth : ∀ p ∈ T, ∀ i ∈ p, i + 1 < U32)
    (hdepth : [] ∉ T ∨ ∀ p ∈ T, p.length + 1 < U32)
    (hct : env.powercap_sysfs_control_type_exists name = 0)
    (halloc : ∀ k, env.alloc_fails k = false) (fuel : Nat)
    (hf : T.sup List.length + U32 ≤ fuel) :
    ∃ root w1, powercap_tree_root_init env fuel name w = some (some root, w1) := by
  obtain ⟨hH, hHu, hn, hW⟩ := finite_oracle_bounds env name T hex hwidth hdepth
  obtain ⟨⟨res, w1⟩, hres⟩ := root_init_terminates_of env name _ hH hHu hn hW fuel hf w
  obtain ⟨-, hcase⟩ := root_init_acct hres
  rcases hcase with ⟨-, -, hF | hc⟩ | ⟨root, rfl, -, -⟩
  · obtain ⟨j, -, -, hj⟩ := hF
    rw [halloc j] at hj
    exact absurd hj (by simp)
  · exact absurd hct hc
  · exact ⟨root, w1, hres⟩

/-- C1 (amended): let `T` be a finite set of non-empty index paths that is
prefix-closed and gapless and in which every node has fewer than `2 ^ 32`
children (every index is below `2 ^ 32 - 1`).  If the control type exists, the
oracle reports present exactly the paths of `T` and no allocation fails, then
with enough fuel `powercap_tree_root_init` returns a tree, and
`powercap_tree_root_walk` on it with a callback that always returns `0` calls
the callback exactly once for each path of `T` and for nothing else, in preorder
with ascending sibling index; each call receives `depth` equal to the length of
the path and the path in `zones[0..depth-1]`; the walk returns `0`. -/
theorem discovery_walk_visits_tree (env : Env) (name : String) (T : Finset (List Nat))
    (w : Sys) (hnil : [] ∉ T)
    (hclosed : ∀ P i, P ++ [i] ∈ T → (P = [] ∨ P ∈ T) ∧ ∀ j, j < i → P ++ [j] ∈ T)
    (hwidth : ∀ p ∈ T, ∀ i ∈ p, i + 1 < U32)
    (hct : env.powercap_sysfs_control_type_exists name = 0)
    (hex : ∀ p, env.powercap_sysfs_zone_exists name p = 0 ↔ p ∈ T)
    (halloc : ∀ k, env.alloc_fails k = false) :
    ∃ fuel0, ∀ fuel, fuel0 ≤ fuel →
      ∃ root w1, powercap_tree_root_init env fuel name w = some (some root, w1) ∧
        ∀ (σ : Type) (cb : powercap_tree_cb σ) (user : σ),
          (∀ a b c d e, (cb a b c d e).1 = 0) →
          (∀ p, p ∈ (powercap_tree_root_walk env root cb user w1).trace.map Visit.path
              ↔ p ∈ T) ∧
          ((powercap_tree_root_walk env root cb user w1).trace.map Visit.path).Nodup ∧
          ((powercap_tree_root_walk env root cb user w1).trace.map Visit.path).Pairwise
            PreorderBefore ∧
          (∀ v ∈ (powercap_tree_root_walk env root cb user w1).trace,
            v.depth = v.path.length ∧ v.zones.take v.depth = v.path) ∧
          (powercap_tree_root_walk env root cb user w1).ret = 0 := by
  refine ⟨T.sup List.length + U32, ?_⟩
  intro fuel hf
  obtain ⟨root, w1, hb⟩ :=
    root_init_returns_root env name T w hnil hex hwidth hct halloc fuel hf
  refine ⟨root, w1, hb, ?_⟩
  intro σ cb user hcb
  obtain ⟨hstop, hpath, hdep⟩ :=
    root_walk_visits env root cb user w1 (root_init_wellFormed hb) (fun _ => halloc _)
  have hgen := root_walk_genuine env root cb user w1
  have hzero : ∀ v ∈ (powercap_tree_root_walk env root cb user w1).trace, v.ret = 0 := by
    intro v hv
    obtain ⟨u, hu, -⟩ := hgen v hv
    rw [← hu]
    exact hcb _ _ _ _ _
  have hfull : (powercap_tree_root_walk env root cb user w1).trace.map Visit.path
      = preorder_root root ∧ (powercap_tree_root_walk env root cb user w1).ret = 0 := by
    rcases stopped_cases hstop with ⟨-, hl, h0⟩ | ⟨init, last, hvs, -, hlast, -⟩
    · exact ⟨by rw [hpath, hl, List.take_length], h0⟩
    · exact absurd (hzero last (by rw [hvs]; simp)) hlast
  have hpw : (preorder_root root).Pairwise PreorderBefore :=
    preorder_children_pairwise root.children [] 0 root.n_children
  rw [hfull.1]
  exact ⟨preorder_root_iff env fuel name w w1 root T hnil hclosed hex hb,
    pairwise_preorderBefore_nodup _ hpw, hpw, fun v hv => ⟨(hdep v hv).symm, rfl⟩, hfull.2⟩

/-- C1, witness: the example of the specification, `T = {[0], [0,0], [1]}`;
with fuel `3` the callback of the test is called on `[0]`, `[0,0]`, `[1]` in
this order. -/
theorem discovery_walk_visits_tree_witness :
    (∃ fuel0, ∀ fuel, fuel0 ≤ fuel →
      ∃ root w1, powercap_tree_root_init example_env fuel "x" sys0 = some (some root, w1) ∧
        ∀ p, p ∈ (powercap_tree_root_walk example_env root test_cb () w1).trace.map Visit.path
          ↔ p ∈ example_T) ∧
    (powercap_tree_root_init example_env 3 "x" sys0).bind
        (fun r => r.1.map (fun root =>
          (powercap_tree_root_walk example_env root test_cb () r.2).trace.map Visit.path))
      = some [[0], [0, 0], [1]] := by
  refine ⟨?_, by decide!⟩
  obtain ⟨fuel0, h⟩ := discovery_walk_visits_tree example_env "x" example_T sys0 (by decide)
    example_closed (by decide) rfl example_exact (fun _ => rfl)
  refine ⟨fuel0, fun fuel hf => ?_⟩
  obtain ⟨root, w1, hb, hw⟩ := h fuel hf
  exact ⟨root, w1, hb, (hw Unit test_cb () (fun _ _ _ _ _ => rfl)).1⟩

theorem wide_exact :
    ∀ p, wide_env.powercap_sysfs_zone_exists "x" p = 0 ↔ p ∈ wide_T := by
  intro p
  simp only [Env.powercap_sysfs_zone_exists, wide_env, wide_T, Finset.mem_image,
    Finset.mem_range]
  constructor
  · intro h
    split at h
    · split at h
      · rename_i h1
        obtain ⟨hl, hi⟩ := h1
        obtain ⟨i, rfl⟩ := List.length_eq_one.1 hl
        exact ⟨i, hi i (by simp), rfl⟩
      · exact absurd h (by decide)
    · exact absurd h (by decide)
  · rintro ⟨i, hi, rfl⟩
    have h1 : (1 : Nat) < U32 := by decide
    simp [h1, hi]

theorem wide_all_present :
    ∀ j, j < U32 → wide_env.powercap_sysfs_zone_exists "x" [j] = 0 := by
  intro j hj
  rw [wide_exact]
  exact Finset.mem_image.2 ⟨j, Finset.mem_range.2 hj, rfl⟩

theorem wide_closed :
    ∀ P i, P ++ [i] ∈ wide_T → (P = [] ∨ P ∈ wide_T) ∧ ∀ j, j < i → P ++ [j] ∈ wide_T := by
  intro P i h
  obtain ⟨k, hk, he⟩ := Finset.mem_image.1 h
  have hk2 := Finset.mem_range.1 hk
  have hP : P = [] := by
    have := congrArg List.length he
    simp only [List.length_cons, List.length_nil, List.length_append] at this
    exact List.length_eq_zero.1 (by omega)
  subst hP
  simp at he
  subst he
  refine ⟨Or.inl rfl, fun j hj => ?_⟩
  exact Finset.mem_image.2 ⟨j, Finset.mem_range.2 (by omega), rfl⟩

/-- C1, counterexample: the set of the `2 ^ 32` paths `[0]`, ..., `[2 ^ 32 - 1]`
is finite, prefix-closed and gapless, the control type exists, the oracle
reports present exactly these paths and no allocation fails; yet
`powercap_tree_root_init` returns nothing, whatever the fuel: the `uint32_t`
counter of the probing loop wraps to `0` and the loop never ends. -/
theorem wide_tree_init_never_returns :
    [] ∉ wide_T ∧
    (∀ P i, P ++ [i] ∈ wide_T → (P = [] ∨ P ∈ wide_T) ∧ ∀ j, j < i → P ++ [j] ∈ wide_T) ∧
    wide_env.powercap_sysfs_control_type_exists "x" = 0 ∧
    (∀ p, wide_env.powercap_sysfs_zone_exists "x" p = 0 ↔ p ∈ wide_T) ∧
    (∀ k, wide_env.alloc_fails k = false) ∧
    ∀ fuel, powercap_tree_root_init wide_env fuel "x" sys0 = none := by
  refine ⟨?_, wide_closed, rfl, wide_exact, fun _ => rfl, ?_⟩
  · simp [wide_T]
  · exact root_init_diverges wide_env "x" sys0 rfl rfl rfl wide_all_present

end Powercap

namespace Powercap

/-- C6 (amended): when the existence check reports that the control type does
not exist, `powercap_tree_root_init` returns `NULL` with `errno` set to `ENODEV`
and has probed no zone path and requested no allocation.  When the control type
exists, the oracle reports present exactly the paths of a finite set `T` in
which every node has fewer than `2 ^ 32` children (every index is below
`2 ^ 32 - 1`) and which lacks the empty path or has no path of `2 ^ 32 - 1`
indices, and no allocation fails, then with enough fuel it returns a non-`NULL`
root. -/
theorem init_not_found_or_root (env : Env) (name : String) (w : Sys) :
    (env.powercap_sysfs_control_type_exists name ≠ 0 →
      ∀ fuel, ∃ w1, powercap_tree_root_init env fuel name w = some (none, w1) ∧
        w1.errno = ENODEV ∧ w1.probes = w.probes ∧ w1.ncalls = w.ncalls ∧
        w1.allocated = w.allocated ∧ w1.freed = w.freed) ∧
    (env.powercap_sysfs_control_type_exists name = 0 →
      ∀ T : Finset (List Nat),
        (∀ p, env.powercap_sysfs_zone_exists name p = 0 ↔ p ∈ T) →
        (∀ p ∈ T, ∀ i ∈ p, i + 1 < U32) →
        ([] ∉ T ∨ ∀ p ∈ T, p.length + 1 < U32) →
        (∀ k, env.alloc_fails k = false) →
        ∃ fuel0, ∀ fuel, fuel0 ≤ fuel →
          ∃ root w1, powercap_tree_root_init env fuel name w = some (some root, w1)) := by
  constructor
  · intro hct fuel
    refine ⟨{ w with errno := ENODEV }, ?_, rfl, rfl, rfl, rfl, rfl⟩
    simp [powercap_tree_root_init, hct]
  · intro hct T hex hwidth hdepth halloc
    exact ⟨T.sup List.length + U32, fun fuel hf =>
      root_init_returns_root_of env name T w hex hwidth hdepth hct halloc fuel hf⟩

/-- C6, witness: a control type that does not exist, and the example of the
specification. -/
theorem init_not_found_or_root_witness :
    (∀ fuel, ∃ w1, powercap_tree_root_init ⟨fun _ => -19, fun _ _ => -1, fun _ => false⟩
        fuel "x" sys0 = some (none, w1) ∧ w1.errno = ENODEV ∧ w1.probes = [] ∧
        w1.ncalls = 0 ∧ w1.allocated = [] ∧ w1.freed = []) ∧
    (∃ fuel0, ∀ fuel, fuel0 ≤ fuel →
      ∃ root w1, powercap_tree_root_init example_env fuel "x" sys0
        = some (some root, w1)) :=
  ⟨(init_not_found_or_root ⟨fun _ => -19, fun _ _ => -1, fun _ => false⟩ "x" sys0).1
      (by decide),
    (init_not_found_or_root example_env "x" sys0).2 rfl example_T example_exact
      (by decide) (Or.inl (by decide)) (fun _ => rfl)⟩

/-- C6, counterexample: the control type exists, the oracle describes the
finite tree of the `2 ^ 32` zones `[0]`, ..., `[2 ^ 32 - 1]` and no allocation
fails, yet no amount of fuel makes `powercap_tree_root_init` return a root.  The
same holds of the finite tree of `deep_env`, a single chain of zones down to
depth `2 ^ 32 - 1` whose oracle reports the empty path present too: there every
node has one child at most. -/
theorem wide_tree_init_returns_no_root :
    (wide_env.powercap_sysfs_control_type_exists "x" = 0 ∧
      (∀ p, wide_env.powercap_sysfs_zone_exists "x" p = 0 ↔ p ∈ wide_T) ∧
      (∀ k, wide_env.alloc_fails k = false) ∧
      ∀ fuel root w1,
        powercap_tree_root_init wide_env fuel "x" sys0 ≠ some (some root, w1)) ∧
    (deep_env.powercap_sysfs_control_type_exists "x" = 0 ∧
      (∀ p, deep_env.powercap_sysfs_zone_exists "x" p = 0 ↔ p ∈ deep_T) ∧
      (∀ p ∈ deep_T, ∀ i ∈ p, i + 1 < U32) ∧
      (∀ k, deep_env.alloc_fails k = false) ∧
      ∀ fuel root w1,
        powercap_tree_root_init deep_env fuel "x" sys0 ≠ some (some root, w1)) := by
  refine ⟨⟨rfl, wide_exact, fun _ => rfl, ?_⟩, rfl, deep_exact, deep_narrow, fun _ => rfl, ?_⟩
  · intro fuel root w1 h
    rw [root_init_diverges wide_env "x" sys0 rfl rfl rfl wide_all_present fuel] at h
    exact absurd h (by simp)
  · intro fuel root w1 h
    rw [deep_root_init_none sys0 fuel] at h
    exact absurd h (by simp)

theorem owned_children_take :
    ∀ (cs : List powercap_tree_node) (i n : Nat),
      owned_children (cs.take (n - i)) i n = owned_children cs i n := by
  intro cs
  induction cs with
  | nil => intro i n; simp
  | cons c cs ih =>
    intro i n
    by_cases h : i < n
    · have e : n - i = (n - (i + 1)) + 1 := by omega
      rw [e, List.take_succ_cons]
      simp only [owned_children, h, if_true]
      rw [ih (i + 1) n]
    · have e : n - i = 0 := by omega
      rw [e]
      simp [owned_children, h]

theorem perm_of_bal {w w1 : Sys} {newA newF held1 : List Ptr}
    (hB : Bal w w1 [] held1) (hA : w1.allocated = w.allocated ++ newA)
    (hF : w1.freed = w.freed ++ newF) : (newF ++ held1).Perm newA := by
  rw [List.perm_iff_count]
  intro x
  have := hB x
  rw [hA, hF] at this
  simp only [List.count_append, List.count_nil] at this ⊢
  omega

/-- C10 (amended): let the oracle report present exactly the paths of a finite
set `T` in which every node has fewer than `2 ^ 32` children (every index is
below `2 ^ 32 - 1`) and which lacks the empty path or has no path of
`2 ^ 32 - 1` indices, and let any allocation requests fail.  With enough fuel `powercap_tree_root_init`
returns; the blocks it obtained are distinct and not `NULL`.  If one of its
requests failed it returns `NULL`, and whenever it returns `NULL` the blocks it
released are exactly the blocks it obtained, each released once.  If it returns
a root, every request succeeded, and a later `powercap_tree_root_destroy`
returns `0`, obtains nothing and releases blocks such that all blocks obtained
by the build are then released, each once.  The teardown of a node reads no
array entry at an index at or beyond its `n_children`: two arrays that agree
below that index are torn down alike. -/
theorem init_failure_leaks_nothing (env : Env) (name : String) (w : Sys)
    (T : Finset (List Nat))
    (hex : ∀ p, env.powercap_sysfs_zone_exists name p = 0 ↔ p ∈ T)
    (hwidth : ∀ p ∈ T, ∀ i ∈ p, i + 1 < U32)
    (hdepth : [] ∉ T ∨ ∀ p ∈ T, p.length + 1 < U32) :
    (∃ fuel0, ∀ fuel, fuel0 ≤ fuel →
      ∃ res w1, powercap_tree_root_init env fuel name w = some (res, w1) ∧
        ∃ newA newF, w1.allocated = w.allocated ++ newA ∧ w1.freed = w.freed ++ newF ∧
          newA.Nodup ∧ NULL ∉ newA ∧
          (Failed env w w1 → res = none) ∧
          (res = none →
            (Failed env w w1 ∨ env.powercap_sysfs_control_type_exists name ≠ 0) ∧
            newF.Perm newA) ∧
          (∀ root, res = some root → Clean env w w1 ∧
            (powercap_tree_root_destroy root w1).1 = 0 ∧
            (powercap_tree_root_destroy root w1).2.allocated = w1.allocated ∧
            ∃ later, (powercap_tree_root_destroy root w1).2.freed = w1.freed ++ later ∧
              (newF ++ later).Perm newA)) ∧
    (∀ (p : Ptr) (cs cs2 : List powercap_tree_node) (n : Nat) (c c2 : Ptr) (v : Sys),
      cs.take n = cs2.take n →
      powercap_tree_node_destroy (powercap_tree_node.mk p cs n c) v
        = powercap_tree_node_destroy (powercap_tree_node.mk p cs2 n c2) v) := by
  constructor
  · obtain ⟨hH, hHu, hn, hW⟩ := finite_oracle_bounds env name T hex hwidth hdepth
    refine ⟨T.sup List.length + U32, fun fuel hf => ?_⟩
    obtain ⟨⟨res, w1⟩, hres⟩ := root_init_terminates_of env name _ hH hHu hn hW fuel hf w
    obtain ⟨⟨⟨k, hA⟩, ⟨newF, hF⟩, -⟩, hcase⟩ := root_init_acct hres
    refine ⟨res, w1, hres, List.range' (w.allocated.length + 1) k, newF, hA, hF,
      List.nodup_range' _ _, ?_, ?_, ?_, ?_⟩
    · intro hmem
      have := (List.mem_range'_1.1 hmem).1
      simp [NULL] at this
    · intro hfail
      rcases hcase with ⟨hr, -, -⟩ | ⟨root, -, -, hC⟩
      · exact hr
      · exact absurd hC (fun hC => hfail.not_clean hC)
    · intro hr
      rcases hcase with ⟨-, hB, hwhy⟩ | ⟨root, hr2, -, -⟩
      · exact ⟨hwhy, by simpa using perm_of_bal hB hA hF⟩
      · rw [hr] at hr2
        exact absurd hr2 (by simp)
    · intro root hr
      rcases hcase with ⟨hr2, -, -⟩ | ⟨root2, hr2, hB, hC⟩
      · rw [hr] at hr2
        exact absurd hr2 (by simp)
      · rw [hr] at hr2
        obtain rfl := Option.some.inj hr2
        refine ⟨hC, rfl, ?_, owned_root root, ?_, perm_of_bal hB hA hF⟩
        · rw [root_destroy_eq]
        · rw [root_destroy_eq]
  · intro p cs cs2 n c c2 v h
    rw [node_destroy_eq, node_destroy_eq]
    simp only [owned_node]
    have h1 := owned_children_take cs 0 n
    have h2 := owned_children_take cs2 0 n
    simp only [Nat.sub_zero] at h1 h2
    rw [← h1, ← h2, h]

/-- C10, witness: the example of the specification with a failing fourth
allocation request (the path buffer); with fuel `3` the three blocks obtained
are released and `NULL` is returned. -/
theorem init_failure_leaks_nothing_witness :
    (∃ fuel0, ∀ fuel, fuel0 ≤ fuel →
      ∃ res w1, powercap_tree_root_init
          { example_env with alloc_fails := fun k => decide (k = 3) } fuel "x" sys0
        = some (res, w1)) ∧
    (powercap_tree_root_init { example_env with alloc_fails := fun k => decide (k = 3) }
        3 "x" sys0).map (fun r => (r.1.isSome, r.2.allocated, r.2.freed))
      = some (false, [1, 2, 3], [3, 2, 1]) := by
  refine ⟨?_, by decide!⟩
  obtain ⟨fuel0, h⟩ := (init_failure_leaks_nothing
    { example_env with alloc_fails := fun k => decide (k = 3) } "x" sys0 example_T
    example_exact (by decide) (Or.inl (by decide))).1
  refine ⟨fuel0, fun fuel hf => ?_⟩
  obtain ⟨res, w1, hres, -⟩ := h fuel hf
  exact ⟨res, w1, hres⟩

/-- C10, counterexample: over the finite tree of the `2 ^ 32` zones `[0]`, ...,
`[2 ^ 32 - 1]`, with the third allocation request (the child array of the root)
chosen to fail, `powercap_tree_root_init` does not return `NULL`: it returns
nothing, whatever the fuel, as the probing loop before that request never
ends.  Over the finite tree of `deep_env`, a single chain of zones down to depth
`2 ^ 32 - 1` whose oracle reports the empty path present too, with no
allocation failing, it returns nothing either, so there is no tree for a later
`powercap_tree_root_destroy` to release. -/
theorem wide_tree_failing_init_never_returns :
    (wide_env_failing.powercap_sysfs_control_type_exists "x" = 0 ∧
      (∀ p, wide_env_failing.powercap_sysfs_zone_exists "x" p = 0 ↔ p ∈ wide_T) ∧
      wide_env_failing.alloc_fails 2 = true ∧
      ∀ fuel, powercap_tree_root_init wide_env_failing fuel "x" sys0 = none) ∧
    ((∀ p, deep_env.powercap_sysfs_zone_exists "x" p = 0 ↔ p ∈ deep_T) ∧
      (∀ p ∈ deep_T, ∀ i ∈ p, i + 1 < U32) ∧
      (∀ k, deep_env.alloc_fails k = false) ∧
      ∀ fuel, powercap_tree_root_init deep_env fuel "x" sys0 = none) := by
  refine ⟨⟨rfl, wide_exact, rfl, ?_⟩, deep_exact, deep_narrow, fun _ => rfl,
    deep_root_init_none sys0⟩
  exact root_init_diverges wide_env_failing "x" sys0 rfl rfl rfl wide_all_present

end Powercap

namespace Powercap

theorem owned_children_of_strip {cs1 cs2 : List powercap_tree_node}
    (h : strip_children cs1 = strip_children cs2) (i n : Nat) :
    owned_children cs1 i n = owned_children cs2 i n := by
  rw [← owned_children_strip cs1, h, owned_children_strip]

theorem owned_root_of_shape {r1 r2 : powercap_tree_root}
    (h : r2.addr = r1.addr ∧ r2.children_ptr = r1.children_ptr ∧
      r2.name_ptr = r1.name_ptr ∧ r2.n_children = r1.n_children ∧
      strip_children r2.children = strip_children r1.children) :
    owned_root r2 = owned_root r1 := by
  obtain ⟨ha, hc, hn, hk, hs⟩ := h
  simp only [owned_root, ha, hc, hn, hk, owned_children_of_strip hs]

theorem root_destroy_of_shape {r1 r2 : powercap_tree_root}
    (h : r2.addr = r1.addr ∧ r2.children_ptr = r1.children_ptr ∧
      r2.name_ptr = r1.name_ptr ∧ r2.n_children = r1.n_children ∧
      strip_children r2.children = strip_children r1.children) (v : Sys) :
    powercap_tree_root_destroy r2 v = powercap_tree_root_destroy r1 v := by
  have h1 := root_destroy_eq r1 v
  have h2 := root_destroy_eq r2 v
  rw [owned_root_of_shape h] at h2
  exact Prod.ext rfl (h2.trans h1.symm)

/-- C11: for a root returned by `powercap_tree_root_init` (with or without
zones), and for any root `r2` that differs from it in the contents of context
slots only (as after any number of walks), `powercap_tree_root_destroy` returns
`0` and does on `r2` what it does on the root as built: same return value, same
blocks released in the same order, nothing else of the process state changed.
The blocks released are the blocks `owned_root` lists, which the build obtained
and did not release; no slot content is read or released.  In particular the
root a walk leaves, whatever the callback stored, is torn down like the root as
built. -/
theorem destroy_ignores_slots (env : Env) (fuel : Nat) (name : String) (w w1 : Sys)
    (root : powercap_tree_root)
    (hb : powercap_tree_root_init env fuel name w = some (some root, w1))
    (r2 : powercap_tree_root)
    (hshape : r2.addr = root.addr ∧ r2.children_ptr = root.children_ptr ∧
      r2.name_ptr = root.name_ptr ∧ r2.n_children = root.n_children ∧
      strip_children r2.children = strip_children root.children)
    (v : Sys) :
    (powercap_tree_root_destroy r2 v).1 = 0 ∧
    powercap_tree_root_destroy r2 v = powercap_tree_root_destroy root v ∧
    (powercap_tree_root_destroy r2 v).2 = { v with freed := v.freed ++ owned_root root } ∧
    Bal w w1 [] (owned_root root) ∧
    (∀ (σ : Type) (env2 : Env) (cb : powercap_tree_cb σ) (user : σ) (w2 : Sys),
      powercap_tree_root_destroy (powercap_tree_root_walk env2 root cb user w2).root v
        = powercap_tree_root_destroy root v ∧
      ∀ (τ : Type) (env3 : Env) (cb2 : powercap_tree_cb τ) (user2 : τ) (w3 : Sys),
        powercap_tree_root_destroy
            (powercap_tree_root_walk env3 (powercap_tree_root_walk env2 root cb user w2).root
              cb2 user2 w3).root v
          = powercap_tree_root_destroy root v) := by
  have hwalk : ∀ (σ : Type) (env2 : Env) (r : powercap_tree_root) (cb : powercap_tree_cb σ)
      (user : σ) (w2 : Sys),
      powercap_tree_root_destroy (powercap_tree_root_walk env2 r cb user w2).root v
        = powercap_tree_root_destroy r v := by
    intro σ env2 r cb user w2
    obtain ⟨ha, hcp, hn, hnp, -, -⟩ := root_walk_fields env2 r cb user w2
    obtain ⟨hstrip, -, -, -⟩ := root_walk_frame env2 r cb user w2
    exact root_destroy_of_shape ⟨ha, hcp, hnp, hn, hstrip⟩ v
  refine ⟨rfl, root_destroy_of_shape hshape v, ?_, ?_, ?_⟩
  · rw [root_destroy_eq, owned_root_of_shape hshape]
  · rcases root_init_acct hb with ⟨-, ⟨h, -, -⟩ | ⟨r, hr, hbal, -⟩⟩
    · exact absurd h (by simp)
    · obtain rfl : root = r := by simpa using hr
      exact hbal
  · intro σ env2 cb user w2
    refine ⟨hwalk σ env2 root cb user w2, ?_⟩
    intro τ env3 cb2 user2 w3
    rw [hwalk τ env3 _ cb2 user2 w3, hwalk σ env2 root cb user w2]

/-- C11, witness: on the tree of the example of the specification a walk with
the marking callback leaves `1` in all three slots; the root it leaves is torn
down like the root as built, with return value `0`. -/
theorem destroy_ignores_slots_witness :
    ∃ root w1, powercap_tree_root_init example_env 3 "x" sys0 = some (some root, w1) ∧
      slots_root (powercap_tree_root_walk example_env root marking_cb () w1).root = [1, 1, 1] ∧
      (powercap_tree_root_destroy
          (powercap_tree_root_walk example_env root marking_cb () w1).root w1).1 = 0 ∧
      powercap_tree_root_destroy
          (powercap_tree_root_walk example_env root marking_cb () w1).root w1
        = powercap_tree_root_destroy root w1 := by
  obtain ⟨root, w1, hb, hs⟩ := built_of_check
    (powercap_tree_root_init example_env 3 "x" sys0)
    (fun root w1 => slots_root (powercap_tree_root_walk example_env root marking_cb () w1).root)
    [1, 1, 1] (by decide!)
  obtain ⟨ha, hcp, hn, hnp, -, -⟩ := root_walk_fields example_env root marking_cb () w1
  obtain ⟨hstrip, -, -, -⟩ := root_walk_frame example_env root marking_cb () w1
  have h := destroy_ignores_slots example_env 3 "x" sys0 w1 root hb
    (powercap_tree_root_walk example_env root marking_cb () w1).root
    ⟨ha, hcp, hnp, hn, hstrip⟩ w1
  exact ⟨root, w1, hb, hs, h.1, h.2.1⟩

end Powercap

namespace Powercap

/-! ### The path buffer of a walk -/

mutual
theorem node_walk_buffer {σ : Type} (name : String) (cb : powercap_tree_cb σ) (L : Nat) :
    ∀ (t : powercap_tree_node) (s : WalkSt σ) (d : Nat) (ret : Int)
      (t1 : powercap_tree_node) (s1 : WalkSt σ),
      powercap_tree_node_walk name cb t s d = (ret, t1, s1) →
      s.zones.length = L → (∀ v ∈ s.trace, v.zones.length = L) →
      s1.zones.length = L ∧ ∀ v ∈ s1.trace, v.zones.length = L
  | powercap_tree_node.mk p cs n ctx, s, d, ret, t1, s1, h, hl, hs => by
    rcases hcb : cb name s.zones d ctx s.user with ⟨r, out, u⟩
    have hv : ∀ v ∈ s.trace ++ [(⟨s.zones, d, ctx, r, out⟩ : Visit)], v.zones.length = L := by
      intro v hv
      rcases List.mem_append.1 hv with hv | hv
      · exact hs v hv
      · obtain rfl := List.mem_singleton.1 hv
        exact hl
    by_cases hr : r = 0
    · rcases hq : walk_children name cb cs 0 n d 0
        ⟨s.zones, u, s.trace ++ [⟨s.zones, d, ctx, 0, out⟩]⟩ with ⟨ret2, cs2, s2⟩
      rw [node_walk_go hcb hr hq] at h
      obtain ⟨-, -, rfl⟩ : ret2 = ret ∧ powercap_tree_node.mk p cs2 n out = t1 ∧ s2 = s1 := by
        simpa using h
      subst hr
      exact walk_children_buffer name cb L cs 0 n d 0 _ _ _ _ hq hl hv
    · rw [node_walk_stop hcb hr] at h
      obtain ⟨-, -, rfl⟩ : r = ret ∧ powercap_tree_node.mk p cs n out = t1 ∧
          (⟨s.zones, u, s.trace ++ [⟨s.zones, d, ctx, r, out⟩]⟩ : WalkSt σ) = s1 := by
        simpa using h
      exact ⟨hl, hv⟩
theorem walk_children_buffer {σ : Type} (name : String) (cb : powercap_tree_cb σ) (L : Nat) :
    ∀ (cs : List powercap_tree_node) (i n d : Nat) (ret0 : Int) (s : WalkSt σ) (ret : Int)
      (cs1 : List powercap_tree_node) (s1 : WalkSt σ),
      walk_children name cb cs i n d ret0 s = (ret, cs1, s1) →
      s.zones.length = L → (∀ v ∈ s.trace, v.zones.length = L) →
      s1.zones.length = L ∧ ∀ v ∈ s1.trace, v.zones.length = L
  | [], i, n, d, ret0, s, ret, cs1, s1, h, hl, hs => by
    simp only [walk_children] at h
    obtain ⟨-, -, rfl⟩ : ret0 = ret ∧ [] = cs1 ∧ s = s1 := by simpa using h
    exact ⟨hl, hs⟩
  | c :: cs, i, n, d, ret0, s, ret, cs1, s1, h, hl, hs => by
    by_cases hin : i < n
    · rcases hc : powercap_tree_node_walk name cb c ⟨s.zones.set d (i % U32), s.user, s.trace⟩
        ((d + 1) % U32) with ⟨r, c1, sc⟩
      have h1 := node_walk_buffer name cb L c _ _ _ _ _ hc (by simpa using hl) hs
      by_cases hr : r = 0
      · rcases hq : walk_children name cb cs (i + 1) n d 0 sc with ⟨ret2, cs2, s2⟩
        rw [walk_children_go hin hc hr hq] at h
        obtain ⟨-, -, rfl⟩ : ret2 = ret ∧ c1 :: cs2 = cs1 ∧ s2 = s1 := by simpa using h
        exact walk_children_buffer name cb L cs (i + 1) n d 0 _ _ _ _ hq h1.1 h1.2
      · rw [walk_children_stop hin hc hr] at h
        obtain ⟨-, -, rfl⟩ : r = ret ∧ c1 :: cs = cs1 ∧ sc = s1 := by simpa using h
        exact h1
    · rw [walk_children_skip hin] at h
      obtain ⟨-, -, rfl⟩ : ret0 = ret ∧ c :: cs = cs1 ∧ s = s1 := by simpa using h
      exact ⟨hl, hs⟩
end

theorem root_walk_buffer {σ : Type} (env : Env) (ptr : powercap_tree_root)
    (cb : powercap_tree_cb σ) (user : σ) (w : Sys) :
    ∀ v ∈ (powercap_tree_root_walk env ptr cb user w).trace,
      v.zones.length = ptr.depth_max := by
  unfold powercap_tree_root_walk
  by_cases hdm : ptr.depth_max = 0
  · simp [hdm]
  · by_cases hz : (alloc env w).1 = NULL
    · simp [hdm, hz]
    · rcases hq : walk_children ptr.name cb ptr.children 0 ptr.n_children 0 0
        ⟨List.replicate ptr.depth_max 0, user, []⟩ with ⟨ret, cs1, s1⟩
      have := (walk_children_buffer ptr.name cb ptr.depth_max _ _ _ _ _ _ _ _ _ hq
        (by simp) (by simp)).2
      simpa [hdm, hz, hq] using this

theorem root_walk_depths {σ : Type} (env : Env) (ptr : powercap_tree_root)
    (cb : powercap_tree_cb σ) (user : σ) (w : Sys) (hwf : WellFormed ptr) :
    ∀ v ∈ (powercap_tree_root_walk env ptr cb user w).trace, v.path.length = v.depth := by
  by_cases halloc : ptr.depth_max ≠ 0 → env.alloc_fails w.ncalls = false
  · exact (root_walk_visits env ptr cb user w hwf halloc).2.2
  · have hdm : ptr.depth_max ≠ 0 := fun h => halloc (fun h2 => absurd h h2)
    have hf : env.alloc_fails w.ncalls = true := by
      have : ¬ env.alloc_fails w.ncalls = false := fun h => halloc (fun _ => h)
      simpa using this
    simp [powercap_tree_root_walk, hdm, alloc, hf]

theorem preorder_root_lengths (ptr : powercap_tree_root) (hwf : WellFormed ptr) :
    ∀ p ∈ preorder_root ptr, 1 ≤ p.length ∧ p.length ≤ ptr.depth_max := by
  intro p hp
  obtain ⟨j, X, -, rfl, hl⟩ := preorder_children_ext ptr.children [] 0 ptr.n_children p hp
  rw [hwf.1] at hl
  simp only [List.nil_append, List.length_cons]
  omega

/-- C12: on a tree returned by a successful `powercap_tree_root_init`, for every
callback and whether or not the walker obtains its buffer: at every callback
invocation of `powercap_tree_root_walk` the path buffer has exactly `depth_max`
entries and `1 ≤ depth ≤ depth_max`, so the `depth` entries the callback may
read lie inside the buffer; the invocation follows at once the write
`zones[depth - 1] = i` of the loop, whose index `depth - 1` thus lies below
`depth_max`, and the entry written reads back as the last index of the path of
the node.  The build leaves every node at a depth between `1` and `depth_max`,
so a node with a child lies at a depth below `depth_max`, and `depth_max ≥ 1`
when the root has a child. -/
theorem walk_buffer_in_bounds {σ : Type} (env : Env) (fuel : Nat) (name : String)
    (w w1 : Sys) (root : powercap_tree_root)
    (hb : powercap_tree_root_init env fuel name w = some (some root, w1))
    (env2 : Env) (cb : powercap_tree_cb σ) (user : σ) (w2 : Sys) :
    (∀ v ∈ (powercap_tree_root_walk env2 root cb user w2).trace,
      v.zones.length = root.depth_max ∧ 1 ≤ v.depth ∧ v.depth ≤ root.depth_max ∧
      v.depth - 1 < v.zones.length ∧
      (v.zones.take v.depth).length = v.depth ∧
      v.zones.take v.depth ∈ preorder_root root ∧
      ∃ P i, v.zones.take v.depth = P ++ [i] ∧ v.zones[v.depth - 1]? = some i) ∧
    (∀ p ∈ preorder_root root, 1 ≤ p.length ∧ p.length ≤ root.depth_max) ∧
    (∀ p i, p ++ [i] ∈ preorder_root root → p.length < root.depth_max) ∧
    (root.n_children ≠ 0 → 1 ≤ root.depth_max) := by
  have hwf := root_init_wellFormed hb
  have hlen := preorder_root_lengths root hwf
  refine ⟨?_, hlen, ?_, ?_⟩
  · intro v hv
    have hbuf := root_walk_buffer env2 root cb user w2 v hv
    have hdep : (v.zones.take v.depth).length = v.depth :=
      root_walk_depths env2 root cb user w2 hwf v hv
    have hmem : v.zones.take v.depth ∈ preorder_root root := by
      have h1 : v.path ∈ (powercap_tree_root_walk env2 root cb user w2).trace.map Visit.path :=
        List.mem_map.2 ⟨v, hv, rfl⟩
      rw [root_walk_paths env2 root cb user w2 hwf] at h1
      exact List.mem_of_mem_take h1
    obtain ⟨h1, h2⟩ := hlen _ hmem
    rw [hdep] at h1 h2
    refine ⟨hbuf, h1, h2, by omega, hdep, hmem, ?_⟩
    rcases List.eq_nil_or_concat (v.zones.take v.depth) with hnil | ⟨P, i, hP⟩
    · rw [hnil] at hdep
      simp at hdep
      omega
    · rw [List.concat_eq_append] at hP
      refine ⟨P, i, hP, ?_⟩
      have hPl : P.length = v.depth - 1 := by
        have := congrArg List.length hP
        rw [hdep] at this
        simp at this
        omega
      have hget : (v.zones.take v.depth)[v.depth - 1]? = some i := by
        rw [hP, ← hPl]
        simp
      rw [List.getElem?_take] at hget
      have hlt : v.depth - 1 < v.depth := by omega
      simpa [hlt] using hget
  · intro p i hp
    have := (hlen _ hp).2
    simp at this
    omega
  · intro hn
    obtain ⟨-, hcl, -, -, -, -, -, -⟩ := root_init_ok hb
    have hmem : [] ++ [0] ∈ preorder_root root :=
      child_head_mem [] root.children 0 root.n_children 0 (le_refl _)
        (Nat.pos_of_ne_zero hn) (by omega)
    exact le_trans (by simp) (hlen _ hmem).2

/-- C12, witness: on the tree of the example of the specification, whose
`depth_max` is `2`, the callback of the test is handed a buffer of two entries
three times, at depths `1`, `2` and `1`. -/
theorem walk_buffer_in_bounds_witness :
    ∃ root w1, powercap_tree_root_init example_env 3 "x" sys0 = some (some root, w1) ∧
      ((powercap_tree_root_walk example_env root test_cb () w1).trace.map
          (fun v => (v.zones, v.depth)), root.depth_max)
        = ([([0, 0], 1), ([0, 0], 2), ([1, 0], 1)], 2) ∧
      ∀ v ∈ (powercap_tree_root_walk example_env root test_cb () w1).trace,
        v.zones.length = root.depth_max ∧ 1 ≤ v.depth ∧ v.depth ≤ root.depth_max := by
  obtain ⟨root, w1, hb, hs⟩ := built_of_check
    (powercap_tree_root_init example_env 3 "x" sys0)
    (fun root w1 => ((powercap_tree_root_walk example_env root test_cb () w1).trace.map
      (fun v => (v.zones, v.depth)), root.depth_max))
    ([([0, 0], 1), ([0, 0], 2), ([1, 0], 1)], 2) (by decide!)
  refine ⟨root, w1, hb, hs, fun v hv => ?_⟩
  obtain ⟨h1, h2, h3, -⟩ :=
    (walk_buffer_in_bounds example_env 3 "x" sys0 w1 root hb example_env test_cb () w1).1 v hv
  exact ⟨h1, h2, h3⟩

end Powercap

namespace Powercap

/-! ### The log of calls of `powercap_tree_node_init` -/

theorem entries_loop_skip
    {ent : Nat → powercap_tree_node → BuildSt → List Entry}
    {body : Nat → powercap_tree_node → BuildSt → Option (Int × powercap_tree_node × BuildSt)}
    {n : Nat} {c : powercap_tree_node} {cs : List powercap_tree_node} {i : Nat} {st : BuildSt}
    (hi : ¬ i < n) : init_children_entries ent body n (c :: cs) i st = [] := by
  simp [init_children_entries, hi]

theorem entries_loop_none
    {ent : Nat → powercap_tree_node → BuildSt → List Entry}
    {body : Nat → powercap_tree_node → BuildSt → Option (Int × powercap_tree_node × BuildSt)}
    {n : Nat} {c : powercap_tree_node} {cs : List powercap_tree_node} {i : Nat} {st : BuildSt}
    (hi : i < n) (hb : body i c st = none) :
    init_children_entries ent body n (c :: cs) i st = ent i c st := by
  simp [init_children_entries, hi, hb]

theorem entries_loop_stop
    {ent : Nat → powercap_tree_node → BuildSt → List Entry}
    {body : Nat → powercap_tree_node → BuildSt → Option (Int × powercap_tree_node × BuildSt)}
    {n : Nat} {c : powercap_tree_node} {cs : List powercap_tree_node} {i : Nat} {st : BuildSt}
    (hi : i < n) {r : Int} {c1 : powercap_tree_node} {s1 : BuildSt}
    (hb : body i c st = some (r, c1, s1)) (hr : r ≠ 0) :
    init_children_entries ent body n (c :: cs) i st = ent i c st := by
  simp [init_children_entries, hi, hb, hr]

theorem entries_loop_go
    {ent : Nat → powercap_tree_node → BuildSt → List Entry}
    {body : Nat → powercap_tree_node → BuildSt → Option (Int × powercap_tree_node × BuildSt)}
    {n : Nat} {c : powercap_tree_node} {cs : List powercap_tree_node} {i : Nat} {st : BuildSt}
    (hi : i < n) {c1 : powercap_tree_node} {s1 : BuildSt}
    (hb : body i c st = some (0, c1, s1)) :
    init_children_entries ent body n (c :: cs) i st
      = ent i c st ++ init_children_entries ent body n cs (i + 1) s1 := by
  simp [init_children_entries, hi, hb]

theorem node_entries_head (env : Env) (name : String) (fuel : Nat) (t : powercap_tree_node)
    (st : BuildSt) (d : Nat) :
    ∃ rest, node_init_entries env name fuel t st d = ⟨d, st⟩ :: rest := by
  cases fuel with
  | zero => exact ⟨[], rfl⟩
  | succ fuel => exact ⟨_, rfl⟩

theorem node_entries_one {env : Env} {name : String} {fuel : Nat} {st : BuildSt} {d : Nat}
    (h : (grow_zones env (note_depth st d) d).1 = false ∨
      count_children env name (fuel + 1) (grow_zones env (note_depth st d) d).2 d = none ∨
      ∃ st3, count_children env name (fuel + 1) (grow_zones env (note_depth st d) d).2 d
          = some st3 ∧
        (st3.zones.getD d 0 = 0 ∨ (alloc env st3.sys).1 = NULL)) :
    node_init_entries env name (fuel + 1) zero_node st d = [⟨d, st⟩] := by
  rcases h with h | h | ⟨st3, h, h0 | h0⟩
  · simp [node_init_entries, h]
  · by_cases hg : (grow_zones env (note_depth st d) d).1 = false
    · simp [node_init_entries, hg]
    · simp [node_init_entries, hg, h]
  · have h0n : st3.zones[d]?.getD 0 = 0 := by simpa using h0
    by_cases hg : (grow_zones env (note_depth st d) d).1 = false
    · simp [node_init_entries, hg]
    · simp [node_init_entries, hg, h, h0n, init_children_entries]
  · by_cases hg : (grow_zones env (note_depth st d) d).1 = false
    · simp [node_init_entries, hg]
    · by_cases hn : st3.zones[d]?.getD 0 = 0
      · simp [node_init_entries, hg, h, hn, init_children_entries]
      · simp [node_init_entries, hg, h, hn, h0]

theorem node_entries_go {env : Env} {name : String} {fuel : Nat} {st : BuildSt} {d : Nat}
    (hg : (grow_zones env (note_depth st d) d).1 = true) {st3 : BuildSt}
    (hc : count_children env name (fuel + 1) (grow_zones env (note_depth st d) d).2 d
      = some st3)
    (hn : st3.zones.getD d 0 ≠ 0) (ha : (alloc env st3.sys).1 ≠ NULL) :
    node_init_entries env name (fuel + 1) zero_node st d
      = ⟨d, st⟩ ::
        init_children_entries
          (fun i c s => node_init_entries env name fuel c
            { s with zones := s.zones.set d i } ((d + 1) % U32))
          (fun i c s => powercap_tree_node_init env name fuel c
            { s with zones := s.zones.set d i } ((d + 1) % U32))
          (st3.zones.getD d 0) (List.replicate (st3.zones.getD d 0) zero_node) 0
          { st3 with sys := (alloc env st3.sys).2 } := by
  have hn1 : ¬ st3.zones[d]?.getD 0 = 0 := by simpa using hn
  simp [node_init_entries, hg, hc, hn1, ha]

theorem entries_loop_fits (env : Env) (name : String) (fuel d n : Nat)
    (IH : ∀ (st : BuildSt) (d1 : Nat),
      Entry.fits (env.powercap_sysfs_zone_exists name) ⟨d1, st⟩ →
      ∀ e ∈ node_init_entries env name fuel zero_node st d1,
        Entry.fits (env.powercap_sysfs_zone_exists name) e)
    (hd1 : n ≠ 0 → d + 1 < U32) :
    ∀ (cs : List powercap_tree_node) (i : Nat) (st : BuildSt),
      (∀ c ∈ cs, c = zero_node) → st.zones.length = st.zones_len → d < st.zones_len →
      POWERCAP_TREE_MAX_DEPTH_START ≤ st.zones_len →
      (∀ j, i ≤ j → j < n →
        env.powercap_sysfs_zone_exists name (st.zones.take d ++ [j]) = 0) →
      ∀ e ∈ init_children_entries
          (fun i c s => node_init_entries env name fuel c
            { s with zones := s.zones.set d i } ((d + 1) % U32))
          (fun i c s => powercap_tree_node_init env name fuel c
            { s with zones := s.zones.set d i } ((d + 1) % U32))
          n cs i st,
        Entry.fits (env.powercap_sysfs_zone_exists name) e := by
  intro cs
  induction cs with
  | nil =>
    intro i st _ _ _ _ _ e he
    simp [init_children_entries] at he
  | cons c cs ih =>
    intro i st hz hlen hd hcap hex e he
    by_cases hin : i < n
    · have hu : d + 1 < U32 := hd1 (by omega)
      have hc : c = zero_node := hz c (by simp)
      subst hc
      have hfirst : ∀ e ∈ node_init_entries env name fuel zero_node
          { st with zones := st.zones.set d i } ((d + 1) % U32),
          Entry.fits (env.powercap_sysfs_zone_exists name) e := by
        apply IH
        rw [Nat.mod_eq_of_lt hu]
        refine ⟨by simpa using hlen, hcap, Nat.succ_le_succ (Nat.zero_le d), hu,
          by simpa using hd, ?_⟩
        show env.powercap_sysfs_zone_exists name ((st.zones.set d i).take (d + 1)) = 0
        rw [take_set_succ _ _ _ (by omega)]
        exact hex i (le_refl _) hin
      rcases hb : powercap_tree_node_init env name fuel zero_node
          { st with zones := st.zones.set d i } ((d + 1) % U32) with _ | ⟨r, c1, s1⟩
      · rw [entries_loop_none hin hb] at he
        exact hfirst e he
      · by_cases hr : r = 0
        · subst hr
          rw [entries_loop_go hin hb, List.mem_append] at he
          rcases he with he | he
          · exact hfirst e he
          · rw [Nat.mod_eq_of_lt hu] at hb
            obtain ⟨-, hlen1, hle1, htake1, -, -⟩ :=
              node_init_ok env name fuel _ (d + 1) c1 s1 hb (by simpa using hlen)
                (by simpa using hd) (by simp; unfold POWERCAP_TREE_MAX_DEPTH_START at hcap; omega)
                hu
            simp only at hle1 htake1
            have htk : s1.zones.take d = st.zones.take d := by
              rw [take_of_take_succ htake1, take_set_same]
            refine ih (i + 1) s1 (fun c hc => hz c (by simp [hc])) hlen1 (by omega)
              (by omega) ?_ e he
            intro j hj hjn
            rw [htk]
            exact hex j (by omega) hjn
        · rw [entries_loop_stop hin hb hr] at he
          exact hfirst e he
    · rw [entries_loop_skip hin] at he
      simp at he

theorem node_entries_fits (env : Env) (name : String) :
    ∀ (fuel : Nat) (st : BuildSt) (d : Nat),
      Entry.fits (env.powercap_sysfs_zone_exists name) ⟨d, st⟩ →
      ∀ e ∈ node_init_entries env name fuel zero_node st d,
        Entry.fits (env.powercap_sysfs_zone_exists name) e := by
  intro fuel
  induction fuel with
  | zero =>
    intro st d h0 e he
    obtain rfl : e = ⟨d, st⟩ := by simpa [node_init_entries] using he
    exact h0
  | succ fuel IH =>
    intro st d h0 e he
    obtain ⟨hlen, hcap, hd1, hdu, hd, hex⟩ := h0
    simp only at hlen hcap hd1 hdu hd hex
    have hone : node_init_entries env name (fuel + 1) zero_node st d = [⟨d, st⟩] →
        Entry.fits (env.powercap_sysfs_zone_exists name) e := by
      intro h1
      rw [h1] at he
      obtain rfl : e = ⟨d, st⟩ := by simpa using he
      exact ⟨hlen, hcap, hd1, hdu, hd, hex⟩
    cases hg : (grow_zones env (note_depth st d) d).1 with
    | false => exact hone (node_entries_one (Or.inl hg))
    | true =>
      rcases hcc : count_children env name (fuel + 1)
          (grow_zones env (note_depth st d) d).2 d with _ | st3
      · exact hone (node_entries_one (Or.inr (Or.inl hcc)))
      · by_cases hn : st3.zones.getD d 0 = 0
        · exact hone (node_entries_one (Or.inr (Or.inr ⟨st3, hcc, Or.inl hn⟩)))
        · by_cases ha : (alloc env st3.sys).1 = NULL
          · exact hone (node_entries_one (Or.inr (Or.inr ⟨st3, hcc, Or.inr ha⟩)))
          · rw [node_entries_go hg hcc hn ha, List.mem_cons] at he
            rcases he with rfl | he
            · exact ⟨hlen, hcap, hd1, hdu, hd, hex⟩
            · generalize hgz : grow_zones env (note_depth st d) d = gz at hg hcc
              obtain ⟨b, g⟩ := gz
              simp only at hg hcc
              subst hg
              obtain ⟨glen, gd, gle, gtake, -⟩ :=
                grow_zones_ok hgz (by simpa [note_depth_eq] using hlen)
                  (by simpa [note_depth_eq] using hd)
                  (by simp [note_depth_eq]; unfold POWERCAP_TREE_MAX_DEPTH_START at hcap; omega)
              simp only [note_depth_eq] at gle gtake
              have hdz : d < g.zones.length := by omega
              obtain ⟨k, log, hk, rfl, hbelow, hmiss⟩ := count_children_ok hcc hdz
              have hgetk : (g.zones.set d k).getD d 0 = k := getD_set_same _ _ _ hdz
              simp only [hgetk] at he hn
              have hk0 : d + 1 < U32 := by
                by_contra hcon
                have hq : (d + 1) % U32 = 0 := by
                  have : d + 1 = U32 := by omega
                  rw [this]; exact Nat.mod_self _
                rw [hq] at hbelow hmiss
                simp only [List.take_zero] at hbelow hmiss
                exact hmiss (hbelow 0 (Nat.pos_of_ne_zero hn))
              refine entries_loop_fits env name fuel d k IH (fun _ => hk0) _ 0 _
                (fun c hc => (List.mem_replicate.1 hc).2) (by simpa using glen)
                (by simpa using gd) (by simp; omega) ?_ e he
              intro j _ hj
              show env.powercap_sysfs_zone_exists name ((g.zones.set d k).take d ++ [j]) = 0
              have := hbelow j hj
              rwa [Nat.mod_eq_of_lt hk0, take_set_succ _ _ _ hdz, ← take_set_same g.zones d k]
                at this

/-! ### The capacity of the path buffer along the log -/

theorem count_children_len {env : Env} {name : String} {fuel : Nat} {st st3 : BuildSt}
    {d : Nat} (h : count_children env name fuel st d = some st3) :
    st3.zones_len = st.zones_len := by
  unfold count_children at h
  rcases hp : probe_zones env name d fuel (st.zones.set d 0) st.sys.probes with _ | ⟨z, log⟩
  · simp [hp] at h
  · simp only [hp, Option.some.injEq] at h
    rw [← h]

theorem init_children_none
    {body : Nat → powercap_tree_node → BuildSt → Option (Int × powercap_tree_node × BuildSt)}
    {n : Nat} {c : powercap_tree_node} {cs : List powercap_tree_node} {i : Nat} {st : BuildSt}
    (hi : i < n) (hb : body i c st = none) : init_children body n (c :: cs) i st = none := by
  simp [init_children, hi, hb]

theorem init_children_skip
    {body : Nat → powercap_tree_node → BuildSt → Option (Int × powercap_tree_node × BuildSt)}
    {n : Nat} {c : powercap_tree_node} {cs : List powercap_tree_node} {i : Nat} {st : BuildSt}
    (hi : ¬ i < n) : init_children body n (c :: cs) i st = some (none, c :: cs, st) := by
  simp [init_children, hi]

theorem entries_loop_chain (env : Env) (name : String) (fuel d dd n : Nat)
    (IH : ∀ (st : BuildSt) (d1 : Nat),
      (node_init_entries env name fuel zero_node st d1).Chain'
        (fun e1 e2 => e2.st.zones_len = (e1.checked env).zones_len) ∧
      ∀ r t st1, powercap_tree_node_init env name fuel zero_node st d1 = some (r, t, st1) →
        ∃ e, (node_init_entries env name fuel zero_node st d1).getLast? = some e ∧
          st1.zones_len = (e.checked env).zones_len) :
    ∀ (cs : List powercap_tree_node) (i : Nat) (st : BuildSt),
      (∀ c ∈ cs, c = zero_node) →
      (init_children_entries
          (fun i c s => node_init_entries env name fuel c
            { s with zones := s.zones.set d i } dd)
          (fun i c s => powercap_tree_node_init env name fuel c
            { s with zones := s.zones.set d i } dd)
          n cs i st).Chain' (fun e1 e2 => e2.st.zones_len = (e1.checked env).zones_len) ∧
      (∀ e ∈ (init_children_entries
          (fun i c s => node_init_entries env name fuel c
            { s with zones := s.zones.set d i } dd)
          (fun i c s => powercap_tree_node_init env name fuel c
            { s with zones := s.zones.set d i } dd)
          n cs i st).head?, e.st.zones_len = st.zones_len) ∧
      ∀ f arr st5,
        init_children
          (fun i c s => powercap_tree_node_init env name fuel c
            { s with zones := s.zones.set d i } dd)
          n cs i st = some (f, arr, st5) →
        st5.zones_len
          = (((init_children_entries
              (fun i c s => node_init_entries env name fuel c
                { s with zones := s.zones.set d i } dd)
              (fun i c s => powercap_tree_node_init env name fuel c
                { s with zones := s.zones.set d i } dd)
              n cs i st).getLast?).map (fun e => (e.checked env).zones_len)).getD
            st.zones_len := by
  intro cs
  induction cs with
  | nil =>
    intro i st _
    refine ⟨by simp [init_children_entries], by simp [init_children_entries], ?_⟩
    intro f arr st5 h
    obtain ⟨-, -, rfl⟩ : none = f ∧ [] = arr ∧ st = st5 := by simpa [init_children] using h
    simp [init_children_entries]
  | cons c cs ih =>
    intro i st hz
    by_cases hin : i < n
    · have hc : c = zero_node := hz c (by simp)
      subst hc
      obtain ⟨hchA, hresA⟩ := IH { st with zones := st.zones.set d i } dd
      obtain ⟨rest, hA⟩ := node_entries_head env name fuel zero_node
        { st with zones := st.zones.set d i } dd
      rcases hb : powercap_tree_node_init env name fuel zero_node
          { st with zones := st.zones.set d i } dd with _ | ⟨r, c1, s1⟩
      · rw [entries_loop_none hin hb, init_children_none hin hb]
        refine ⟨hchA, ?_, by simp⟩
        rw [hA]
        simp
      · obtain ⟨eA, hlastA, hcapA⟩ := hresA r c1 s1 hb
        by_cases hr : r = 0
        · subst hr
          obtain ⟨hch2, hhead2, hres2⟩ := ih (i + 1) s1 (fun c hc => hz c (by simp [hc]))
          rw [entries_loop_go hin hb]
          refine ⟨?_, ?_, ?_⟩
          · rw [List.chain'_append]
            refine ⟨hchA, hch2, ?_⟩
            intro x hx y hy
            rw [hlastA] at hx
            obtain rfl : eA = x := by simpa using hx
            rw [hhead2 y hy, hcapA]
          · rw [List.head?_append, hA]
            simp
          · intro f arr st5 h
            obtain ⟨r2, c2, s2, hb2, hcase⟩ := init_children_cons_inv h hin
            rw [hb] at hb2
            obtain ⟨rfl, rfl, rfl⟩ : (0 : Int) = r2 ∧ c1 = c2 ∧ s1 = s2 := by simpa using hb2
            rcases hcase with ⟨hne, -⟩ | ⟨-, cs1, hrest, -⟩
            · exact absurd rfl hne
            · have h5 := hres2 f cs1 st5 hrest
              rw [h5, List.getLast?_append]
              rcases hl2 : (init_children_entries
                  (fun i c s => node_init_entries env name fuel c
                    { s with zones := s.zones.set d i } dd)
                  (fun i c s => powercap_tree_node_init env name fuel c
                    { s with zones := s.zones.set d i } dd)
                  n cs (i + 1) s1).getLast? with _ | e2
              · simp [hlastA, hcapA]
              · simp
        · rw [entries_loop_stop hin hb hr]
          refine ⟨hchA, ?_, ?_⟩
          · rw [hA]
            simp
          · intro f arr st5 h
            obtain ⟨r2, c2, s2, hb2, hcase⟩ := init_children_cons_inv h hin
            rw [hb] at hb2
            obtain ⟨rfl, rfl, rfl⟩ : r = r2 ∧ c1 = c2 ∧ s1 = s2 := by simpa using hb2
            rcases hcase with ⟨-, -, -, rfl⟩ | ⟨h0, -⟩
            · simp [hlastA, hcapA]
            · exact absurd h0 hr
    · rw [entries_loop_skip hin, init_children_skip hin]
      refine ⟨by simp, by simp, ?_⟩
      intro f arr st5 h
      obtain ⟨-, -, rfl⟩ : none = f ∧ c :: cs = arr ∧ st = st5 := by simpa using h
      simp

theorem node_entries_chain (env : Env) (name : String) :
    ∀ (fuel : Nat) (st : BuildSt) (d : Nat),
      (node_init_entries env name fuel zero_node st d).Chain'
        (fun e1 e2 => e2.st.zones_len = (e1.checked env).zones_len) ∧
      ∀ r t st1, powercap_tree_node_init env name fuel zero_node st d = some (r, t, st1) →
        ∃ e, (node_init_entries env name fuel zero_node st d).getLast? = some e ∧
          st1.zones_len = (e.checked env).zones_len := by
  intro fuel
  induction fuel with
  | zero =>
    intro st d
    refine ⟨by simp [node_init_entries], ?_⟩
    intro r t st1 h
    simp [powercap_tree_node_init] at h
  | succ fuel IH =>
    intro st d
    constructor
    · -- the chain
      have hone : node_init_entries env name (fuel + 1) zero_node st d = [⟨d, st⟩] →
          (node_init_entries env name (fuel + 1) zero_node st d).Chain'
            (fun e1 e2 => e2.st.zones_len = (e1.checked env).zones_len) := by
        intro h1
        rw [h1]
        exact List.chain'_singleton _
      cases hg : (grow_zones env (note_depth st d) d).1 with
      | false => exact hone (node_entries_one (Or.inl hg))
      | true =>
        rcases hcc : count_children env name (fuel + 1)
            (grow_zones env (note_depth st d) d).2 d with _ | st3
        · exact hone (node_entries_one (Or.inr (Or.inl hcc)))
        · by_cases hn : st3.zones.getD d 0 = 0
          · exact hone (node_entries_one (Or.inr (Or.inr ⟨st3, hcc, Or.inl hn⟩)))
          · by_cases ha : (alloc env st3.sys).1 = NULL
            · exact hone (node_entries_one (Or.inr (Or.inr ⟨st3, hcc, Or.inr ha⟩)))
            · rw [node_entries_go hg hcc hn ha, List.chain'_cons']
              obtain ⟨hch, hhead, -⟩ := entries_loop_chain env name fuel d ((d + 1) % U32)
                (st3.zones.getD d 0) IH (List.replicate (st3.zones.getD d 0) zero_node) 0
                { st3 with sys := (alloc env st3.sys).2 }
                (fun c hc => (List.mem_replicate.1 hc).2)
              refine ⟨?_, hch⟩
              intro y hy
              rw [hhead y hy]
              show st3.zones_len = (grow_zones env (note_depth st d) d).2.zones_len
              exact count_children_len hcc
    · intro r t st1 h
      rcases node_init_inv h with ⟨hg, -, -, hst⟩ | ⟨hg, st3, hc, hcase⟩
      · refine ⟨⟨d, st⟩, by rw [node_entries_one (Or.inl hg)]; rfl, ?_⟩
        rw [hst]
        rfl
      · have hlen3 := count_children_len hc
        rcases hcase with ⟨hn, ha, -, -, hst⟩ | ⟨p, w4, hw4, f, arr5, st5, hloop, hfin⟩
        · refine ⟨⟨d, st⟩, ?_, ?_⟩
          · rw [node_entries_one (Or.inr (Or.inr ⟨st3, hc, Or.inr ha⟩))]
            rfl
          · rw [hst]
            exact hlen3
        · have h1 : st1.zones_len = st5.zones_len := by
            rcases hfin with ⟨-, -, -, rfl⟩ | ⟨i, -, -, -, rfl⟩ <;> rfl
          rcases hw4 with ⟨hn, -, rfl⟩ | ⟨hn, hal, hp⟩
          · refine ⟨⟨d, st⟩, ?_, ?_⟩
            · rw [node_entries_one (Or.inr (Or.inr ⟨st3, hc, Or.inl hn⟩))]
              rfl
            · rw [hn] at hloop
              obtain ⟨-, -, rfl⟩ : none = f ∧ [] = arr5 ∧
                  ({ st3 with sys := st3.sys } : BuildSt) = st5 := by
                simpa [init_children] using hloop
              rw [h1]
              exact hlen3
          · have ha : (alloc env st3.sys).1 ≠ NULL := by rw [hal]; exact hp
            have hw : w4 = (alloc env st3.sys).2 := by rw [hal]
            subst hw
            obtain ⟨-, -, hres⟩ := entries_loop_chain env name fuel d ((d + 1) % U32)
              (st3.zones.getD d 0) IH (List.replicate (st3.zones.getD d 0) zero_node) 0
              { st3 with sys := (alloc env st3.sys).2 }
              (fun c hc => (List.mem_replicate.1 hc).2)
            have h5 := hres f arr5 st5 hloop
            rw [node_entries_go hg hc hn ha, List.getLast?_cons]
            rcases hl : (init_children_entries
                (fun i c s => node_init_entries env name fuel c
                  { s with zones := s.zones.set d i } ((d + 1) % U32))
                (fun i c s => powercap_tree_node_init env name fuel c
                  { s with zones := s.zones.set d i } ((d + 1) % U32))
                (st3.zones.getD d 0) (List.replicate (st3.zones.getD d 0) zero_node) 0
                { st3 with sys := (alloc env st3.sys).2 }).getLast? with _ | e2
            · rw [hl] at h5
              refine ⟨⟨d, st⟩, by simp, ?_⟩
              rw [h1, h5]
              exact hlen3
            · rw [hl] at h5
              refine ⟨e2, by simp, ?_⟩
              rw [h1, h5]
              rfl

theorem root_entries_eq (env : Env) (fuel : Nat) (name : String) (w : Sys) :
    root_init_entries env fuel name w = [] ∨
    ∃ n log probes z wz,
      probe_root env name fuel 0 probes = some (n, log) ∧ n ≠ 0 ∧
      root_init_entries env fuel name w
        = init_children_entries
            (fun i c s => node_init_entries env name fuel c
              { s with zones := s.zones.set 0 i } ((0 + 1) % U32))
            (fun i c s => powercap_tree_node_init env name fuel c
              { s with zones := s.zones.set 0 i } ((0 + 1) % U32))
            n (List.replicate n zero_node) 0
            ⟨0, z, List.replicate POWERCAP_TREE_MAX_DEPTH_START 0,
              POWERCAP_TREE_MAX_DEPTH_START, wz⟩ := by
  unfold root_init_entries
  by_cases hct : env.powercap_sysfs_control_type_exists name = 0
  swap
  · left
    simp only [ne_eq, hct, not_false_eq_true, if_true]
  simp only [ne_eq, hct, not_true_eq_false, if_false]
  rcases ha : alloc env w with ⟨a, wa⟩
  simp only
  by_cases ha0 : a = NULL
  · left
    simp only [ha0, if_true]
  simp only [ha0, if_false]
  rcases hb : alloc env wa with ⟨b, wb⟩
  simp only
  by_cases hb0 : b = NULL
  · left
    simp only [hb0, if_true]
  simp only [hb0, if_false]
  rcases hp : probe_root env name fuel 0 wb.probes with _ | ⟨n, log⟩
  · left
    rfl
  simp only
  by_cases hn : n = 0
  · left
    simp only [hn, not_true_eq_false, if_false, false_and]
  simp only [hn, not_false_eq_true, if_true, true_and]
  rcases hc : alloc env { wb with probes := log } with ⟨c, wc⟩
  simp only
  by_cases hc0 : c = NULL
  · left
    simp only [hc0, if_true]
  simp only [hc0, if_false]
  rcases hz : alloc env wc with ⟨z, wz⟩
  simp only
  by_cases hz0 : z = NULL
  · left
    simp only [hz0, if_true]
  simp only [hz0, if_false]
  right
  exact ⟨n, log, wb.probes, z, wz, hp, hn, rfl⟩

theorem root_entries_fits (env : Env) (fuel : Nat) (name : String) (w : Sys) :
    ∀ e ∈ root_init_entries env fuel name w,
      Entry.fits (env.powercap_sysfs_zone_exists name) e := by
  rcases root_entries_eq env fuel name w with h | ⟨n, log, probes, z, wz, hp, hn, h⟩
  · rw [h]
    simp
  · rw [h]
    obtain ⟨-, hbelow, -⟩ := probe_root_spec env name fuel 0 probes n log (by decide)
      (fun j hj => absurd hj (Nat.not_lt_zero j)) hp
    refine entries_loop_fits env name fuel 0 n (node_entries_fits env name fuel)
      (fun _ => by decide) _ 0 _ (fun c hc => (List.mem_replicate.1 hc).2) (by simp)
      (by show 0 < POWERCAP_TREE_MAX_DEPTH_START; decide) (le_refl _) ?_
    intro j _ hj
    simpa using hbelow j hj

theorem root_entries_chain (env : Env) (fuel : Nat) (name : String) (w : Sys) :
    (root_init_entries env fuel name w).Chain'
      (fun e1 e2 => e2.st.zones_len = (e1.checked env).zones_len) ∧
    ∀ e ∈ (root_init_entries env fuel name w).head?,
      e.st.zones_len = POWERCAP_TREE_MAX_DEPTH_START := by
  rcases root_entries_eq env fuel name w with h | ⟨n, log, probes, z, wz, -, -, h⟩
  · rw [h]
    simp
  · rw [h]
    obtain ⟨hch, hhead, -⟩ := entries_loop_chain env name fuel 0 ((0 + 1) % U32) n
      (node_entries_chain env name fuel) (List.replicate n zero_node) 0
      ⟨0, z, List.replicate POWERCAP_TREE_MAX_DEPTH_START 0, POWERCAP_TREE_MAX_DEPTH_START, wz⟩
      (fun c hc => (List.mem_replicate.1 hc).2)
    exact ⟨hch, hhead⟩

theorem grow_zones_cap {env : Env} {st : BuildSt} {d : Nat}
    (h : (grow_zones env st d).1 = true) :
    (d < st.zones_len → (grow_zones env st d).2 = st) ∧
    (st.zones_len ≤ d → (grow_zones env st d).2.zones_len = 2 * st.zones_len) := by
  unfold grow_zones at h ⊢
  by_cases hd : d ≥ st.zones_len
  · by_cases hr : (realloc env st.zones_ptr st.sys).1 = NULL
    · simp [hd, hr] at h
    · refine ⟨fun hlt => absurd hd (by omega), fun _ => ?_⟩
      simp [hd, hr, Nat.mul_comm]
  · refine ⟨fun _ => by simp [hd], fun hle => absurd hle (by omega)⟩

/-- C13: during `powercap_tree_root_init`, with the initial capacity
`POWERCAP_TREE_MAX_DEPTH_START = 64` and no failing allocation, for every oracle
and however far the run gets: every call of `powercap_tree_node_init` is entered
with a buffer of `*zones_len` entries and `1 ≤ depth ≤ *zones_len`, so the
child-index write `zones[depth - 1]` made just before lies inside the buffer;
the growth check succeeds, leaves the capacity alone when `depth` is below it
and doubles it when `depth` equals it; after the check the buffer has one entry
for each index up to the capacity and `depth` is strictly below it, so the
counter write at `depth` and the probes of `depth + 1` entries lie inside; the
first `depth` entries, the path of the node, are the same before and after the
check.  The first call finds the capacity `64`, and each later call finds the
capacity the call entered before it had after its check: the capacity changes
nowhere else. -/
theorem path_buffer_doubles (env : Env) (fuel : Nat) (name : String) (w : Sys)
    (halloc : ∀ k, env.alloc_fails k = false) :
    (∀ e ∈ root_init_entries env fuel name w,
      1 ≤ e.depth ∧ e.depth ≤ e.st.zones_len ∧ e.st.zones.length = e.st.zones_len ∧
      POWERCAP_TREE_MAX_DEPTH_START ≤ e.st.zones_len ∧
      (grow_zones env (note_depth e.st e.depth) e.depth).1 = true ∧
      (e.depth < e.st.zones_len → (e.checked env).zones_len = e.st.zones_len) ∧
      (e.depth = e.st.zones_len → (e.checked env).zones_len = 2 * e.st.zones_len) ∧
      (e.checked env).zones.length = (e.checked env).zones_len ∧
      e.depth < (e.checked env).zones_len ∧
      (e.checked env).zones.take e.depth = e.st.zones.take e.depth) ∧
    (∀ e ∈ (root_init_entries env fuel name w).head?,
      e.st.zones_len = POWERCAP_TREE_MAX_DEPTH_START) ∧
    (root_init_entries env fuel name w).Chain'
      (fun e1 e2 => e2.st.zones_len = (e1.checked env).zones_len) := by
  obtain ⟨hchain, hhead⟩ := root_entries_chain env fuel name w
  refine ⟨?_, hhead, hchain⟩
  intro e he
  obtain ⟨hlen, hcap, hd1, -, hd, -⟩ := root_entries_fits env fuel name w e he
  have hg := grow_zones_clean halloc (note_depth e.st e.depth) e.depth
  obtain ⟨hsame, hdouble⟩ := grow_zones_cap hg
  have hpos : 0 < e.st.zones_len := by
    unfold POWERCAP_TREE_MAX_DEPTH_START at hcap
    omega
  obtain ⟨glen, gd, -, gtake, -⟩ :=
    grow_zones_ok (Prod.ext hg rfl : grow_zones env (note_depth e.st e.depth) e.depth
        = (true, (grow_zones env (note_depth e.st e.depth) e.depth).2))
      (by simpa [note_depth_eq] using hlen) (by simpa [note_depth_eq] using hd)
      (by simpa [note_depth_eq] using hpos)
  refine ⟨hd1, hd, hlen, hcap, hg, ?_, ?_, glen, gd, ?_⟩
  · intro hlt
    show (grow_zones env (note_depth e.st e.depth) e.depth).2.zones_len = e.st.zones_len
    rw [hsame (by simpa [note_depth_eq] using hlt), note_depth_eq]
  · intro heq
    show (grow_zones env (note_depth e.st e.depth) e.depth).2.zones_len = 2 * e.st.zones_len
    have := hdouble (by simp [note_depth_eq, heq])
    simpa [note_depth_eq] using this
  · show (grow_zones env (note_depth e.st e.depth) e.depth).2.zones.take e.depth
      = e.st.zones.take e.depth
    rw [gtake, note_depth_eq]

/-- C13, witness: a chain of zones down to depth `65`.  The calls at depths `1`
to `63` find and leave the capacity `64`, the call at depth `64` doubles it, the
call at depth `65` finds `128`. -/
theorem path_buffer_doubles_witness :
    (∀ k, (chain_env 65).alloc_fails k = false) ∧
    ((root_init_entries (chain_env 65) 70 "x" sys0).map
        (fun e => (e.depth, e.st.zones_len, (e.checked (chain_env 65)).zones_len))).drop 62
      = [(63, 64, 64), (64, 64, 128), (65, 128, 128)] ∧
    (powercap_tree_root_init (chain_env 65) 70 "x" sys0).map
        (fun r => r.1.map (fun root => root.depth_max)) = some (some 65) ∧
    (root_init_entries (chain_env 65) 70 "x" sys0).Chain'
      (fun e1 e2 => e2.st.zones_len = (e1.checked (chain_env 65)).zones_len) :=
  ⟨fun _ => rfl, by decide!, by decide!,
    (path_buffer_doubles (chain_env 65) 70 "x" sys0 (fun _ => rfl)).2.2⟩

end Powercap

namespace Powercap

/-! ### Termination on finite oracle trees -/

theorem root_entries_depth (env : Env) (fuel : Nat) (name : String) (w : Sys) (H : Nat)
    (hH : ∀ p, env.powercap_sysfs_zone_exists name p = 0 → p.length ≤ H) :
    ∀ e ∈ root_init_entries env fuel name w, 1 ≤ e.depth ∧ e.depth ≤ H := by
  intro e he
  obtain ⟨hlen, -, hd1, -, hd, hex⟩ := root_entries_fits env fuel name w e he
  have := hH _ hex
  rw [List.length_take] at this
  exact ⟨hd1, by omega⟩

theorem root_walk_once {σ : Type} (env : Env) (ptr : powercap_tree_root)
    (cb : powercap_tree_cb σ) (user : σ) (w : Sys) (hwf : WellFormed ptr) :
    (powercap_tree_root_walk env ptr cb user w).trace.length ≤ (preorder_root ptr).length ∧
    ((powercap_tree_root_walk env ptr cb user w).trace.map Visit.path).Nodup ∧
    ∀ v ∈ (powercap_tree_root_walk env ptr cb user w).trace, v.path ∈ preorder_root ptr := by
  have hpaths := root_walk_paths env ptr cb user w hwf
  have hnd : (preorder_root ptr).Nodup :=
    pairwise_preorderBefore_nodup _ (preorder_children_pairwise ptr.children [] 0 ptr.n_children)
  refine ⟨?_, ?_, ?_⟩
  · have := congrArg List.length hpaths
    simp only [List.length_map, List.length_take] at this
    omega
  · rw [hpaths]
    exact hnd.sublist (List.take_sublist _ _)
  · intro v hv
    have h1 : v.path ∈ (powercap_tree_root_walk env ptr cb user w).trace.map Visit.path :=
      List.mem_map.2 ⟨v, hv, rfl⟩
    rw [hpaths] at h1
    exact List.mem_of_mem_take h1

/-- C14 (amended): let the oracle report present exactly the paths of a finite
set `T` in which every node has fewer than `2 ^ 32` children (every index is
below `2 ^ 32 - 1`) and which either lacks the empty path or has no path of
`2 ^ 32 - 1` indices.  Then, whatever allocation requests fail, with enough fuel
`powercap_tree_root_init` returns; every call of `powercap_tree_node_init` it
makes has a `depth` between `1` and the depth of the tree, so the recursion is
no deeper than the tree; and in a root it returns each probing loop stopped at
the first missing index: the root and every node with path `P` have every index
below their child count reported present and the child count itself reported
missing.  On every tree returned by `powercap_tree_root_init`, for any oracle,
`powercap_tree_root_walk` and `powercap_tree_root_destroy`, which are defined by
recursion on the tree, return; the walk calls the callback at most once per node
and for nodes of the tree only, and the teardown returns `0`. -/
theorem init_walk_destroy_terminate (env : Env) (name : String) (T : Finset (List Nat))
    (w : Sys)
    (hex : ∀ p, env.powercap_sysfs_zone_exists name p = 0 ↔ p ∈ T)
    (hwidth : ∀ p ∈ T, ∀ i ∈ p, i + 1 < U32)
    (hdepth : [] ∉ T ∨ ∀ p ∈ T, p.length + 1 < U32) :
    (∃ fuel0, ∀ fuel, fuel0 ≤ fuel →
      ∃ res w1, powercap_tree_root_init env fuel name w = some (res, w1) ∧
        (∀ e ∈ root_init_entries env fuel name w,
          1 ≤ e.depth ∧ e.depth ≤ T.sup List.length) ∧
        ∀ root, res = some root →
          (∀ j, j < root.n_children → env.powercap_sysfs_zone_exists name [j] = 0) ∧
          env.powercap_sysfs_zone_exists name [root.n_children] ≠ 0 ∧
          ∀ P t, node_at root.children root.n_children P = some t →
            (∀ j, j < t.n_children → env.powercap_sysfs_zone_exists name (P ++ [j]) = 0) ∧
            env.powercap_sysfs_zone_exists name (P ++ [t.n_children]) ≠ 0) ∧
    (∀ (env1 : Env) (fuel1 : Nat) (name1 : String) (v v1 : Sys) (root : powercap_tree_root),
      powercap_tree_root_init env1 fuel1 name1 v = some (some root, v1) →
      (∀ (σ : Type) (env2 : Env) (cb : powercap_tree_cb σ) (user : σ) (w2 : Sys),
        ∃ R, powercap_tree_root_walk env2 root cb user w2 = R ∧
          R.trace.length ≤ (preorder_root root).length ∧
          (R.trace.map Visit.path).Nodup ∧
          ∀ x ∈ R.trace, x.path ∈ preorder_root root) ∧
      ∀ w3, ∃ w4, powercap_tree_root_destroy root w3 = (0, w4)) := by
  constructor
  · obtain ⟨hH, hHu, hn, hW⟩ := finite_oracle_bounds env name T hex hwidth hdepth
    refine ⟨T.sup List.length + U32, fun fuel hf => ?_⟩
    obtain ⟨⟨res, w1⟩, hres⟩ := root_init_terminates_of env name _ hH hHu hn hW fuel hf w
    refine ⟨res, w1, hres, root_entries_depth env fuel name w _ hH, ?_⟩
    rintro root rfl
    obtain ⟨-, -, -, hbelow, hmiss, hDL, -, -⟩ := root_init_ok hres
    refine ⟨hbelow, hmiss, ?_⟩
    intro P t ht
    have hD := node_at_discovered _ P root.children root.n_children [] t hDL ht
    simp only [List.nil_append] at hD
    obtain ⟨-, -, -, hb2, hm2, -⟩ := discovered_children _ P t hD
    refine ⟨hb2, ?_⟩
    rcases hm2 with h | h
    · exact h
    · intro hex2
      have := zone_exists_dom env name _ hex2
      simp at this
      omega
  · intro env1 fuel1 name1 v v1 root hb
    have hwf := root_init_wellFormed hb
    refine ⟨?_, fun w3 => ⟨_, rfl⟩⟩
    intro σ env2 cb user w2
    exact ⟨_, rfl, root_walk_once env2 root cb user w2 hwf⟩

/-- C14, witness: the example of the specification.  With fuel `3` the build
returns a root, having entered `powercap_tree_node_init` at depths `1`, `2`,
`1`. -/
theorem init_walk_destroy_terminate_witness :
    (∀ p, example_env.powercap_sysfs_zone_exists "x" p = 0 ↔ p ∈ example_T) ∧
    (∃ fuel0, ∀ fuel, fuel0 ≤ fuel →
      ∃ res w1, powercap_tree_root_init example_env fuel "x" sys0 = some (res, w1) ∧
        ∀ e ∈ root_init_entries example_env fuel "x" sys0,
          1 ≤ e.depth ∧ e.depth ≤ example_T.sup List.length) ∧
    ((powercap_tree_root_init example_env 3 "x" sys0).map (fun r => r.1.isSome),
      (root_init_entries example_env 3 "x" sys0).map (fun e => e.depth),
      example_T.sup List.length) = (some true, [1, 2, 1], 2) := by
  refine ⟨example_exact, ?_, by decide!⟩
  obtain ⟨fuel0, h⟩ := (init_walk_destroy_terminate example_env "x" example_T sys0
    example_exact (by decide) (Or.inl (by decide))).1
  refine ⟨fuel0, fun fuel hf => ?_⟩
  obtain ⟨res, w1, hres, hdep, -⟩ := h fuel hf
  exact ⟨res, w1, hres, hdep⟩

/-- C14, counterexample: the oracle of `deep_env` reports present exactly the
`2 ^ 32` paths made of zeros (of `0` to `2 ^ 32 - 1` entries), finitely many,
and every node of that tree has one child at most; the control type exists and
no allocation fails.  Yet `powercap_tree_root_init` returns nothing, whatever
the fuel: at depth `2 ^ 32 - 1` the probe is made with `depth + 1`, which wraps
to `0`, the empty path is reported present, and the probing loop never ends. -/
theorem deep_chain_init_never_returns :
    (∀ p, deep_env.powercap_sysfs_zone_exists "x" p = 0 ↔ p ∈ deep_T) ∧
    (∀ p ∈ deep_T, ∀ i ∈ p, i + 1 < U32) ∧
    deep_env.powercap_sysfs_control_type_exists "x" = 0 ∧
    (∀ k, deep_env.alloc_fails k = false) ∧
    ∀ fuel, powercap_tree_root_init deep_env fuel "x" sys0 = none := by
  exact ⟨deep_exact, deep_narrow, rfl, fun _ => rfl, deep_root_init_none sys0⟩

end Powercap
